import Mathlib

/-!
Tanuki, the anime-filename parser: a verification development.

Shallow embedding of `keyword.go`, `parser.go` and `parser_helper.go`.

* Go `string` values are Lean `String`s (well-formed UTF-8, the input contract of
  the parser); `len` counts UTF-8 bytes (`goLen`).
* `*token` pointers into the token store are indices (`tokenPtr`); a pointer to a
  fresh `&token{}` outside the store is `none`.
* Go maps that are only ever read by key are association lists, newest binding first.
* Parts of the repository that are not in the three files are either modelled from
  the specification (their doc comment says so) or taken as parameters (`Deps`).
-/

namespace Tanuki

/-! ## Go string primitives -/

/-- Number of bytes of the UTF-8 encoding of one character. -/
def charBytes (c : Char) : Nat :=
  if c.toNat < 0x80 then 1 else if c.toNat < 0x800 then 2 else if c.toNat < 0x10000 then 3 else 4

/-- Go `len(s)`: the number of bytes of `s`. -/
def goLen (s : String) : Nat := (s.data.map charBytes).sum

/-- Split a character list at every occurrence of `sep`. -/
def splitChars (sep : Char) : List Char → List (List Char)
  | [] => [[]]
  | c :: cs =>
    match splitChars sep cs with
    | [] => [[]]
    | p :: ps => if c = sep then [] :: p :: ps else (c :: p) :: ps

/-- Go `strings.Split(s, sep)` for a separator of one character. -/
def goSplit (s : String) (sep : Char) : List String := (splitChars sep s.data).map String.mk

/-- Go `strings.Trim(s, cutset)`: drop leading and trailing characters of `cutset`. -/
def goTrim (s : String) (cutset : List Char) : String :=
  String.mk ((((s.data.dropWhile (fun c => decide (c ∈ cutset))).reverse).dropWhile
    (fun c => decide (c ∈ cutset))).reverse)

/-- Go `strings.Contains(s, sub)`. -/
def goContains (s sub : String) : Bool := s.data.tails.any (fun t => sub.data.isPrefixOf t)

/-- Go `s[1:]` for a non-empty `s`: the bytes of `s` after the first one.  When the first
character is not ASCII the remainder starts inside its encoding and is not well-formed;
each such stray byte is shown as U+FFFD, as Go does when it decodes the string. -/
def goSliceFrom1 (s : String) : String :=
  match s.data with
  | [] => ""
  | c :: cs => String.mk (List.replicate (charBytes c - 1) (Char.ofNat 0xFFFD) ++ cs)

/-- Go map read by key only: an association list, newest binding first. -/
abbrev GoMap (β : Type) := List (String × β)

/-- Go `m[k] = v`. -/
def GoMap.set {β : Type} (m : GoMap β) (k : String) (v : β) : GoMap β := (k, v) :: m

/-- Go `v, ok := m[k]`. -/
def GoMap.get? {β : Type} : GoMap β → String → Option β
  | [], _ => none
  | (k', v) :: rest, k => if k' = k then some v else GoMap.get? rest k

/-! ## Element categories -/

/-- Modelled from the spec: the closed enumeration of element categories (§3); its
declaration is not under `src/`. -/
inductive elementCategory
  | AnimeTitle | AnimeSeason | AnimeSeasonPrefix | AnimePart | AnimePartPrefix
  | AnimeType | AnimeYear | AudioTerm | DeviceCompatibility | EpisodeNumber
  | EpisodeNumberAlt | EpisodePrefix | EpisodeTitle | FileChecksum | FileExtension
  | FileName | Language | Other | ReleaseGroup | ReleaseInformation | ReleaseVersion
  | Source | Subtitles | VideoResolution | VideoTerm | VolumeNumber | VolumePrefix
  | Unknown
  deriving DecidableEq, Repr

/-- Modelled from the spec: `elementCategory.isSingular` (not under `src/`); §3 lists the
Singular categories: title, season, part, year, checksum, extension, episode number,
release group, release version.  The season is not taken over from that list: §8
(scenario 6, `Seasons 1-2`) has the season element hold both `1` and `2`, and
`checkAnimeSeasonKeyword` (parser_helper.go:61-62) stores the two seasons of a range one
after the other, so the store keeps more than one season. -/
def elementCategory.isSingular : elementCategory → Bool
  | .AnimeTitle | .AnimePart | .AnimeYear | .FileChecksum
  | .FileExtension | .EpisodeNumber | .ReleaseGroup | .ReleaseVersion => true
  | _ => false

/-! ## keyword.go -/

structure keywordOption where
  identifiable : Bool
  searchable : Bool
  valid : Bool
  deriving DecidableEq, Repr

structure keyword where
  category : elementCategory
  options : keywordOption
  deriving DecidableEq, Repr

structure keywordManager where
  keywords : GoMap keyword
  fileExtensions : GoMap keyword
  deriving DecidableEq, Repr

def keywordOptionsDefault : keywordOption := ⟨true, true, true⟩
def keywordOptionsInvalid : keywordOption := ⟨true, true, false⟩
def keywordOptionsUnidentifiable : keywordOption := ⟨false, true, true⟩
def keywordOptionsUnidentifiableInvalid : keywordOption := ⟨false, true, false⟩
def keywordOptionsUnidentifiableUnsearchable : keywordOption := ⟨false, false, true⟩

/-- Go `keyword{}`, the zero value.  Modelled from the spec: the zero value of
`elementCategory` (its declaration is not under `src/`) is taken to be `Unknown`; every
use below only needs that the three options of the zero value are `false`. -/
def keyword.zero : keyword := ⟨elementCategory.Unknown, ⟨false, false, false⟩⟩

def keyword.empty (kd : keyword) : Bool := decide (kd = keyword.zero)

def keywordManager.add (kwm : keywordManager) (cat : elementCategory) (opt : keywordOption)
    (keywords : List String) : keywordManager :=
  keywords.foldl (fun m kw =>
    if cat ≠ elementCategory.FileExtension then
      { m with keywords := m.keywords.set kw ⟨cat, opt⟩ }
    else
      { m with fileExtensions := m.fileExtensions.set kw ⟨cat, opt⟩ }) kwm

def newKeywordManager : keywordManager :=
  let kwm : keywordManager := ⟨[], []⟩
  let kwm := kwm.add .AnimeSeasonPrefix keywordOptionsUnidentifiable
    ["S", "SAISON", "SEASON", "SEASONS", "SAISONS"]
  let kwm := kwm.add .AnimePartPrefix keywordOptionsUnidentifiable ["PARTS", "PART"]
  let kwm := kwm.add .AnimeType keywordOptionsUnidentifiable
    ["GEKIJOUBAN", "MOVIE", "OAD", "OAV", "ONA", "OVA", "SPECIAL", "SPECIALS",
     "TV", "番外編", "總集編", "映像特典", "特典", "特典アニメ"]
  let kwm := kwm.add .AnimeType keywordOptionsUnidentifiableUnsearchable ["SP"]
  let kwm := kwm.add .AnimeType keywordOptionsUnidentifiableInvalid
    ["ED", "ENDING", "NCED", "NCOP", "OPED", "OP", "OPENING", "PREVIEW",
     "PV", "EVENT", "TOKUTEN", "LOGO", "CM", "SPOT", "MENU"]
  let kwm := kwm.add .AudioTerm keywordOptionsDefault
    ["2.0CH", "2CH", "5.1", "5.1CH", "DTS", "DTS-ES", "DTS5.1", "TRUEHD5.1",
     "AAC", "AACX2", "AACX3", "AACX4", "AC3", "EAC3", "E-AC-3", "FLAC",
     "FLACX2", "FLACX3", "FLACX4", "LOSSLESS", "MP3", "OGG", "VORBIS",
     "DD2", "DD2.0",
     "DUALAUDIO", "DUAL-AUDIO"]
  let kwm := kwm.add .DeviceCompatibility keywordOptionsDefault
    ["IPAD3", "IPHONE5", "IPOD", "PS3", "XBOX", "XBOX360"]
  let kwm := kwm.add .DeviceCompatibility keywordOptionsUnidentifiable ["ANDROID"]
  let kwm := kwm.add .EpisodePrefix keywordOptionsDefault
    ["EP", "EP.", "EPS", "EPS.", "EPISODE", "EPISODE.", "EPISODES",
     "CAPITULO", "EPISODIO", "EPIS\u00F3DIO", "FOLGE"]
  let kwm := kwm.add .EpisodePrefix keywordOptionsInvalid ["E", "\x7B2C"]
  let kwm := kwm.add .FileExtension keywordOptionsDefault
    ["3GP", "AVI", "DIVX", "FLV", "M2TS", "MKV", "MOV", "MP4", "MPG",
     "OGM", "RM", "RMVB", "TS", "WEBM", "WMV"]
  let kwm := kwm.add .FileExtension keywordOptionsInvalid
    ["AAC", "AIFF", "FLAC", "M4A", "MP3", "MKA", "OGG", "WAV", "WMA",
     "7Z", "RAR", "ZIP", "ASS", "SRT"]
  let kwm := kwm.add .Language keywordOptionsDefault
    ["ENG", "ENGLISH", "ESPANOL", "JAP", "PT-BR", "SPANISH", "VOSTFR"]
  let kwm := kwm.add .Language keywordOptionsUnidentifiable ["ESP", "ITA"]
  let kwm := kwm.add .Other keywordOptionsDefault
    ["REMASTER", "REMASTERED", "UNCENSORED", "UNCUT", "TS", "VFR",
     "WIDESCREEN", "WS"]
  let kwm := kwm.add .ReleaseGroup keywordOptionsDefault
    ["THORA", "HORRIBLESUBS", "ERAI-RAWS", "SUBSPLEASE"]
  let kwm := kwm.add .ReleaseInformation keywordOptionsDefault
    ["BATCH", "COMPLETE", "PATCH", "REMUX"]
  let kwm := kwm.add .ReleaseInformation keywordOptionsUnidentifiable ["END", "FINAL"]
  let kwm := kwm.add .ReleaseVersion keywordOptionsDefault ["V0", "V1", "V2", "V3", "V4"]
  let kwm := kwm.add .Source keywordOptionsDefault
    ["BD", "BDRIP", "BLURAY", "BLU-RAY", "DVD", "DVD5", "DVD9",
     "DVD-R2J", "DVDRIP", "DVD-RIP", "R2DVD", "R2J", "R2JDVD",
     "R2JDVDRIP", "HDTV", "HDTVRIP", "TVRIP", "TV-RIP",
     "WEBCAST", "WEBRIP"]
  let kwm := kwm.add .Subtitles keywordOptionsDefault
    ["ASS", "BIG5", "DUB", "DUBBED", "HARDSUB", "HARDSUBS", "RAW",
     "SOFTSUB", "SOFTSUBS", "SUB", "SUBBED", "SUBTITLED", "MULTISUB"]
  let kwm := kwm.add .VideoTerm keywordOptionsDefault
    ["23.976FPS", "24FPS", "29.97FPS", "30FPS", "60FPS", "120FPS",
     "8BIT", "8-BIT", "10BIT", "10BITS", "10-BIT", "10-BITS",
     "HI10", "HI10P", "HI444", "HI444P", "HI444PP",
     "H264", "H265", "H.264", "H.265", "X264", "X265", "X.264",
     "AVC", "HEVC", "HEVC2", "DIVX", "DIVX5", "DIVX6", "XVID",
     "AV1",
     "HDR", "DV", "DOLBY VISION",
     "AVI", "RMVB", "WMV", "WMV3", "WMV9",
     "HQ", "LQ",
     "HD", "SD", "4K"]
  let kwm := kwm.add .VolumePrefix keywordOptionsDefault
    ["VOL", "VOL.", "VOLUME", "VOLUMES"]
  kwm

/-- Take a word and return the keyword value. -/
def keywordManager.find (kwm : keywordManager) (word : String) (cat : elementCategory) :
    keyword × Bool :=
  if cat ≠ elementCategory.FileExtension then
    match kwm.keywords.get? word with
    | some v =>
      if v.category = elementCategory.Unknown ∨ v.category = cat then (v, true)
      else (keyword.zero, false)
    | none => (keyword.zero, false)
  else
    match kwm.fileExtensions.get? word with
    | some v => (v, true)
    | none => (keyword.zero, false)

/-- Take a word and return the keyword value without knowing its category. -/
def keywordManager.findWithoutCategory (kwm : keywordManager) (word : String) :
    keyword × Bool :=
  match kwm.keywords.get? word with
  | some v => (v, true)
  | none =>
    match kwm.fileExtensions.get? word with
    | some v => (v, true)
    | none => (keyword.zero, false)

/-! ## Element store -/

/-- Modelled from the spec: the element store (§3, §4.3), whose declaration is not under
`src/`: a mapping from category to the ordered list of its values, and the flag
`checkAltNumber`. -/
structure Elements where
  values : elementCategory → List String
  checkAltNumber : Bool

/-- The store of a fresh parse: no value in any category. -/
def Elements.new : Elements := ⟨fun _ => [], false⟩

/-- Modelled from the spec: `Elements.get` (§4.3), the list of values of a category. -/
def Elements.get (e : Elements) (cat : elementCategory) : List String := e.values cat

/-- Modelled from the spec: `Elements.contains` (§4.3), whether the category has a value. -/
def Elements.contains (e : Elements) (cat : elementCategory) : Bool := !(e.values cat).isEmpty

/-- Replace the list of one category. -/
def Elements.put (e : Elements) (cat : elementCategory) (l : List String) : Elements :=
  { e with values := fun c => if c = cat then l else e.values c }

/-- Modelled from the spec: `Elements.insert` (§4.3): "appends; for Singular categories, the
first insert wins unless `checkAltNumber` is set and the category is `EpisodeNumber`, in
which case a second distinct value is stored in `EpisodeNumberAlt`". -/
def Elements.insert (e : Elements) (cat : elementCategory) (v : String) : Elements :=
  if cat.isSingular then
    match e.values cat with
    | [] => e.put cat [v]
    | first :: _ =>
      if cat = elementCategory.EpisodeNumber ∧ e.checkAltNumber = true ∧ v ≠ first then
        e.put elementCategory.EpisodeNumberAlt (e.values elementCategory.EpisodeNumberAlt ++ [v])
      else e
  else e.put cat (e.values cat ++ [v])

/-- Modelled from the spec: `Elements.erase` (§4.3): drop every value of the category. -/
def Elements.erase (e : Elements) (cat : elementCategory) : Elements := e.put cat []

/-- Modelled from the spec: `Elements.remove` (§4.3): drop the value `v` from the category. -/
def Elements.remove (e : Elements) (cat : elementCategory) (v : String) : Elements :=
  e.put cat ((e.values cat).filter (fun x => decide (x ≠ v)))

/-- Modelled from the spec: `Elements.setCheckAltNumber` (§3). -/
def Elements.setCheckAltNumber (e : Elements) (b : Bool) : Elements :=
  { e with checkAltNumber := b }

/-! ## Token store -/

/-- Modelled from the spec: token categories (§3). -/
inductive tokenCategory
  | Unknown | Bracket | Delimiter | Identifier | Invalid
  deriving DecidableEq, Repr

/-- Modelled from the spec: a token (§3); the fields `Category` and `Content` are the ones
the parser reads and writes. -/
structure token where
  Category : tokenCategory
  Content : String
  Enclosed : Bool
  deriving DecidableEq, Repr

/-- Go `token{}`, the zero value. -/
def token.zero : token := ⟨tokenCategory.Unknown, "", false⟩

/-- Modelled from the spec: `token.empty`, whether the token is the zero value. -/
def token.empty (t : token) : Bool := decide (t = token.zero)

/-- A `*token`: the index of a token of the store, or `none` for a fresh `&token{}` that is
not in the store. -/
abbrev tokenPtr := Option Nat

/-- The token store, `type tokens []*token`. -/
abbrev tokens := List token

/-- Go `*p`. -/
def tokens.deref (ts : tokens) (p : tokenPtr) : token :=
  match p with
  | some i => ts.getD i token.zero
  | none => token.zero

/-- Go `p.Category = c` through a pointer; a write to a token outside the store is lost. -/
def tokens.setCategory (ts : tokens) (p : tokenPtr) (c : tokenCategory) : tokens :=
  match p with
  | some i => ts.modify (fun t => { t with Category := c }) i
  | none => ts

/-- Go `p.Content = s` through a pointer. -/
def tokens.setContent (ts : tokens) (p : tokenPtr) (s : String) : tokens :=
  match p with
  | some i => ts.modify (fun t => { t with Content := s }) i
  | none => ts

/-- Modelled from the spec: the flag bits of §4.2. -/
inductive tokenFlag
  | Bracket | NotBracket | Delimiter | NotDelimiter | Identifier | NotIdentifier
  | Unknown | NotUnknown | Valid | NotValid | Enclosed | NotEnclosed
  deriving DecidableEq, Repr

/-- A flag mask; Go `a | b` is `a ++ b`. -/
abbrev tokenFlags := List tokenFlag

def tokenFlagsNone : tokenFlags := []
def tokenFlagsBracket : tokenFlags := [tokenFlag.Bracket]
def tokenFlagsNotDelimiter : tokenFlags := [tokenFlag.NotDelimiter]
def tokenFlagsIdentifier : tokenFlags := [tokenFlag.Identifier]
def tokenFlagsUnknown : tokenFlags := [tokenFlag.Unknown]
def tokenFlagsValid : tokenFlags := [tokenFlag.Valid]
def tokenFlagsEnclosed : tokenFlags := [tokenFlag.Enclosed]
def tokenFlagsNotEnclosed : tokenFlags := [tokenFlag.NotEnclosed]

/-- The literal `-1` passed by `buildElement`: every bit set. -/
def tokenFlagsMinusOne : tokenFlags :=
  [.Bracket, .NotBracket, .Delimiter, .NotDelimiter, .Identifier, .NotIdentifier,
   .Unknown, .NotUnknown, .Valid, .NotValid, .Enclosed, .NotEnclosed]

/-- Whether one category bit accepts the token. -/
def tokenFlag.categoryOk (t : token) : tokenFlag → Bool
  | .Bracket => decide (t.Category = tokenCategory.Bracket)
  | .NotBracket => decide (t.Category ≠ tokenCategory.Bracket)
  | .Delimiter => decide (t.Category = tokenCategory.Delimiter)
  | .NotDelimiter => decide (t.Category ≠ tokenCategory.Delimiter)
  | .Identifier => decide (t.Category = tokenCategory.Identifier)
  | .NotIdentifier => decide (t.Category ≠ tokenCategory.Identifier)
  | .Unknown => decide (t.Category = tokenCategory.Unknown)
  | .NotUnknown => decide (t.Category ≠ tokenCategory.Unknown)
  | .Valid => decide (t.Category ≠ tokenCategory.Invalid)
  | .NotValid => decide (t.Category = tokenCategory.Invalid)
  | .Enclosed => false
  | .NotEnclosed => false

/-- Whether the bit is one of the two enclosure bits. -/
def tokenFlag.isEnclosure : tokenFlag → Bool
  | .Enclosed | .NotEnclosed => true
  | _ => false

/-- Modelled from the spec: the flag filter of the traversal operations (§4.2, and the
uses in §4.4: "`NotEnclosed & Unknown`", "`Identifier | Bracket`", `MaskValid` "any
non-Invalid", `None`).  The enclosure bits, when present, must admit the token, and the
category bits, when present, must have one that admits it. -/
def checkTokenFlags (t : token) (flags : tokenFlags) : Bool :=
  ((!flags.any tokenFlag.isEnclosure)
    || (flags.contains tokenFlag.Enclosed && t.Enclosed)
    || (flags.contains tokenFlag.NotEnclosed && !t.Enclosed))
  && ((flags.all tokenFlag.isEnclosure) || flags.any (tokenFlag.categoryOk t))

/-- Indices `i` with `lo ≤ i < hi` whose token passes the filter, ascending. -/
def tokens.scan (ts : tokens) (flags : tokenFlags) (lo hi : Nat) : List Nat :=
  (List.range hi).filter (fun i => decide (lo ≤ i) && checkTokenFlags (ts.getD i token.zero) flags)

/-- Modelled from the spec: `tokens.getListFlag(flags)` (§4.2), the whole store filtered. -/
def tokens.getListFlag (ts : tokens) (flags : tokenFlags) : List Nat :=
  ts.scan flags 0 ts.length

/-- Modelled from the spec: `tokens.get(index)` (§4.2): the token at `index` and whether
the index is in the store. -/
def tokens.get (ts : tokens) (index : Int) : tokenPtr × Bool :=
  if 0 ≤ index ∧ index.toNat < ts.length then (some index.toNat, true) else (none, false)

/-- Modelled from the spec: `tokens.find(flags)` (§4.2), the first match. -/
def tokens.find (ts : tokens) (flags : tokenFlags) : tokenPtr × Bool :=
  match ts.scan flags 0 ts.length with
  | i :: _ => (some i, true)
  | [] => (none, false)

/-- Modelled from the spec: `tokens.findNext(from, flags)` (§4.2): the first match after
`from`, a "simple forward scan".  From a token that is not in the store nothing is found. -/
def tokens.findNext (ts : tokens) (p : tokenPtr) (flags : tokenFlags) : tokenPtr × Bool :=
  match p with
  | none => (none, false)
  | some i =>
    match ts.scan flags (i + 1) ts.length with
    | j :: _ => (some j, true)
    | [] => (none, false)

/-- Modelled from the spec: `tokens.findPrevious(from, flags)` (§4.2): the last match
before `from`, a "reverse scan". -/
def tokens.findPrevious (ts : tokens) (p : tokenPtr) (flags : tokenFlags) : tokenPtr × Bool :=
  match p with
  | none => (none, false)
  | some i =>
    match (ts.scan flags 0 (min i ts.length)).reverse with
    | j :: _ => (some j, true)
    | [] => (none, false)

/-- Modelled from the spec: `tokens.getList(flags, begin, end)` (§4.2), the matches between
the two tokens, both included. -/
def tokens.getList (ts : tokens) (flags : tokenFlags) (b e : tokenPtr) : List Nat :=
  match b, e with
  | some i, some j => ts.scan flags i (min (j + 1) ts.length)
  | _, _ => []

/-- Modelled from the spec: `tokens.getIndex(token, from)` (§4.2).  The parser passes the
token by value (`*first`), so the position is recovered by comparing values: the first
index at or after `from` that holds an equal token, `-1` when there is none. -/
def tokens.getIndex (ts : tokens) (t : token) (start : Int) : Int :=
  match ts.scan tokenFlagsNone start.toNat ts.length |>.filter (fun i => decide (ts.getD i token.zero = t)) with
  | i :: _ => (i : Int)
  | [] => -1

/-- Modelled from the spec: `tokens.distance(a, b)` (§4.2), the number of positions from
`a` to `b`; `-1` when one of them is not in the store. -/
def tokens.distance (ts : tokens) (a b : tokenPtr) : Int :=
  match a, b with
  | some i, some j => if i < ts.length ∧ j < ts.length then (j : Int) - (i : Int) else -1
  | _, _ => -1

/-- Modelled from the spec: `tokens.isTokenIsolated(t)` (§4.2): "both neighbors filtering
delimiters are brackets or absent". -/
def tokens.isTokenIsolated (ts : tokens) (p : tokenPtr) : Bool :=
  let prev := ts.findPrevious p tokenFlagsNotDelimiter
  let next := ts.findNext p tokenFlagsNotDelimiter
  (!prev.2 || decide ((ts.deref prev.1).Category = tokenCategory.Bracket))
  && (!next.2 || decide ((ts.deref next.1).Category = tokenCategory.Bracket))

/-- Modelled from the spec: `tokenizer.addToken(flags, content, enclosed)` (§4.2): a new
token at the end of the store, of the category the flag names. -/
def tokens.addToken (ts : tokens) (flags : tokenFlags) (content : String) (enclosed : Bool) :
    tokens :=
  let cat :=
    if flags.contains tokenFlag.Bracket then tokenCategory.Bracket
    else if flags.contains tokenFlag.Delimiter then tokenCategory.Delimiter
    else if flags.contains tokenFlag.Identifier then tokenCategory.Identifier
    else tokenCategory.Unknown
  ts ++ [⟨cat, content, enclosed⟩]

/-! ## Regular expressions

The patterns of the parser use character classes, bounded or unbounded greedy repetition
of a class, an optional group, capture groups and the anchors `^` and `$`.  `Regex.run`
is a backtracking matcher that tries alternatives in the order of Go's `regexp`
(leftmost match, and among the matches at one position the first in priority order). -/

inductive Regex where
  | cls (p : Char → Bool)
  | seq (a b : Regex)
  | alt (a b : Regex)
  | eps
  | rep (p : Char → Bool) (min : Nat) (max : Option Nat)
  | group (n : Nat) (a : Regex)
  | bot
  | eot

/-- Captures so far: group number, start and end position; the newest first. -/
abbrev Caps := List (Nat × Nat × Nat)

/-- Greedy repetition of a class, between `min` and `max` times. -/
def Regex.repRun (p : Char → Bool) (k : Nat → List Char → Option Caps) :
    Nat → Option Nat → Nat → List Char → Option Caps
  | min, _, pos, [] => if min = 0 then k pos [] else none
  | min, max, pos, c :: cs =>
    let more : Option Caps :=
      if p c = true ∧ max ≠ some 0 then
        Regex.repRun p k (min - 1) (max.map (fun m => m - 1)) (pos + 1) cs
      else none
    match more with
    | some r => some r
    | none => if min = 0 then k pos (c :: cs) else none

/-- Match `r` at position `pos` (with `inp` the rest of the text) and continue with `k`. -/
def Regex.run : Regex → Nat → List Char → Caps → (Nat → List Char → Caps → Option Caps) →
    Option Caps
  | .cls _, _, [], _, _ => none
  | .cls p, pos, c :: cs, caps, k => if p c = true then k (pos + 1) cs caps else none
  | .seq a b, pos, inp, caps, k =>
    a.run pos inp caps (fun pos1 inp1 caps1 => b.run pos1 inp1 caps1 k)
  | .alt a b, pos, inp, caps, k =>
    match a.run pos inp caps k with
    | some r => some r
    | none => b.run pos inp caps k
  | .eps, pos, inp, caps, k => k pos inp caps
  | .rep p min max, pos, inp, caps, k =>
    Regex.repRun p (fun pos1 inp1 => k pos1 inp1 caps) min max pos inp
  | .group n a, pos, inp, caps, k =>
    a.run pos inp caps (fun pos1 inp1 caps1 => k pos1 inp1 ((n, pos, pos1) :: caps1))
  | .bot, pos, inp, caps, k => if pos = 0 then k pos inp caps else none
  | .eot, pos, inp, caps, k => if inp = [] then k pos inp caps else none

/-- The leftmost match starting at `pos` or later; group 0 is the whole match. -/
def Regex.findFrom (r : Regex) : Nat → List Char → Option Caps
  | pos, [] => r.run pos [] [] (fun e _ caps => some ((0, pos, e) :: caps))
  | pos, c :: cs =>
    match r.run pos (c :: cs) [] (fun e _ caps => some ((0, pos, e) :: caps)) with
    | some caps => some caps
    | none => Regex.findFrom r (pos + 1) cs

/-- The text of group `n`; the empty string when the group took no part in the match. -/
def Caps.text (caps : Caps) (s : List Char) (n : Nat) : String :=
  match caps.find? (fun c => c.1 = n) with
  | some (_, b, e) => String.mk ((s.drop b).take (e - b))
  | none => ""

/-- Go `re.FindStringSubmatch(s)`, also the first element of
`re.FindAllStringSubmatch(s, -1)`: `none` for `nil`, else the texts of the groups
`0 .. groups`. -/
def Regex.findStringSubmatch (r : Regex) (groups : Nat) (s : String) : Option (List String) :=
  match r.findFrom 0 s.data with
  | some caps => some ((List.range (groups + 1)).map (fun n => Caps.text caps s.data n))
  | none => none

/-- Go `regexp.Match`. -/
def Regex.isMatch (r : Regex) (s : String) : Bool := (r.findFrom 0 s.data).isSome

def reDigit (c : Char) : Bool := decide (0x30 ≤ c.toNat ∧ c.toNat ≤ 0x39)
def reSpace (c : Char) : Bool := decide (c ∈ ['\t', '\n', Char.ofNat 0x0C, '\r', ' '])
def reAnyChar (c : Char) : Bool := decide (c ≠ '\n')
def reOneOf (l : List Char) (c : Char) : Bool := decide (c ∈ l)

/-- The regexp `[Ss](?P<a>\d{1,2})[-&~](?P<b>\d{1,2})`. -/
def seasonRe : Regex :=
  .seq (.cls (reOneOf ['S', 's']))
    (.seq (.group 1 (.rep reDigit 1 (some 2)))
      (.seq (.cls (reOneOf ['-', '&', '~'])) (.group 2 (.rep reDigit 1 (some 2)))))

/-- Its `SubexpNames()`. -/
def seasonReNames : List String := ["", "a", "b"]

/-- Go `for i, n := range r2[0] { md[n1[i]] = n }`. -/
def mdOf (names : List String) (m : List String) : GoMap String :=
  (List.zip names m).foldl (fun md nv => md.set nv.1 nv.2) []

/-! ## parser_helper.go: character and string tests -/

def dashes : List Char :=
  ['-', Char.ofNat 0x2010, Char.ofNat 0x2011, Char.ofNat 0x2012, Char.ofNat 0x2013,
   Char.ofNat 0x2014, Char.ofNat 0x2015]

def separators : List Char :=
  ['&', '~', '-', Char.ofNat 0x2010, Char.ofNat 0x2011, Char.ofNat 0x2012, Char.ofNat 0x2013,
   Char.ofNat 0x2014, Char.ofNat 0x2015]

def isDashCharacter (str : String) : Bool :=
  if goLen str ≠ 1 then false
  else dashes.any (fun dash => decide (str = String.singleton dash))

def isSeparatorCharacter (str : String) : Bool :=
  if goLen str ≠ 1 then false
  else separators.any (fun dash => decide (str = String.singleton dash))

/-- The value of a hexadecimal digit. -/
def hexDigit? (c : Char) : Option Nat :=
  if 0x30 ≤ c.toNat ∧ c.toNat ≤ 0x39 then some (c.toNat - 0x30)
  else if 0x61 ≤ c.toNat ∧ c.toNat ≤ 0x66 then some (c.toNat - 0x61 + 10)
  else if 0x41 ≤ c.toNat ∧ c.toNat ≤ 0x46 then some (c.toNat - 0x41 + 10)
  else none

/-- The value of a digit string in base `base` (16 or 10), `none` on a character that is
not a digit of the base or on the empty string. -/
def digitsValue (base : Nat) (cs : List Char) : Option Nat :=
  if cs = [] then none
  else cs.foldl (fun acc c =>
    match acc, hexDigit? c with
    | some a, some d => if d < base then some (a * base + d) else none
    | _, _ => none) (some 0)

/-- Go `strconv.ParseInt(s, base, 64)` for an explicit base 10 or 16: an optional sign,
then digits; `none` when Go returns an error (syntax, or a value outside `int64`). -/
def goParseInt (s : String) (base : Nat) : Option Int :=
  match s.data with
  | '+' :: cs =>
    match digitsValue base cs with
    | some v => if v < 2 ^ 63 then some (v : Int) else none
    | none => none
  | '-' :: cs =>
    match digitsValue base cs with
    | some v => if v ≤ 2 ^ 63 then some (-(v : Int)) else none
    | none => none
  | cs =>
    match digitsValue base cs with
    | some v => if v < 2 ^ 63 then some (v : Int) else none
    | none => none

def isHexadecimalString (str : String) : Bool := (goParseInt str 16).isSome

def isCRC32 (str : String) : Bool := decide (goLen str = 8) && isHexadecimalString str

/-- The regexp `\d{3,4}([pP]|([xX×]\d{3,4}))$`. -/
def resolutionRe : Regex :=
  .seq (.rep reDigit 3 (some 4))
    (.seq (.group 1 (.alt (.cls (reOneOf ['p', 'P']))
        (.group 2 (.seq (.cls (reOneOf ['x', 'X', Char.ofNat 0xD7])) (.rep reDigit 3 (some 4))))))
      .eot)

def isResolution (str : String) : Bool := resolutionRe.isMatch str

/-- Modelled from the spec: `isNumeric` (not under `src/`), "purely numeric": a non-empty
string of decimal digits. -/
def isNumeric (s : String) : Bool := !s.data.isEmpty && s.data.all reDigit

/-- Go `n, _ := strconv.Atoi(s)`: the value, `0` on a syntax error and the nearest `int64`
bound on a range error. -/
def goAtoi (s : String) : Int :=
  match goParseInt s 10 with
  | some v => v
  | none =>
    match s.data with
    | '-' :: cs => if (digitsValue 10 cs).isSome then -(2 ^ 63 : Int) else 0
    | '+' :: cs => if (digitsValue 10 cs).isSome then (2 ^ 63 : Int) - 1 else 0
    | cs => if (digitsValue 10 cs).isSome then (2 ^ 63 : Int) - 1 else 0

/-- Go `strconv.Itoa` on the ordinals `0 .. 9` that `getNumberFromOrdinal` returns. -/
def goItoa (n : Nat) : String := String.singleton (Char.ofNat (0x30 + n % 10))

/-- Modelled from the spec: `extractNumbersFromString` (not under `src/`), "extract the
number": the decimal digits of the string, in order. -/
def extractNumbersFromString (s : String) : String := String.mk (s.data.filter reDigit)

/-- Modelled from the spec: `animeYearMin` (not under `src/`), the lower bound 1900 of §4.4
pass 4. -/
def animeYearMin : Int := 1900

def ordinals : GoMap Nat :=
  [("1st", 1), ("first", 1), ("2nd", 2), ("second", 2), ("3rd", 3), ("third", 3),
   ("4th", 4), ("fourth", 4), ("5th", 5), ("fifth", 5), ("6th", 6), ("sixth", 6),
   ("7th", 7), ("seventh", 7), ("8th", 8), ("eighth", 8), ("9th", 9), ("ninth", 9)]

/-! ## Parser state and the parts taken as parameters -/

/-- Modelled from the spec: the options of §6. -/
structure Options where
  AllowedDelimiters : String
  ParseEpisodeNumber : Bool
  ParseEpisodeTitle : Bool
  ParseFileExtension : Bool
  ParseReleaseGroup : Bool
  deriving DecidableEq, Repr

/-- The defaults of §6. -/
def Options.default : Options := ⟨" _.&+,|", true, true, true, true⟩

/-- The parser with the fields of its tokenizer that the passes use
(`p.tokenizer.tokens`, `p.tokenizer.elements`, `p.tokenizer.options`,
`p.tokenizer.keywordManager`). -/
structure parser where
  tokens : tokens
  elements : Elements
  options : Options
  keywordManager : keywordManager

/-- What the three files call and do not define, taken as parameters: the text library
(`norm.Form(n).Bytes`, `strings.ToUpper`, `strings.ToLower`, `unicode.In(r, unicode.Latin)`),
the category attribute `isSearchable`, the constant `animeYearMax`, and the
episode-number routines of the parser. -/
structure Deps where
  normForm : Nat → String → String
  toUpper : String → String
  toLower : String → String
  isLatin : Char → Bool
  isSearchable : elementCategory → Bool
  animeYearMax : Int
  checkExtentKeyword : elementCategory → tokenPtr → parser → parser
  searchForEpisodePatterns : List Nat → parser → Bool × parser
  searchForEquivalentNumbers : List Nat → parser → Bool × parser
  searchForSeparatedNumbers : List Nat → parser → Bool × parser
  searchForIsolatedNumbersTokens : List Nat → parser → Bool × parser
  searchForLastNumber : List Nat → parser → Bool × parser

/-- `func (kwm *keywordManager) normalize(text string) string`: `norm.Form(3)` applied to
the text, then `strings.ToUpper`. -/
def keywordManager.normalize (D : Deps) (text : String) : String :=
  D.toUpper (D.normForm 3 text)

def getNumberFromOrdinal (D : Deps) (str : String) : Nat :=
  let lowerStr := D.toLower str
  match ordinals.get? lowerStr with
  | some num => num
  | none => 0

def isLatinRune (D : Deps) (r : Char) : Bool := D.isLatin r

def isMostlyLatinString (D : Deps) (str : String) : Bool :=
  if goLen str ≤ 0 then false
  else
    let latinLength := (str.data.filter (isLatinRune D)).length
    let nonLatinLength := (str.data.filter (fun r => !isLatinRune D r)).length
    decide (latinLength > nonLatinLength)

/-! ## parser_helper.go: keyword handlers and buildElement -/

def parser.setAnimeSeason (p : parser) (first second : tokenPtr) (content : String) : parser :=
  let elements := p.elements.insert elementCategory.AnimeSeason content
  let firstIdx := p.tokens.getIndex (p.tokens.deref first) 0
  let secondIdx := p.tokens.getIndex (p.tokens.deref second) firstIdx
  let firstTkn := (p.tokens.get firstIdx).1
  let secondTkn := (p.tokens.get secondIdx).1
  let ts := p.tokens.setCategory firstTkn tokenCategory.Identifier
  let ts := ts.setCategory secondTkn tokenCategory.Identifier
  { p with elements := elements, tokens := ts }

/-- The block `if len(tkn.Content) > 3 { if tkn.Content[0] == 'S' { ... } }` of
`checkAnimeSeasonKeyword`: "S1-2" "S1&2" "S1~2" "S1-S2". -/
def parser.seasonShortenedRange (p : parser) (tkn nextToken : tokenPtr) : parser :=
  let content := (p.tokens.deref tkn).Content
  if goLen content > 3 ∧ content.data.head? = some 'S' then
    match seasonRe.findStringSubmatch 2 content with
    | some m =>
      let md := mdOf seasonReNames m
      match md.get? "a", md.get? "b" with
      | some a, some b => (p.setAnimeSeason tkn nextToken a).setAnimeSeason tkn nextToken b
      | _, _ => p
    | none => p
  else p

/-- The block `if found { ... }` of `checkAnimeSeasonKeyword`: "Seasons 1-2", etc. -/
def parser.seasonRange (p : parser) (tkn nextToken : tokenPtr) (found : Bool) : parser :=
  if found = true then
    let nextContent := (p.tokens.deref nextToken).Content
    -- If next token is either "1-2", "1~2", "1&2"
    let parts := goSplit nextContent '-'
    let parts :=
      if parts.length ≠ 2 then goSplit nextContent '~'
      else if parts.length ≠ 2 then goSplit nextContent '&'
      else parts
    match parts with
    | [a, b] =>
      -- Make sure the length matches. e.g, 1-2, 01-02, 001-002
      if goLen a = goLen b ∧ isNumeric a = true ∧ isNumeric b = true then
        (p.setAnimeSeason tkn nextToken a).setAnimeSeason tkn nextToken b
      else p
    | _ => p
  else p

/-- The body of `if found && isNumeric(nextToken.Content) { ... }` of
`checkAnimeSeasonKeyword`, up to its `return true`: "Seasons 1 - 2", or a single number. -/
def parser.seasonNumber (p : parser) (tkn nextToken : tokenPtr) : parser :=
  let rangeDelimiter := p.tokens.findNext nextToken tokenFlagsNotDelimiter
  let nextUp := p.tokens.findNext rangeDelimiter.1 tokenFlagsNotDelimiter
  let nextContent := (p.tokens.deref nextToken).Content
  let nextUpContent := (p.tokens.deref nextUp.1).Content
  if rangeDelimiter.2 = true ∧ isSeparatorCharacter (p.tokens.deref rangeDelimiter.1).Content = true
      ∧ nextUp.2 = true ∧ goLen nextContent = 1 ∧ goLen nextUpContent = 1
      ∧ isNumeric nextUpContent = true then
    (p.setAnimeSeason tkn nextToken nextContent).setAnimeSeason tkn nextUp.1 nextUpContent
  else
    p.setAnimeSeason tkn nextToken nextContent

def parser.checkAnimeSeasonKeyword (D : Deps) (p : parser) (tkn : tokenPtr) : Bool × parser :=
  -- Handle "4th Season", etc...
  let prev := p.tokens.findPrevious tkn tokenFlagsNotDelimiter
  let num := getNumberFromOrdinal D (p.tokens.deref prev.1).Content
  if prev.2 = true ∧ num ≠ 0 then
    (true, p.setAnimeSeason prev.1 tkn (goItoa num))
  else
    let next := p.tokens.findNext tkn tokenFlagsNotDelimiter
    let nextToken := next.1
    let found := next.2
    let p := p.seasonShortenedRange tkn nextToken
    let p := p.seasonRange tkn nextToken found
    if found = true ∧ isNumeric (p.tokens.deref nextToken).Content = true then
      (true, p.seasonNumber tkn nextToken)
    else (false, p)

def parser.setAnimePart (p : parser) (first second : tokenPtr) (content : String) : parser :=
  let elements := p.elements.insert elementCategory.AnimePart content
  let firstIdx := p.tokens.getIndex (p.tokens.deref first) 0
  let secondIdx := p.tokens.getIndex (p.tokens.deref second) firstIdx
  let firstTkn := (p.tokens.get firstIdx).1
  let secondTkn := (p.tokens.get secondIdx).1
  let ts := p.tokens.setCategory firstTkn tokenCategory.Identifier
  let ts := ts.setCategory secondTkn tokenCategory.Identifier
  { p with elements := elements, tokens := ts }

/-- The unguarded range block of `checkAnimePartKeyword`: "Parts 1-2" etc. -/
def parser.partRange (p : parser) (tkn nextToken : tokenPtr) : parser :=
  let nextContent := (p.tokens.deref nextToken).Content
  let parts := goSplit nextContent '-'
  let parts :=
    if parts.length ≠ 2 then goSplit nextContent '~'
    else if parts.length ≠ 2 then goSplit nextContent '&'
    else parts
  match parts with
  | [a, b] =>
    if isNumeric a = true ∧ isNumeric b = true then
      (p.setAnimePart tkn nextToken a).setAnimePart tkn nextToken b
    else p
  | _ => p

/-- The body of `if found && isNumeric(nextToken.Content) { ... }` of
`checkAnimePartKeyword`, up to its `return true`: "Parts 1 - 2", or a single number. -/
def parser.partNumber (p : parser) (tkn nextToken : tokenPtr) : parser :=
  let rangeDelimiter := p.tokens.findNext nextToken tokenFlagsNotDelimiter
  let nextUp := p.tokens.findNext rangeDelimiter.1 tokenFlagsNotDelimiter
  let nextContent := (p.tokens.deref nextToken).Content
  let nextUpContent := (p.tokens.deref nextUp.1).Content
  if rangeDelimiter.2 = true ∧ isSeparatorCharacter (p.tokens.deref rangeDelimiter.1).Content = true
      ∧ nextUp.2 = true ∧ goLen nextContent = 1 ∧ goLen nextUpContent = 1
      ∧ isNumeric nextUpContent = true then
    (p.setAnimePart tkn nextToken nextContent).setAnimePart tkn nextUp.1 nextUpContent
  else
    p.setAnimePart tkn nextToken nextContent

def parser.checkAnimePartKeyword (D : Deps) (p : parser) (tkn : tokenPtr) : Bool × parser :=
  let prev := p.tokens.findPrevious tkn tokenFlagsNotDelimiter
  let num := getNumberFromOrdinal D (p.tokens.deref prev.1).Content
  if prev.2 = true ∧ num ≠ 0 then
    (true, p.setAnimePart prev.1 tkn (goItoa num))
  else
    let next := p.tokens.findNext tkn tokenFlagsNotDelimiter
    let nextToken := next.1
    let found := next.2
    let p := p.partRange tkn nextToken
    if found = true ∧ isNumeric (p.tokens.deref nextToken).Content = true then
      (true, p.partNumber tkn nextToken)
    else (false, p)

/-- One iteration of the loop of `buildElement` over the token `tkn`: the element text so
far and the token store. -/
def buildElementStep (beginToken endToken : tokenPtr) (keepDelimiters : Bool)
    (acc : String × tokens) (i : Nat) : String × tokens :=
  let element := acc.1
  let ts := acc.2
  let tkn : tokenPtr := some i
  let t := ts.deref tkn
  if t.Category = tokenCategory.Unknown then
    (element ++ t.Content, ts.setCategory tkn tokenCategory.Identifier)
  else if t.Category = tokenCategory.Bracket then
    (element ++ t.Content, ts)
  else if t.Category = tokenCategory.Delimiter then
    let delimiter := t.Content
    if keepDelimiters = true then (element ++ delimiter, ts)
    else if tkn ≠ beginToken ∧ tkn ≠ endToken then
      if delimiter = "," ∨ delimiter = "&" then (element ++ delimiter, ts)
      else (element ++ " ", ts)
    else (element, ts)
  else (element, ts)

/-- The `strings.ToValidUTF8(element, "")` of `buildElement` is the identity on the
well-formed strings of this embedding. -/
def parser.buildElement (p : parser) (cat : elementCategory) (beginToken endToken : tokenPtr)
    (keepDelimiters : Bool) : parser :=
  let tknList := p.tokens.getList tokenFlagsMinusOne beginToken endToken
  let r := tknList.foldl (buildElementStep beginToken endToken keepDelimiters) ("", p.tokens)
  let element := if keepDelimiters = false then goTrim r.1 (' ' :: dashes) else r.1
  let p := { p with tokens := r.2 }
  if element ≠ "" then
    { p with elements := p.elements.insert cat (goTrim element [' ']) }
  else p

/-! ## parser.go: the passes -/

def parser.preProcessing (p : parser) : parser :=
  (p.tokens.getListFlag tokenFlagsUnknown).foldl (fun p i =>
    let tkn : tokenPtr := some i
    match goSplit (p.tokens.deref tkn).Content '+' with
    | [a, b] =>
      if isNumeric a = true ∧ goLen a ≤ 2 ∧ isNumeric b = false then
        { p with tokens := (p.tokens.setContent tkn a).addToken tokenFlagsUnknown b true }
      else p
    | _ => p) p

/-- Handle "S1-2" etc... -/
def parser.searchForShortenedRange (D : Deps) (p : parser) : parser :=
  (p.tokens.getListFlag tokenFlagsUnknown).foldl (fun p i =>
    let tkn : tokenPtr := some i
    let content := (p.tokens.deref tkn).Content
    if goLen content > 3 ∧ content.data.head? = some 'S'
        ∧ (seasonRe.findStringSubmatch 2 content).isSome = true then
      (p.checkAnimeSeasonKeyword D tkn).2
    else p) p

/-- The end of the loop body of `searchForKeywords` (`if category != elementCategoryUnknown
{ ... }`): store `w` under `category` and mark the token. -/
def parser.storeKeyword (p : parser) (tkn : tokenPtr) (kd : keyword)
    (category : elementCategory) (w : String) : parser :=
  if category ≠ elementCategory.Unknown then
    let p := { p with elements := p.elements.insert category w }
    if kd.empty = true ∨ kd.options.identifiable = true then
      { p with tokens := p.tokens.setCategory tkn tokenCategory.Identifier }
    else p
  else p

/-- The branch `if found { ... }` of the loop body of `searchForKeywords`, followed by the
end of the loop body when the branch does not `continue`. -/
def parser.keywordFound (D : Deps) (p : parser) (tkn : tokenPtr) (w : String) (kd : keyword) :
    parser :=
  let category := kd.category
  if p.options.ParseReleaseGroup = false ∧ category = elementCategory.ReleaseGroup then p
  -- Skip If the category of the keyword is searchable but the keyword itself isn't
  else if D.isSearchable category = false ∨ kd.options.searchable = false then p
  -- Skip If the category is singular
  else if category.isSingular = true ∧ p.elements.contains category = true then p
  else if category = elementCategory.AnimeSeasonPrefix then
    (p.checkAnimeSeasonKeyword D tkn).2
  else if category = elementCategory.AnimePartPrefix then
    (p.checkAnimePartKeyword D tkn).2
  else if category = elementCategory.EpisodePrefix then
    if kd.options.valid = true then
      D.checkExtentKeyword elementCategory.EpisodeNumber tkn p
    else p
  else if category = elementCategory.ReleaseVersion then
    p.storeKeyword tkn kd category (goSliceFrom1 w)
  else if category = elementCategory.VolumePrefix then
    D.checkExtentKeyword elementCategory.VolumeNumber tkn p
  else p.storeKeyword tkn kd category w

/-- The branch `else { ... }` (no keyword found) of the loop body of `searchForKeywords`,
followed by the end of the loop body. -/
def parser.keywordNotFound (p : parser) (tkn : tokenPtr) (w : String) (kd : keyword) : parser :=
  if p.elements.contains elementCategory.FileChecksum = false ∧ isCRC32 w = true then
    p.storeKeyword tkn kd elementCategory.FileChecksum w
  else if p.elements.contains elementCategory.VideoResolution = false ∧ isResolution w = true then
    p.storeKeyword tkn kd elementCategory.VideoResolution w
  else p.storeKeyword tkn kd elementCategory.Unknown w

/-- The body of the loop of `searchForKeywords` for the token `tkn`. -/
def parser.searchForKeywordsStep (D : Deps) (p : parser) (i : Nat) : parser :=
  let tkn : tokenPtr := some i
  let w := goTrim (p.tokens.deref tkn).Content [' ', '-']
  if w = "" then p
  -- Don't bother if the word is a number that cannot be CRC
  else if goLen w ≠ 8 ∧ isNumeric w = true then p
  else
    let r := p.keywordManager.findWithoutCategory (keywordManager.normalize D w)
    if r.2 = true then p.keywordFound D tkn w r.1
    else p.keywordNotFound tkn w r.1

/-- From the entire list of tokens, find specific keywords. -/
def parser.searchForKeywords (D : Deps) (p : parser) : parser :=
  (p.tokens.getListFlag tokenFlagsUnknown).foldl (parser.searchForKeywordsStep D) p

/-- The body of the loop of `searchForIsolatedNumbers` for the token `tkn`. -/
def parser.searchForIsolatedNumbersStep (D : Deps) (p : parser) (i : Nat) : parser :=
  let tkn : tokenPtr := some i
  let content := (p.tokens.deref tkn).Content
  if isNumeric content = false then p
  else if p.tokens.isTokenIsolated tkn = false then p
  else
    let n := goAtoi content
    if n ≥ animeYearMin ∧ n ≤ D.animeYearMax
        ∧ p.elements.contains elementCategory.AnimeYear = false then
      { p with elements := p.elements.insert elementCategory.AnimeYear content,
               tokens := p.tokens.setCategory tkn tokenCategory.Identifier }
    else if (n = 480 ∨ n = 720 ∨ n = 1080)
        ∧ p.elements.contains elementCategory.VideoResolution = false then
      { p with elements := p.elements.insert elementCategory.VideoResolution content,
               tokens := p.tokens.setCategory tkn tokenCategory.Identifier }
    else p

/-- Detect isolated numbers and process them accordingly. -/
def parser.searchForIsolatedNumbers (D : Deps) (p : parser) : parser :=
  (p.tokens.getListFlag tokenFlagsUnknown).foldl (parser.searchForIsolatedNumbersStep D) p

/-- The body of the loop of `searchForEpisodeNumberAtTheStart` for the token `tkn`. -/
def parser.searchForEpisodeNumberAtTheStartStep (p : parser) (i : Nat) : parser :=
  let tkn : tokenPtr := some i
  let content := (p.tokens.deref tkn).Content
  if isNumeric content = false then p
  else
    let r := p.tokens.get 0
    let prev := r.1
    let found := r.2
    if found = true ∧ goLen content > 1 ∧ (p.tokens.deref prev).Content = content
        ∧ p.elements.contains elementCategory.EpisodeNumber = false then
      { p with elements := p.elements.insert elementCategory.EpisodeNumber content,
               tokens := p.tokens.setCategory tkn tokenCategory.Identifier }
    else p

/-- Handle cases like "05 - Episode title.mkv". -/
def parser.searchForEpisodeNumberAtTheStart (p : parser) : parser :=
  (p.tokens.getListFlag tokenFlagsUnknown).foldl parser.searchForEpisodeNumberAtTheStartStep p

def parser.searchForEpisodeNumber (D : Deps) (p : parser) : parser :=
  let tkns := p.tokens.getListFlag tokenFlagsUnknown
  if tkns.length = 0 then p
  else
    let p := { p with elements :=
      p.elements.setCheckAltNumber (p.elements.contains elementCategory.EpisodeNumber) }
    let r := D.searchForEpisodePatterns tkns p
    if r.1 = true then r.2
    else
      let p := r.2
      if p.elements.contains elementCategory.EpisodeNumber = true then p
      else
        let numericTokens := tkns.filter (fun v => isNumeric (p.tokens.deref (some v)).Content)
        if numericTokens.length = 0 then p
        else
          let r := D.searchForEquivalentNumbers numericTokens p
          if r.1 = true then r.2
          else
            let r := D.searchForSeparatedNumbers numericTokens r.2
            if r.1 = true then r.2
            else
              let r := D.searchForIsolatedNumbersTokens numericTokens r.2
              if r.1 = true then r.2
              else (D.searchForLastNumber numericTokens r.2).2

/-- The loop `for found { ... }` of `searchForAnimeTitle`, at most `fuel` iterations: the
final `tokenBegin`. -/
def titleBeginLoop (D : Deps) (ts : tokens) : Nat → tokenPtr → Bool → Bool → tokenPtr
  | 0, tokenBegin, _, _ => tokenBegin
  | fuel + 1, tokenBegin, found, skippedPreviousGroup =>
    if found = false then tokenBegin
    else
      let r := ts.findNext tokenBegin tokenFlagsUnknown
      if r.2 = false then r.1
      else if isMostlyLatinString D (ts.deref r.1).Content = true ∧ skippedPreviousGroup = true then r.1
      else
        let r := ts.findNext r.1 tokenFlagsBracket
        titleBeginLoop D ts fuel r.1 r.2 true

/-- The loop `for tkn.Category == tokenCategoryBracket && tkn.Content != ")"` of
`searchForAnimeTitle`, at most `fuel` iterations: the final `tokenEnd`. -/
def titleEndLoop (ts : tokens) : Nat → tokenPtr → tokenPtr → tokenPtr
  | 0, _, tokenEnd => tokenEnd
  | fuel + 1, tkn, tokenEnd =>
    if (ts.deref tkn).Category = tokenCategory.Bracket ∧ (ts.deref tkn).Content ≠ ")" then
      let r := ts.findPrevious tkn tokenFlagsBracket
      if r.2 = true ∧ (ts.deref r.1).empty = false then
        titleEndLoop ts fuel (ts.findPrevious r.1 tokenFlagsNotDelimiter).1 r.1
      else titleEndLoop ts fuel r.1 tokenEnd
    else tokenEnd

/-- The block `if !foundTokenEnd { ... }` of `searchForAnimeTitle`: "When no end token
is detected, set all next tokens as title." -/
def parser.titleToLastToken (p : parser) (tokenBegin : tokenPtr) (foundTokenEnd : Bool) :
    parser :=
  if foundTokenEnd = false then
    let l := p.tokens.get (((p.tokens.getListFlag tokenFlagsValid).length : Int) - 1)
    if l.2 = true then p.buildElement elementCategory.AnimeTitle tokenBegin l.1 true else p
  else p

/-- The end of `searchForAnimeTitle`, from `if !enclosedTitle { ... }` on: move `tokenEnd`
back over trailing brackets and build the title. -/
def parser.titleBuild (p : parser) (tokenBegin tokenEnd : tokenPtr) (enclosedTitle : Bool) :
    parser :=
  if enclosedTitle = false then
    let t := p.tokens.findPrevious tokenEnd tokenFlagsNotDelimiter
    if t.2 = false then p
    else
      let tokenEnd := titleEndLoop p.tokens (p.tokens.length + 1) t.1 tokenEnd
      let tokenEnd := (p.tokens.findPrevious tokenEnd tokenFlagsValid).1
      p.buildElement elementCategory.AnimeTitle tokenBegin tokenEnd false
  else
    let tokenEnd := (p.tokens.findPrevious tokenEnd tokenFlagsValid).1
    p.buildElement elementCategory.AnimeTitle tokenBegin tokenEnd false

def parser.searchForAnimeTitle (D : Deps) (p : parser) : parser :=
  -- Find the first token that is not enclosed or unknown
  let r := p.tokens.find (tokenFlagsNotEnclosed ++ tokenFlagsUnknown)
  let enclosedTitle := !r.2
  let tokenBegin :=
    if r.2 = false then
      let g := p.tokens.get 0
      titleBeginLoop D p.tokens (p.tokens.length + 1) g.1 g.2 false
    else r.1
  -- If the token is empty
  if (p.tokens.deref tokenBegin).empty = true then p
  else
    let targetFlag := if enclosedTitle = true then tokenFlagsBracket else tokenFlagsNone
    let e := p.tokens.findNext tokenBegin (tokenFlagsIdentifier ++ targetFlag)
    let foundTokenEnd := e.2
    let tokenEnd :=
      if enclosedTitle = false then
        let tknList := p.tokens.getList tokenFlagsBracket tokenBegin e.1
        let lb := tknList.foldl (fun (acc : tokenPtr × Bool) tkn => (some tkn, !acc.2)) (e.1, false)
        if lb.2 = true then lb.1 else e.1
      else e.1
    (p.titleToLastToken tokenBegin foundTokenEnd).titleBuild tokenBegin tokenEnd enclosedTitle

/-- The scan of the enclosed span in `searchForReleaseGroup`: at the first token that is a
Season/Part/Episode/AnimeType keyword the handler runs (`some` result); `none` when the
span holds no such keyword. -/
def parser.releaseGroupScan (D : Deps) (p : parser) (tokenBegin tokenEnd : tokenPtr) :
    List Nat → Option parser
  | [] => none
  | i :: rest =>
    let tk : tokenPtr := some i
    let word := keywordManager.normalize D (p.tokens.deref tk).Content
    let foundS := (p.keywordManager.find word elementCategory.AnimeSeasonPrefix).2
    let foundP := (p.keywordManager.find word elementCategory.AnimePartPrefix).2
    let foundE := (p.keywordManager.find word elementCategory.EpisodePrefix).2
    let foundAT := (p.keywordManager.find word elementCategory.AnimeType).2
    if foundS = true ∨ foundP = true ∨ foundE = true ∨ foundAT = true then
      -- Remove brackets
      let ts := p.tokens.setCategory tokenBegin tokenCategory.Invalid
      let ts := ts.setCategory tokenEnd tokenCategory.Invalid
      let p := { p with tokens := ts }
      if foundS = true then some (p.checkAnimeSeasonKeyword D tk).2
      else if foundP = true then some (p.checkAnimePartKeyword D tk).2
      else if foundE = true then some (p.searchForEpisodeNumber D)
      else
        some { p with
          elements := p.elements.insert elementCategory.AnimeType (p.tokens.deref tk).Content,
          tokens := p.tokens.setCategory tk tokenCategory.Identifier }
    else parser.releaseGroupScan D p tokenBegin tokenEnd rest

/-- The `for { ... }` of `searchForReleaseGroup`, at most `fuel` iterations. -/
def parser.releaseGroupLoop (D : Deps) (p : parser) : Nat → tokenPtr → parser
  | 0, _ => p
  | fuel + 1, tokenEnd =>
    let tokenBegin :=
      if (p.tokens.deref tokenEnd).empty = false then
        (p.tokens.findNext tokenEnd (tokenFlagsEnclosed ++ tokenFlagsUnknown)).1
      else (p.tokens.find (tokenFlagsEnclosed ++ tokenFlagsUnknown)).1
    if (p.tokens.deref tokenBegin).empty = true then p
    else
      let tokenEnd := (p.tokens.findNext tokenBegin (tokenFlagsBracket ++ tokenFlagsIdentifier)).1
      if (p.tokens.deref tokenEnd).empty = true then p
      else if (p.tokens.deref tokenEnd).Category ≠ tokenCategory.Bracket then
        parser.releaseGroupLoop D p fuel tokenEnd
      else
        let previousToken := (p.tokens.findPrevious tokenBegin tokenFlagsNotDelimiter).1
        if (p.tokens.deref previousToken).empty = false
            ∧ (p.tokens.deref previousToken).Category ≠ tokenCategory.Bracket then
          parser.releaseGroupLoop D p fuel tokenEnd
        else
          let tokenEnd := (p.tokens.findPrevious tokenEnd tokenFlagsValid).1
          let list := p.tokens.getList tokenFlagsValid tokenBegin tokenEnd
          match parser.releaseGroupScan D p tokenBegin tokenEnd list with
          | some q => q
          | none => p.buildElement elementCategory.ReleaseGroup tokenBegin tokenEnd true

def parser.searchForReleaseGroup (D : Deps) (p : parser) : parser :=
  parser.releaseGroupLoop D p (p.tokens.length + 1) none

/-- The `for { ... }` of `searchForEpisodeTitle`, at most `fuel` iterations. -/
def parser.episodeTitleLoop (p : parser) : Nat → tokenPtr → parser
  | 0, _ => p
  | fuel + 1, tokenEnd =>
    let tokenBegin :=
      if (p.tokens.deref tokenEnd).empty = false then
        (p.tokens.findNext tokenEnd (tokenFlagsNotEnclosed ++ tokenFlagsUnknown)).1
      else (p.tokens.find (tokenFlagsNotEnclosed ++ tokenFlagsUnknown)).1
    if (p.tokens.deref tokenBegin).empty = true then p
    else
      let tokenEnd := (p.tokens.findNext tokenBegin (tokenFlagsBracket ++ tokenFlagsIdentifier)).1
      let tokenEnd :=
        if (p.tokens.deref tokenEnd).empty = true then
          (p.tokens.get ((p.tokens.length : Int) - 1)).1
        else tokenEnd
      let dist := p.tokens.distance tokenBegin tokenEnd
      if dist ≥ 0 ∧ dist ≤ 2 ∧ isDashCharacter (p.tokens.deref tokenBegin).Content = true then
        parser.episodeTitleLoop p fuel tokenEnd
      else
        let tokenEnd :=
          if (p.tokens.deref tokenEnd).empty = false
              ∧ (p.tokens.deref tokenEnd).Category = tokenCategory.Bracket then
            (p.tokens.findPrevious tokenEnd tokenFlagsValid).1
          else tokenEnd
        p.buildElement elementCategory.EpisodeTitle tokenBegin tokenEnd false

def parser.searchForEpisodeTitle (p : parser) : parser :=
  parser.episodeTitleLoop p (p.tokens.length + 2) none

/-! ## parser.go: postProcessing and parse -/

/-- A Go run-time panic. -/
inductive Panic
  | indexOutOfRange
  deriving DecidableEq, Repr

/-- Go `l[0]`: a run-time panic on an empty slice. -/
def goFirst (l : List String) : Except Panic String :=
  match l with
  | [] => Except.error Panic.indexOutOfRange
  | x :: _ => Except.ok x

/-- A sequence of regular expressions. -/
def Regex.seqs : List Regex → Regex
  | [] => Regex.eps
  | [r] => r
  | r :: rs => Regex.seq r (Regex.seqs rs)

/-- The regexp `^[-~]\s(\d{1,2})$`. -/
def episodeTitleNumberRe : Regex :=
  Regex.seqs [.bot, .cls (reOneOf ['-', '~']), .cls reSpace, .group 1 (.rep reDigit 1 (some 2)), .eot]

/-- The regexp `^\s?[-~]\s?$`. -/
def episodeTitleDashRe : Regex :=
  Regex.seqs [.bot, .rep reSpace 0 (some 1), .cls (reOneOf ['-', '~']), .rep reSpace 0 (some 1), .eot]

/-- The regexp `^- (.+)$`. -/
def dashTitleRe : Regex :=
  Regex.seqs [.bot, .cls (reOneOf ['-']), .cls (reOneOf [' ']), .group 1 (.rep reAnyChar 1 none), .eot]

/-- The regexp `^[._+-]?\d+[._+-]$`. -/
def numberTitleRe : Regex :=
  Regex.seqs [.bot, .rep (reOneOf ['.', '_', '+', '-']) 0 (some 1), .rep reDigit 1 none,
    .cls (reOneOf ['.', '_', '+', '-']), .eot]

/-- The regexp `^([Ss](?P<season>\d{1,2}))?E?(?P<episode>\d{1,2})-(?P<episode_title>.+)`. -/
def seasonEpisodeTitleRe : Regex :=
  Regex.seqs [.bot,
    .alt (.group 1 (.seq (.cls (reOneOf ['S', 's'])) (.group 2 (.rep reDigit 1 (some 2))))) .eps,
    .rep (reOneOf ['E']) 0 (some 1),
    .group 3 (.rep reDigit 1 (some 2)),
    .cls (reOneOf ['-']),
    .group 4 (.rep reAnyChar 1 none)]

/-- Its `SubexpNames()`. -/
def seasonEpisodeTitleReNames : List String := ["", "", "season", "episode", "episode_title"]

/-- The loop over `animeTypeList` in `postProcessing`. -/
def parser.postProcessingTypes (D : Deps) (p : parser) (episodeTitle : String) (animeTypeList : List String) :
    parser :=
  animeTypeList.foldl (fun p animeType =>
    if animeType = episodeTitle then
      { p with elements := p.elements.erase elementCategory.EpisodeTitle }
    else if goContains episodeTitle animeType = true then
      let normAnimeType := keywordManager.normalize D animeType
      let found := (p.keywordManager.find normAnimeType elementCategory.AnimeType).2
      if found = true then
        { p with elements := p.elements.remove elementCategory.AnimeType animeType }
      else p
    else p) p

/-- First block of `postProcessing`: "handle cases where parsed episode title might contain
an episode number". -/
def parser.postProcessing1 (p : parser) : Except Panic parser :=
  if p.elements.contains elementCategory.EpisodeTitle = true then do
    let episodeTitle ← goFirst (p.elements.get elementCategory.EpisodeTitle)
    match episodeTitleNumberRe.findStringSubmatch 1 episodeTitle with
    | some m =>
      let e := p.elements.erase elementCategory.EpisodeTitle
      pure { p with elements := e.insert elementCategory.EpisodeNumber (m.getD 1 "") }
    | none => pure p
  else pure p

/-- Second block of `postProcessing`: "random episode title cleanup". -/
def parser.postProcessing2 (p : parser) : Except Panic parser :=
  if p.elements.contains elementCategory.EpisodeTitle = true then do
    let episodeTitle ← goFirst (p.elements.get elementCategory.EpisodeTitle)
    match episodeTitleDashRe.findStringSubmatch 0 episodeTitle with
    | some _ => pure { p with elements := p.elements.erase elementCategory.EpisodeTitle }
    | none => pure p
  else pure p

/-- Third block of `postProcessing`: anime types against the episode title. -/
def parser.postProcessing3 (D : Deps) (p : parser) : Except Panic parser :=
  if p.elements.contains elementCategory.AnimeType = true
      ∧ p.elements.contains elementCategory.EpisodeTitle = true then do
    let episodeTitle ← goFirst (p.elements.get elementCategory.EpisodeTitle)
    let animeTypeList := p.elements.get elementCategory.AnimeType
    pure (p.postProcessingTypes D episodeTitle animeTypeList)
  else pure p

/-- Fourth block of `postProcessing`: "handle cases where episode title is mistaken as
anime title". -/
def parser.postProcessing4 (p : parser) : Except Panic parser :=
  if p.elements.contains elementCategory.AnimeTitle = true
      ∧ p.elements.contains elementCategory.EpisodeTitle = false then do
    let animeTitle ← goFirst (p.elements.get elementCategory.AnimeTitle)
    match dashTitleRe.findStringSubmatch 1 animeTitle with
    | some m =>
      let e := p.elements.erase elementCategory.AnimeTitle
      pure { p with elements := e.insert elementCategory.EpisodeTitle (m.getD 1 "") }
    | none =>
      match numberTitleRe.findStringSubmatch 0 animeTitle with
      | some m =>
        let i := extractNumbersFromString (m.getD 0 "")
        if goLen i > 0 then
          let e := p.elements.erase elementCategory.AnimeTitle
          pure { p with elements := e.insert elementCategory.EpisodeNumber i }
        else pure p
      | none => pure p
  else pure p

/-- Fifth block of `postProcessing`: "handle cases like S01E01-Episode title".  The
condition is the source's `a && !b || !c`, which Go reads as `(a && !b) || !c`. -/
def parser.postProcessing5 (p : parser) : Except Panic parser :=
  if (p.elements.contains elementCategory.AnimeTitle = true
        ∧ p.elements.contains elementCategory.AnimeSeason = false)
      ∨ p.elements.contains elementCategory.EpisodeNumber = false then do
    let animeTitle ← goFirst (p.elements.get elementCategory.AnimeTitle)
    match seasonEpisodeTitleRe.findStringSubmatch 4 animeTitle with
    | some m =>
      let md := mdOf seasonEpisodeTitleReNames m
      let e := p.elements
      let e := match md.get? "season" with
        | some season => e.insert elementCategory.AnimeSeason season
        | none => e
      let e := match md.get? "episode" with
        | some episode => e.insert elementCategory.EpisodeNumber episode
        | none => e
      let e := match md.get? "episode_title" with
        | some episodeTitle => e.insert elementCategory.EpisodeTitle episodeTitle
        | none => e
      pure { p with elements := e.erase elementCategory.AnimeTitle }
    | none => pure p
  else pure p

/-- The five blocks of `postProcessing`, in the order of the source. -/
def parser.postProcessing (D : Deps) (p : parser) : Except Panic parser := do
  let p ← p.postProcessing1
  let p ← p.postProcessing2
  let p ← p.postProcessing3 D
  let p ← p.postProcessing4
  p.postProcessing5

/-- The guarded call `if p.tokenizer.options.ParseEpisodeNumber { p.searchForEpisodeNumber() }`
of `parse`. -/
def parser.episodeNumberPass (D : Deps) (p : parser) : parser :=
  if p.options.ParseEpisodeNumber = true then p.searchForEpisodeNumber D else p

/-- The guarded call `if p.tokenizer.options.ParseReleaseGroup &&
!p.tokenizer.elements.contains(elementCategoryReleaseGroup) { p.searchForReleaseGroup() }`
of `parse`. -/
def parser.releaseGroupPass (D : Deps) (p : parser) : parser :=
  if p.options.ParseReleaseGroup = true
      ∧ p.elements.contains elementCategory.ReleaseGroup = false then
    p.searchForReleaseGroup D
  else p

/-- The guarded call `if p.tokenizer.options.ParseEpisodeTitle &&
p.tokenizer.elements.contains(elementCategoryEpisodeNumber) { p.searchForEpisodeTitle() }`
of `parse`. -/
def parser.episodeTitlePass (p : parser) : parser :=
  if p.options.ParseEpisodeTitle = true
      ∧ p.elements.contains elementCategory.EpisodeNumber = true then
    p.searchForEpisodeTitle
  else p

/-- The passes of `parse` before `postProcessing`, in the order of the source. -/
def parser.parsePasses (D : Deps) (p : parser) : parser :=
  let p := p.preProcessing
  let p := p.searchForShortenedRange D
  let p := p.searchForKeywords D
  let p := p.searchForIsolatedNumbers D
  let p := p.episodeNumberPass D
  let p := p.searchForEpisodeNumberAtTheStart -- POST PROCESSING
  let p := p.searchForAnimeTitle D
  let p := p.releaseGroupPass D
  let p := p.episodeTitlePass
  p

/-- Parse order. -/
def parser.parse (D : Deps) (p : parser) : Except Panic parser :=
  (p.parsePasses D).postProcessing D

/-! ## A concrete instance of the parameters

Used to evaluate the passes on concrete inputs. -/

/-- Compatibility decomposition of one character, on a fragment of Unicode: ASCII, the
superscript digits, `ó`/`Ó`, and the fullwidth forms U+FF01..U+FF5E; every other character
is left as it is.  NFKD decomposes more characters than these (other accented letters,
ligatures, half-width katakana): the instance stands for the text library only on strings
of the fragment. -/
def sampleDecompose (c : Char) : List Char :=
  if c.toNat = 0xB2 then ['2'] else if c.toNat = 0xB3 then ['3'] else if c.toNat = 0xB9 then ['1']
  else if c.toNat = 0xF3 then ['o', Char.ofNat 0x301]
  else if c.toNat = 0xD3 then ['O', Char.ofNat 0x301]
  else if 0xFF01 ≤ c.toNat ∧ c.toNat ≤ 0xFF5E then [Char.ofNat (c.toNat - 0xFEE0)]
  else [c]

/-- The normalisation forms of `golang.org/x/text/unicode/norm` (`0` NFC, `1` NFD, `2` NFKC,
`3` NFKD) on that fragment. -/
def sampleNormForm (n : Nat) (s : String) : String :=
  match n with
  | 3 => String.mk (s.data.flatMap sampleDecompose)
  | 2 => String.mk (s.data.flatMap (fun c =>
      if c.toNat = 0xF3 ∨ c.toNat = 0xD3 then [c] else sampleDecompose c))
  | 1 => String.mk (s.data.flatMap (fun c =>
      if c.toNat = 0xF3 ∨ c.toNat = 0xD3 then sampleDecompose c else [c]))
  | _ => s

/-- Upper case of one character: ASCII and Latin-1 letters. -/
def sampleUpperChar (c : Char) : Char :=
  if (0x61 ≤ c.toNat ∧ c.toNat ≤ 0x7A) ∨ (0xE0 ≤ c.toNat ∧ c.toNat ≤ 0xFE ∧ c.toNat ≠ 0xF7) then
    Char.ofNat (c.toNat - 0x20)
  else c

/-- Lower case of one character: ASCII and Latin-1 letters. -/
def sampleLowerChar (c : Char) : Char :=
  if (0x41 ≤ c.toNat ∧ c.toNat ≤ 0x5A) ∨ (0xC0 ≤ c.toNat ∧ c.toNat ≤ 0xDE ∧ c.toNat ≠ 0xD7) then
    Char.ofNat (c.toNat + 0x20)
  else c

/-- Modelled from the spec: `elementCategory.isSearchable` (not under `src/`), "may be
discovered by keyword lookup" (§3): the categories of the vocabulary of §4.1 that keyword
search stores, and the two of pass 3 step 5; the file extension is split off by the entry
point (§6). -/
def sampleIsSearchable : elementCategory → Bool
  | .AnimeSeasonPrefix | .AnimePartPrefix | .AnimeType | .AudioTerm | .DeviceCompatibility
  | .EpisodePrefix | .FileChecksum | .Language | .Other | .ReleaseGroup
  | .ReleaseInformation | .ReleaseVersion | .Source | .Subtitles | .VideoResolution
  | .VideoTerm | .VolumePrefix => true
  | _ => false

/-- An instance of the parameters: the text library on ASCII, Latin-1 and the fragment of
`sampleDecompose`; episode-number routines that find nothing. -/
def Deps.sample : Deps where
  normForm := sampleNormForm
  toUpper := fun s => String.mk (s.data.map sampleUpperChar)
  toLower := fun s => String.mk (s.data.map sampleLowerChar)
  isLatin := fun c => decide ((0x41 ≤ c.toNat ∧ c.toNat ≤ 0x5A) ∨ (0x61 ≤ c.toNat ∧ c.toNat ≤ 0x7A)
    ∨ (0xC0 ≤ c.toNat ∧ c.toNat ≤ 0xFF ∧ c.toNat ≠ 0xD7 ∧ c.toNat ≠ 0xF7))
  isSearchable := sampleIsSearchable
  animeYearMax := 2027
  checkExtentKeyword := fun _ _ p => p
  searchForEpisodePatterns := fun _ p => (false, p)
  searchForEquivalentNumbers := fun _ p => (false, p)
  searchForSeparatedNumbers := fun _ p => (false, p)
  searchForIsolatedNumbersTokens := fun _ p => (false, p)
  searchForLastNumber := fun _ p => (false, p)

/-- A parser over the given tokens, with an empty element store and the vocabulary of
`newKeywordManager`. -/
def parser.new (ts : Tanuki.tokens) (o : Options) : parser := ⟨ts, Elements.new, o, newKeywordManager⟩

/-! ## Predicates and inputs used in the statements -/

/-- The word the keyword pass looks up for the token at index `i`: its content with
leading and trailing spaces and dashes trimmed. -/
def parser.keywordWord (p : parser) (i : Nat) : String :=
  goTrim (p.tokens.deref (some i)).Content [' ', '-']

/-- The tokens `Seasons`, ` `, `1-2`. -/
def seasonsRangeTokens : tokens :=
  [⟨tokenCategory.Unknown, "Seasons", false⟩, ⟨tokenCategory.Delimiter, " ", false⟩,
   ⟨tokenCategory.Unknown, "1-2", false⟩]

/-- The parser `q` has the values of `p` in the category `c`, and the options and the
vocabulary of `p`. -/
def parser.sameFor (c : elementCategory) (p q : parser) : Prop :=
  q.elements.values c = p.elements.values c ∧ q.options = p.options
    ∧ q.keywordManager = p.keywordManager

/-- An insert into the category `cat` cannot touch the category `c`: they differ, and `c`
is not the alternative episode number when `cat` is the episode number. -/
def insertSafe (c cat : elementCategory) : Prop :=
  c ≠ cat ∧ (cat = elementCategory.EpisodeNumber → c ≠ elementCategory.EpisodeNumberAlt)

/-- The routines taken as parameters keep the values of the category `c`, the options and
the vocabulary. -/
def Deps.keeps (D : Deps) (c : elementCategory) : Prop :=
  (∀ cat t q, parser.sameFor c q (D.checkExtentKeyword cat t q))
  ∧ (∀ l q, parser.sameFor c q (D.searchForEpisodePatterns l q).2)
  ∧ (∀ l q, parser.sameFor c q (D.searchForEquivalentNumbers l q).2)
  ∧ (∀ l q, parser.sameFor c q (D.searchForSeparatedNumbers l q).2)
  ∧ (∀ l q, parser.sameFor c q (D.searchForIsolatedNumbersTokens l q).2)
  ∧ (∀ l q, parser.sameFor c q (D.searchForLastNumber l q).2)

/-- The categories that `postProcessing` never writes: all but the episode title, the
episode number and its alternative, the anime type, the anime title and the season. -/
def postSafe (c : elementCategory) : Prop :=
  c ≠ elementCategory.EpisodeTitle ∧ c ≠ elementCategory.EpisodeNumber
    ∧ c ≠ elementCategory.EpisodeNumberAlt ∧ c ≠ elementCategory.AnimeType
    ∧ c ≠ elementCategory.AnimeTitle ∧ c ≠ elementCategory.AnimeSeason

/-- The tokens `05`, ` `, `Title`, ` `, `[`, `SubsPlease`, `]`. -/
def releaseGroupTokens : tokens :=
  [⟨tokenCategory.Unknown, "05", false⟩, ⟨tokenCategory.Delimiter, " ", false⟩,
   ⟨tokenCategory.Unknown, "Title", false⟩, ⟨tokenCategory.Delimiter, " ", false⟩,
   ⟨tokenCategory.Bracket, "[", true⟩, ⟨tokenCategory.Unknown, "SubsPlease", true⟩,
   ⟨tokenCategory.Bracket, "]", true⟩]

/-- The default options with ParseReleaseGroup off. -/
def optionsNoReleaseGroup : Options := { Options.default with ParseReleaseGroup := false }

/-- The contents of the tokens, in order. -/
def tokens.contents (ts : tokens) : List String := ts.map (fun t => t.Content)

/-- The parser `q` has the token contents and the vocabulary of `p`. -/
def parser.sameWords (p q : parser) : Prop :=
  q.tokens.contents = p.tokens.contents ∧ q.keywordManager = p.keywordManager

/-- The keyword pass hands the token at index `i` to the extent handler only if its word is
found as a valid EpisodePrefix keyword or as a VolumePrefix keyword. -/
def parser.extentWord (D : Deps) (p : parser) (i : Nat) : Prop :=
  ∃ kd, p.keywordManager.findWithoutCategory (keywordManager.normalize D (p.keywordWord i))
      = (kd, true)
    ∧ ((kd.category = elementCategory.EpisodePrefix ∧ kd.options.valid = true)
      ∨ kd.category = elementCategory.VolumePrefix)

/-- The three categories of the claim on ParseEpisodeNumber. -/
def episodeCategories : List elementCategory :=
  [elementCategory.EpisodeNumber, elementCategory.EpisodeNumberAlt, elementCategory.VolumeNumber]

/-- The default options with ParseEpisodeNumber off. -/
def optionsNoEpisodeNumber : Options := { Options.default with ParseEpisodeNumber := false }

/-- The parser on the single Unknown token `05`, with ParseEpisodeNumber off. -/
def parserEpisodeAtStart : parser :=
  parser.new [⟨tokenCategory.Unknown, "05", false⟩] optionsNoEpisodeNumber

/-- The state `parse` reaches from `parserEpisodeAtStart`. -/
def parserEpisodeAtStartResult : parser :=
  ⟨[⟨tokenCategory.Identifier, "05", false⟩],
   Elements.new.insert elementCategory.EpisodeNumber "05", optionsNoEpisodeNumber,
   newKeywordManager⟩

/-- The hexadecimal digits `0-9`, `a-f`, `A-F`. -/
def hexChars : List Char := "0123456789abcdefABCDEF".data

/-- Exactly `n` characters, all decimal digits. -/
def isDigits (n : Nat) (cs : List Char) : Bool := decide (cs.length = n) && cs.all reDigit

/-- What follows the first digits of a resolution: `p` or `P`, or one of `x`, `X`, `×` and
3 or 4 digits. -/
def resolutionTail : List Char → Bool
  | [c] => decide (c ∈ ['p', 'P'])
  | c :: es => decide (c ∈ ['x', 'X', Char.ofNat 0xD7]) && (isDigits 3 es || isDigits 4 es)
  | [] => false

/-- The form of a resolution: 3 or 4 decimal digits followed by `p` or `P`, or 3 or 4
digits, one of `x`, `X`, `×`, and 3 or 4 digits. -/
def isResolutionForm (cs : List Char) : Bool :=
  (isDigits 3 (cs.take 3) && resolutionTail (cs.drop 3))
    || (isDigits 4 (cs.take 4) && resolutionTail (cs.drop 4))

/-- The normalisation forms of `golang.org/x/text/unicode/norm`, which declares
`const ( NFC Form = iota; NFD; NFKC; NFKD )`. -/
def norm.NFC : Nat := 0
def norm.NFD : Nat := 1
def norm.NFKC : Nat := 2
def norm.NFKD : Nat := 3

/-- The keys of the two tables of a keyword manager. -/
def keywordManager.keys (kwm : keywordManager) : List String :=
  kwm.keywords.map (fun e => e.1) ++ kwm.fileExtensions.map (fun e => e.1)

/-- The key of the EpisodePrefix list written `"EPISóDIO"` in `newKeywordManager`: it
has the small letter `ó`. -/
def episodioKey : String := "EPISóDIO"

/-- The characters of the vocabulary that the compatibility decomposition and the upper
case leave as they are: ASCII other than the small letters, the unified CJK ideographs
U+4E00..U+9FFF, and the katakana `ア`, `ニ`, `メ`. -/
def normalizeStable (c : Char) : Bool :=
  decide (c.toNat < 0x61 ∨ (0x7A < c.toNat ∧ c.toNat < 0x80))
    || decide (0x4E00 ≤ c.toNat ∧ c.toNat ≤ 0x9FFF)
    || decide (c.toNat = 0x30A2 ∨ c.toNat = 0x30CB ∨ c.toNat = 0x30E1)

/-- The text `a c b`: `a`, the separator `c`, `b`. -/
def rangeText (a : String) (c : Char) (b : String) : String := a ++ String.singleton c ++ b

/-- The test of step 1 of the season and part handlers: the previous token that is not a
delimiter exists and is an ordinal. -/
def parser.ordinalBefore (D : Deps) (p : parser) (tkn : tokenPtr) : Prop :=
  (p.tokens.findPrevious tkn tokenFlagsNotDelimiter).2 = true
    ∧ getNumberFromOrdinal D
        (p.tokens.deref (p.tokens.findPrevious tkn tokenFlagsNotDelimiter).1).Content ≠ 0

/-- The parser on the tokens `kw`, ` `, `next`, of which the first is a keyword token. -/
def parser.keywordThenToken (kw next : String) : parser :=
  parser.new [⟨tokenCategory.Unknown, kw, false⟩, ⟨tokenCategory.Delimiter, " ", false⟩,
    ⟨tokenCategory.Unknown, next, false⟩] Options.default

/-- What the token at index `i` of a span gives to the element text when the delimiters
are not kept: an Unknown or Bracket token its content; a Delimiter token that is neither
the first nor the last token of the span itself when it is `,` or `&` and a space
otherwise; any other token nothing. -/
def spanPiece (beginToken endToken : tokenPtr) (ts : tokens) (i : Nat) : String :=
  let t := ts.deref (some i)
  if t.Category = tokenCategory.Unknown ∨ t.Category = tokenCategory.Bracket then t.Content
  else if t.Category = tokenCategory.Delimiter ∧ some i ≠ beginToken ∧ some i ≠ endToken then
    if t.Content = "," ∨ t.Content = "&" then t.Content else " "
  else ""

/-- The pieces of the tokens of the span, in order, joined. -/
def spanText (beginToken endToken : tokenPtr) (ts : tokens) : String :=
  String.join ((ts.getList tokenFlagsMinusOne beginToken endToken).map
    (spanPiece beginToken endToken ts))

/-- The text `v` has no leading and no trailing character of `cutset`. -/
def noEdge (cutset : List Char) (v : String) : Prop :=
  (∀ c, v.data.head? = some c → c ∉ cutset) ∧ (∀ c, v.data.getLast? = some c → c ∉ cutset)

/-- A parser over tokens given by category and content. -/
def parser.ofTokens (ts : List (tokenCategory × String)) : parser :=
  parser.new (ts.map (fun t => ⟨t.1, t.2, false⟩)) Options.default

/-- The test of `searchForEpisodeNumberAtTheStart` on the token at index `i`: its content
is numeric, longer than one byte and equal to the content of the token at index 0, and no
EpisodeNumber is stored. -/
def parser.episodeAtStartTest (p : parser) (i : Nat) : Bool :=
  isNumeric (p.tokens.deref (some i)).Content
    && decide ((p.tokens.get 0).2 = true)
    && decide (goLen (p.tokens.deref (some i)).Content > 1)
    && decide ((p.tokens.deref (p.tokens.get 0).1).Content = (p.tokens.deref (some i)).Content)
    && !p.elements.contains elementCategory.EpisodeNumber

/-- The tokens `05` (Identifier), ` `, `05` (Unknown), with an empty element store. -/
def parserEpisodeLater : parser :=
  parser.ofTokens [(tokenCategory.Identifier, "05"), (tokenCategory.Delimiter, " "),
    (tokenCategory.Unknown, "05")]

/-- The test under which the loop of the third block of `postProcessing` removes the anime
type `animeType`: it differs from the episode title, the episode title contains it, and its
normalization is found as an AnimeType keyword. -/
def typeRemovable (D : Deps) (kwm : keywordManager) (episodeTitle animeType : String) : Bool :=
  decide (animeType ≠ episodeTitle) && goContains episodeTitle animeType
    && (kwm.find (keywordManager.normalize D animeType) elementCategory.AnimeType).2

/-- A parser with no token, whose element store holds the given values, inserted in order. -/
def parser.ofElements (l : List (elementCategory × String)) : parser :=
  ⟨[], l.foldl (fun e cv => e.insert cv.1 cv.2) Elements.new, Options.default,
    newKeywordManager⟩

/-- A parser over enclosed tokens given by category and content. -/
def parser.ofEnclosedTokens (ts : List (tokenCategory × String)) : parser :=
  parser.new (ts.map (fun t => ⟨t.1, t.2, true⟩)) Options.default

/-- The tokens `[` `Season` ` ` `2` `]`. -/
def parserSeasonInBrackets : parser :=
  parser.ofEnclosedTokens [(tokenCategory.Bracket, "["), (tokenCategory.Unknown, "Season"),
    (tokenCategory.Delimiter, " "), (tokenCategory.Unknown, "2"), (tokenCategory.Bracket, "]")]

/-- The tokens `[` `Foo` ` ` `OVA` ` ` `Bar` `]`. -/
def parserTypeInBrackets : parser :=
  parser.ofEnclosedTokens [(tokenCategory.Bracket, "["), (tokenCategory.Unknown, "Foo"),
    (tokenCategory.Delimiter, " "), (tokenCategory.Unknown, "OVA"),
    (tokenCategory.Delimiter, " "), (tokenCategory.Unknown, "Bar"),
    (tokenCategory.Bracket, "]")]

/-- The categories of the tokens, in order. -/
def tokens.categories (ts : tokens) : List tokenCategory := ts.map (fun t => t.Category)

/-- The store `ts2` has the tokens of `ts` with the same contents, and every token that is
not Unknown in `ts` is not Unknown in `ts2`. -/
def tokens.settles (ts ts2 : tokens) : Prop :=
  ts2.length = ts.length
    ∧ ∀ i, (ts2.getD i token.zero).Content = (ts.getD i token.zero).Content
      ∧ ((ts.getD i token.zero).Category ≠ tokenCategory.Unknown →
          (ts2.getD i token.zero).Category ≠ tokenCategory.Unknown)

/-- The token store of `q` settles the token store of `p`. -/
def parser.settles (p q : parser) : Prop := tokens.settles p.tokens q.tokens

/-- The routines taken as parameters settle the token store. -/
def Deps.settles (D : Deps) : Prop :=
  (∀ cat t q, parser.settles q (D.checkExtentKeyword cat t q))
  ∧ (∀ l q, parser.settles q (D.searchForEpisodePatterns l q).2)
  ∧ (∀ l q, parser.settles q (D.searchForEquivalentNumbers l q).2)
  ∧ (∀ l q, parser.settles q (D.searchForSeparatedNumbers l q).2)
  ∧ (∀ l q, parser.settles q (D.searchForIsolatedNumbersTokens l q).2)
  ∧ (∀ l q, parser.settles q (D.searchForLastNumber l q).2)

/-- The number of Unknown tokens. -/
def tokens.unknownCount (ts : tokens) : Nat :=
  ts.countP (fun t => decide (t.Category = tokenCategory.Unknown))

/-- Every token of `ts` is still in `ts2`, and one that is not Unknown in `ts` is not
Unknown in `ts2` and has the same content. -/
def tokens.keepsSettled (ts ts2 : tokens) : Prop :=
  ts.length ≤ ts2.length
    ∧ ∀ i, i < ts.length → (ts.getD i token.zero).Category ≠ tokenCategory.Unknown →
        (ts2.getD i token.zero).Category ≠ tokenCategory.Unknown
        ∧ (ts2.getD i token.zero).Content = (ts.getD i token.zero).Content

/-- The body of the loop of `preProcessing` for the token at index `i`. -/
def parser.preProcessingStep (p : parser) (i : Nat) : parser :=
  match goSplit (p.tokens.deref (some i)).Content '+' with
  | [a, b] =>
    if isNumeric a = true ∧ goLen a ≤ 2 ∧ isNumeric b = false then
      { p with tokens := (p.tokens.setContent (some i) a).addToken tokenFlagsUnknown b true }
    else p
  | _ => p

/-! ## keyword.go: peek -/

structure indexSet where
  beginPos : Int
  endPos : Int
  deriving DecidableEq, Repr

abbrev indexSets := List indexSet

/-- `func (idxSet indexSets) Less(i, j int) bool`, on the two elements. -/
def indexSets.Less (a b : indexSet) : Bool :=
  decide (a.beginPos + a.endPos < b.beginPos + b.endPos)

/-- The search of `strings.Index` in the text that starts at byte `pos`. -/
def goIndexFrom (sub : List Char) : List Char → Nat → Int
  | [], pos => if sub = [] then (pos : Int) else -1
  | c :: cs, pos =>
    if sub.isPrefixOf (c :: cs) = true then (pos : Int)
    else goIndexFrom sub cs (pos + charBytes c)

/-- Go `strings.Index(s, sub)`: the byte index of the first occurrence of `sub` in `s`, or
`-1`. -/
def goIndex (s sub : String) : Int := goIndexFrom sub.data s.data 0

/-- The map literal `entries` of `peek`, in the order of the source. -/
def peekEntries : List (elementCategory × List String) :=
  [(elementCategory.AudioTerm, ["Dual Audio", "DualAudio"]),
   (elementCategory.VideoTerm, ["H264", "H.264", "h264", "h.264"]),
   (elementCategory.VideoResolution, ["480p", "720p", "1080p", "2160p"]),
   (elementCategory.Source, ["Blu-Ray"])]

/-- `func (kwm *keywordManager) peek(word string, e *Elements) indexSets`.  Go leaves open
the order in which `range` visits a map and the order that `sort.Sort`, which is not
stable, gives to elements that compare equal: the order of the visit (`entries`, the map as
a list) and the sort (`sortFn`) are arguments.  The result is the element store and the
returned ranges. -/
def keywordManager.peek (_kwm : keywordManager) (entries : List (elementCategory × List String))
    (sortFn : indexSets → indexSets) (word : String) (e : Elements) : Elements × indexSets :=
  let r := entries.foldl (fun acc ck =>
    ck.2.foldl (fun acc kw =>
      let keywordbeginPos := goIndex word kw
      if keywordbeginPos ≠ -1 then
        let keywordendPos := keywordbeginPos + (goLen kw : Int)
        (acc.1.insert ck.1 kw, acc.2 ++ [⟨keywordbeginPos, keywordendPos⟩])
      else acc) acc) (e, [])
  (r.1, sortFn r.2)

/-- What `sort.Sort` guarantees: the result is a rearrangement of the input in which no
element is `Less` than an earlier one. -/
def sortsByLess (sortFn : indexSets → indexSets) : Prop :=
  ∀ l, (sortFn l).Perm l ∧ (sortFn l).Pairwise (fun a b => indexSets.Less b a = false)

/-- The canonical forms of `peek`. -/
def peekKeywords : List String := peekEntries.flatMap (fun ck => ck.2)

/-- The range that `peek` appends for the keyword `kw`, if any. -/
def peekRange (word kw : String) : Option indexSet :=
  if goIndex word kw ≠ -1 then some ⟨goIndex word kw, goIndex word kw + (goLen kw : Int)⟩
  else none

/-- An insertion sort by `beginPos + endPos`. -/
def sortBySum (l : indexSets) : indexSets :=
  l.insertionSort (fun a b => a.beginPos + a.endPos ≤ b.beginPos + b.endPos)

/-- The range `s` of `word` holds the text `kw`: `word[s.beginPos:s.endPos] == kw`. -/
def rangeHolds (word : String) (s : indexSet) (kw : String) : Prop :=
  ∃ pre post : List Char, word.data = pre ++ kw.data ++ post
    ∧ s.beginPos = ((pre.map charBytes).sum : Int)
    ∧ s.endPos = s.beginPos + (goLen kw : Int)

/-! ## Theorems: the keyword manager -/

set_option maxRecDepth 100000

theorem GoMap.get?_mem {β : Type} (m : GoMap β) (k : String) (v : β) (h : m.get? k = some v) :
    (k, v) ∈ m := by
  induction m with
  | nil => simp [GoMap.get?] at h
  | cons e rest ih =>
    obtain ⟨k', v'⟩ := e
    simp only [GoMap.get?] at h
    split at h
    · rename_i hk
      simp only [Option.some.injEq] at h
      subst hk; subst h
      exact List.mem_cons_self _ _
    · exact List.mem_cons_of_mem _ (ih h)

/-- C9, the claim as stated fails: `BD` is a key of the keyword table (stored category
Source) and the requested category is Unknown, yet `find` reports not found. -/
theorem find_open_query_counterexample :
    newKeywordManager.keywords.get? "BD" = some ⟨elementCategory.Source, keywordOptionsDefault⟩
    ∧ newKeywordManager.find "BD" elementCategory.Unknown = (keyword.zero, false) := by
  decide

/-- C9, amended: for every word and every requested category other than FileExtension,
`find` returns the keyword-table entry of the word exactly when the word is a key of the
keyword table and the entry's stored category equals the requested category or the
entry's stored category is Unknown; in every other case it reports not found. -/
theorem find_category_filter (kwm : keywordManager) (word : String) (cat : elementCategory)
    (hcat : cat ≠ elementCategory.FileExtension) :
    (∀ v, kwm.find word cat = (v, true) ↔
      (kwm.keywords.get? word = some v
        ∧ (v.category = cat ∨ v.category = elementCategory.Unknown)))
    ∧ ((¬ ∃ v, kwm.keywords.get? word = some v
          ∧ (v.category = cat ∨ v.category = elementCategory.Unknown)) →
        kwm.find word cat = (keyword.zero, false)) := by
  unfold keywordManager.find
  rw [if_pos hcat]
  cases hget : kwm.keywords.get? word with
  | none => simp
  | some u =>
    by_cases hu : u.category = elementCategory.Unknown ∨ u.category = cat
    · simp only [hu, if_true]
      constructor
      · intro v
        constructor
        · intro h
          simp only [Prod.mk.injEq, and_true] at h
          subst h
          exact ⟨rfl, hu.symm⟩
        · rintro ⟨h, _⟩
          simp only [Option.some.injEq] at h
          subst h
          rfl
      · intro h
        exact absurd ⟨u, rfl, hu.symm⟩ h
    · simp only [hu, if_false]
      constructor
      · intro v
        constructor
        · intro h
          simp at h
        · rintro ⟨h, hv⟩
          simp only [Option.some.injEq] at h
          subst h
          exact absurd hv.symm hu
      · intro _
        trivial

theorem find_category_filter_witness :
    elementCategory.Source ≠ elementCategory.FileExtension
    ∧ newKeywordManager.find "BD" elementCategory.Source
        = (⟨elementCategory.Source, keywordOptionsDefault⟩, true) :=
  ⟨by decide,
   ((find_category_filter newKeywordManager "BD" elementCategory.Source (by decide)).1 _).2
     ⟨by decide, Or.inl rfl⟩⟩

/-- C10: `findWithoutCategory` reports found if and only if the word is a key of the
keyword table or of the file-extension table, that is, iff `find(word, FileExtension)`
succeeds or the keyword table contains the word; a word of the keyword table gets its
keyword-table entry (so for `TS`, `AVI`, `AAC`, `ASS`, which are in both tables of the
vocabulary); and `find(word, FileExtension)` depends only on the file-extension table. -/
theorem findWithoutCategory_probes_both_tables (kwm : keywordManager) (word : String) :
    ((kwm.findWithoutCategory word).2 = true ↔
      ((kwm.keywords.get? word).isSome = true ∨ (kwm.fileExtensions.get? word).isSome = true))
    ∧ ((kwm.findWithoutCategory word).2 = true ↔
      ((kwm.find word elementCategory.FileExtension).2 = true
        ∨ (kwm.keywords.get? word).isSome = true))
    ∧ (∀ v, kwm.keywords.get? word = some v → kwm.findWithoutCategory word = (v, true))
    ∧ ((kwm.keywords.get? word = none ∧ kwm.fileExtensions.get? word = none) →
        kwm.findWithoutCategory word = (keyword.zero, false))
    ∧ (∀ other : keywordManager, other.fileExtensions = kwm.fileExtensions →
        other.find word elementCategory.FileExtension
          = kwm.find word elementCategory.FileExtension)
    ∧ (∀ w ∈ ["TS", "AVI", "AAC", "ASS"],
        (newKeywordManager.fileExtensions.get? w).isSome = true
        ∧ ∃ v, newKeywordManager.keywords.get? w = some v
          ∧ v.category ≠ elementCategory.FileExtension
          ∧ newKeywordManager.findWithoutCategory w = (v, true)) := by
  refine ⟨?_, ?_, ?_, ?_, ?_, ?_⟩
  · unfold keywordManager.findWithoutCategory
    cases kwm.keywords.get? word <;> cases kwm.fileExtensions.get? word <;> simp
  · unfold keywordManager.findWithoutCategory keywordManager.find
    cases kwm.keywords.get? word <;> cases kwm.fileExtensions.get? word <;> simp
  · intro v hv
    unfold keywordManager.findWithoutCategory
    rw [hv]
  · rintro ⟨h1, h2⟩
    unfold keywordManager.findWithoutCategory
    rw [h1, h2]
  · intro other h
    unfold keywordManager.find
    simp [h]
  · decide

/-! ## Theorems: the keyword pass -/

theorem findWithoutCategory_mem (kwm : keywordManager) (w : String) (kd : keyword)
    (h : kwm.findWithoutCategory w = (kd, true)) :
    (w, kd) ∈ kwm.keywords ∨ (w, kd) ∈ kwm.fileExtensions := by
  unfold keywordManager.findWithoutCategory at h
  cases h1 : kwm.keywords.get? w with
  | some v =>
    rw [h1] at h
    simp only [Prod.mk.injEq, and_true] at h
    subst h
    exact Or.inl (GoMap.get?_mem _ _ _ h1)
  | none =>
    rw [h1] at h
    cases h2 : kwm.fileExtensions.get? w with
    | some v =>
      rw [h2] at h
      simp only [Prod.mk.injEq, and_true] at h
      subst h
      exact Or.inr (GoMap.get?_mem _ _ _ h2)
    | none =>
      rw [h2] at h
      simp at h

/-- A keyword that is not searchable is skipped by the keyword pass. -/
theorem searchForKeywordsStep_unsearchable (D : Deps) (p : parser) (i : Nat) (kd : keyword)
    (h : p.keywordManager.findWithoutCategory (keywordManager.normalize D (p.keywordWord i))
      = (kd, true))
    (hs : kd.options.searchable = false) : p.searchForKeywordsStep D i = p := by
  unfold parser.keywordWord at h
  unfold parser.searchForKeywordsStep
  simp only []
  split_ifs
  · rfl
  · rfl
  · rw [h]
    unfold parser.keywordFound
    simp only [hs, or_true, if_true]
    split_ifs <;> rfl
  · rename_i hf
    rw [h] at hf
    exact absurd rfl hf

/-- C6: when the keyword pass processes a token whose trimmed content normalizes to `SP`,
the parser state is unchanged: nothing is stored in any element category and the token
keeps its category and content.  `SP` is an AnimeType entry of the vocabulary, and the only
entry of the two tables that is not searchable. -/
theorem searchForKeywords_skips_SP (D : Deps) (p : parser) (i : Nat)
    (hk : p.keywordManager = newKeywordManager)
    (hw : keywordManager.normalize D (p.keywordWord i) = "SP") :
    p.searchForKeywordsStep D i = p
    ∧ newKeywordManager.findWithoutCategory "SP"
        = (⟨elementCategory.AnimeType, keywordOptionsUnidentifiableUnsearchable⟩, true)
    ∧ (∀ w kd, newKeywordManager.findWithoutCategory w = (kd, true) →
        kd.options.searchable = false → w = "SP") := by
  have hsp : newKeywordManager.findWithoutCategory "SP"
      = (⟨elementCategory.AnimeType, keywordOptionsUnidentifiableUnsearchable⟩, true) := by
    decide
  refine ⟨?_, hsp, ?_⟩
  · refine searchForKeywordsStep_unsearchable D p i
      ⟨elementCategory.AnimeType, keywordOptionsUnidentifiableUnsearchable⟩ ?_ rfl
    rw [hk, hw]; exact hsp
  · intro w kd h hs
    have hall : ∀ e ∈ newKeywordManager.keywords ++ newKeywordManager.fileExtensions,
        e.2.options.searchable = false → e.1 = "SP" := by
      decide
    rcases findWithoutCategory_mem _ _ _ h with hm | hm
    · exact hall (w, kd) (List.mem_append_left _ hm) hs
    · exact hall (w, kd) (List.mem_append_right _ hm) hs

theorem searchForKeywords_skips_SP_witness :
    (parser.new [⟨tokenCategory.Unknown, "SP", false⟩] Options.default).keywordManager
        = newKeywordManager
    ∧ keywordManager.normalize Deps.sample
        ((parser.new [⟨tokenCategory.Unknown, "SP", false⟩] Options.default).keywordWord 0) = "SP"
    ∧ (parser.new [⟨tokenCategory.Unknown, "SP", false⟩] Options.default).searchForKeywordsStep
        Deps.sample 0 = parser.new [⟨tokenCategory.Unknown, "SP", false⟩] Options.default :=
  ⟨rfl, by decide, (searchForKeywords_skips_SP Deps.sample _ 0 rfl (by decide)).1⟩

/-- The keyword pass on a token whose word is found in the vocabulary. -/
theorem searchForKeywordsStep_found (D : Deps) (p : parser) (i : Nat) (kd : keyword)
    (h : p.keywordManager.findWithoutCategory (keywordManager.normalize D (p.keywordWord i))
      = (kd, true))
    (hne : p.keywordWord i ≠ "")
    (hnum : ¬ (goLen (p.keywordWord i) ≠ 8 ∧ isNumeric (p.keywordWord i) = true)) :
    p.searchForKeywordsStep D i = p.keywordFound D (some i) (p.keywordWord i) kd := by
  unfold parser.keywordWord at h hne hnum
  unfold parser.searchForKeywordsStep parser.keywordWord
  simp only []
  rw [if_neg hne, if_neg hnum, h]
  simp

/-- C7, the claim as stated fails: the token `NCOP` normalizes to the AnimeType entry
`NCOP`, whose option `valid` is false, and the keyword pass stores `NCOP` under AnimeType. -/
theorem invalid_keyword_stored_counterexample :
    newKeywordManager.findWithoutCategory (keywordManager.normalize Deps.sample "NCOP")
        = (⟨elementCategory.AnimeType, keywordOptionsUnidentifiableInvalid⟩, true)
    ∧ keywordOptionsUnidentifiableInvalid.valid = false
    ∧ ((parser.new [⟨tokenCategory.Unknown, "NCOP", false⟩] Options.default).searchForKeywordsStep
        Deps.sample 0).elements.get elementCategory.AnimeType = ["NCOP"] := by
  decide

/-- C7, amended: the option `valid` suppresses emission only for episode prefixes.  For a
token whose word is found as an entry with `valid = false`: if the entry is an
EpisodePrefix (the vocabulary's `E`), the keyword pass leaves the parser state unchanged
(nothing stored, token untouched); if it is one of the invalid AnimeType entries
(`NCOP`, `OP`, `ED`, `PV`, `MENU`, ...) and AnimeType is searchable, the word is stored
under AnimeType and the tokens are unchanged. -/
theorem searchForKeywords_invalid_entry (D : Deps) (p : parser) (i : Nat) (kd : keyword)
    (h : p.keywordManager.findWithoutCategory (keywordManager.normalize D (p.keywordWord i))
      = (kd, true))
    (hv : kd.options.valid = false) :
    (kd.category = elementCategory.EpisodePrefix → p.searchForKeywordsStep D i = p)
    ∧ (kd = ⟨elementCategory.AnimeType, keywordOptionsUnidentifiableInvalid⟩ →
        D.isSearchable elementCategory.AnimeType = true →
        p.keywordWord i ≠ "" →
        ¬ (goLen (p.keywordWord i) ≠ 8 ∧ isNumeric (p.keywordWord i) = true) →
        (p.searchForKeywordsStep D i).elements
            = p.elements.insert elementCategory.AnimeType (p.keywordWord i)
          ∧ (p.searchForKeywordsStep D i).tokens = p.tokens) := by
  constructor
  · intro hc
    have h0 := h
    unfold parser.keywordWord at h
    unfold parser.searchForKeywordsStep
    simp only []
    split_ifs
    · rfl
    · rfl
    · rw [h]
      unfold parser.keywordFound
      simp only [hc, hv]
      split_ifs <;> first | rfl | simp_all
    · rename_i hf
      rw [h] at hf
      exact absurd rfl hf
  · intro hkd hs hne hnum
    rw [searchForKeywordsStep_found D p i kd h hne hnum]
    subst hkd
    unfold parser.keywordFound parser.storeKeyword
    simp [hs, keywordOptionsUnidentifiableInvalid, elementCategory.isSingular, keyword.empty,
      keyword.zero]

theorem searchForKeywords_invalid_entry_witness :
    (parser.new [⟨tokenCategory.Unknown, "E", false⟩] Options.default).keywordManager.findWithoutCategory
        (keywordManager.normalize Deps.sample
          ((parser.new [⟨tokenCategory.Unknown, "E", false⟩] Options.default).keywordWord 0))
      = (⟨elementCategory.EpisodePrefix, keywordOptionsInvalid⟩, true)
    ∧ keywordOptionsInvalid.valid = false
    ∧ (parser.new [⟨tokenCategory.Unknown, "E", false⟩] Options.default).searchForKeywordsStep
        Deps.sample 0 = parser.new [⟨tokenCategory.Unknown, "E", false⟩] Options.default :=
  ⟨by decide, rfl,
   (searchForKeywords_invalid_entry Deps.sample
      (parser.new [⟨tokenCategory.Unknown, "E", false⟩] Options.default) 0
      ⟨elementCategory.EpisodePrefix, keywordOptionsInvalid⟩ (by decide) rfl).1 rfl⟩

/-- C5, the claim as stated fails: on the token `Ita` the keyword pass stores `Ita` under
Language (the token itself stays Unknown). -/
theorem ita_stored_as_language_counterexample :
    keywordManager.normalize Deps.sample "Ita" = "ITA"
    ∧ ((parser.new [⟨tokenCategory.Unknown, "Ita", false⟩] Options.default).searchForKeywordsStep
        Deps.sample 0).elements.get elementCategory.Language = ["Ita"]
    ∧ ((parser.new [⟨tokenCategory.Unknown, "Ita", false⟩] Options.default).searchForKeywordsStep
        Deps.sample 0).tokens = [⟨tokenCategory.Unknown, "Ita", false⟩] := by
  decide

/-- C5, amended: when the keyword pass processes a token with content `Ita` (normalized
`ITA`, an unidentifiable Language keyword of the vocabulary) and Language is a searchable
category, it stores `Ita` under Language, appended to the values already there, and
leaves every token as it was, so the token stays Unknown and remains part of the title. -/
theorem searchForKeywords_ITA (D : Deps) (p : parser) (i : Nat)
    (hk : p.keywordManager = newKeywordManager)
    (hc : (p.tokens.deref (some i)).Content = "Ita")
    (hw : keywordManager.normalize D "Ita" = "ITA")
    (hs : D.isSearchable elementCategory.Language = true) :
    (p.searchForKeywordsStep D i).elements = p.elements.insert elementCategory.Language "Ita"
    ∧ (p.searchForKeywordsStep D i).elements.get elementCategory.Language
        = p.elements.get elementCategory.Language ++ ["Ita"]
    ∧ (p.searchForKeywordsStep D i).tokens = p.tokens
    ∧ newKeywordManager.findWithoutCategory "ITA"
        = (⟨elementCategory.Language, keywordOptionsUnidentifiable⟩, true) := by
  have hword : p.keywordWord i = "Ita" := by
    unfold parser.keywordWord
    rw [hc]
    decide
  have hita : newKeywordManager.findWithoutCategory "ITA"
      = (⟨elementCategory.Language, keywordOptionsUnidentifiable⟩, true) := by decide
  have hstep := searchForKeywordsStep_found D p i
    ⟨elementCategory.Language, keywordOptionsUnidentifiable⟩
    (by rw [hword, hw, hk]; exact hita) (by rw [hword]; decide) (by rw [hword]; decide)
  rw [hstep, hword]
  refine ⟨?_, ?_, ?_, hita⟩
  · unfold parser.keywordFound parser.storeKeyword
    simp [hs, keywordOptionsUnidentifiable, elementCategory.isSingular, keyword.empty,
      keyword.zero]
  · unfold parser.keywordFound parser.storeKeyword
    simp [hs, keywordOptionsUnidentifiable, elementCategory.isSingular, keyword.empty,
      keyword.zero, Elements.insert, Elements.put, Elements.get]
  · unfold parser.keywordFound parser.storeKeyword
    simp [hs, keywordOptionsUnidentifiable, elementCategory.isSingular, keyword.empty,
      keyword.zero]

theorem searchForKeywords_ITA_witness :
    ((parser.new [⟨tokenCategory.Unknown, "Ita", false⟩] Options.default).searchForKeywordsStep
        Deps.sample 0).elements.get elementCategory.Language
      = (parser.new [⟨tokenCategory.Unknown, "Ita", false⟩] Options.default).elements.get
          elementCategory.Language ++ ["Ita"] :=
  (searchForKeywords_ITA Deps.sample
    (parser.new [⟨tokenCategory.Unknown, "Ita", false⟩] Options.default) 0 rfl rfl
    (by decide) rfl).2.1

/-- C8, the claim as stated fails: the token `v²` normalizes to the ReleaseVersion keyword
`V2`, no ReleaseVersion is stored yet, and the keyword pass stores `²`, which is not the
digit `2`. -/
theorem release_version_counterexample :
    keywordManager.normalize Deps.sample
        ((parser.new [⟨tokenCategory.Unknown, "v²", false⟩] Options.default).keywordWord 0) = "V2"
    ∧ ((parser.new [⟨tokenCategory.Unknown, "v²", false⟩] Options.default).searchForKeywordsStep
        Deps.sample 0).elements.get elementCategory.ReleaseVersion = ["²"]
    ∧ "²" ≠ "2" := by
  decide

theorem isNumeric_cons_false (c : Char) (cs : List Char) (hc : reDigit c = false) :
    isNumeric (String.mk (c :: cs)) = false := by
  simp [isNumeric, hc]

/-- C8, amended: for every token whose trimmed content begins with the ASCII letter `v` or
`V` and normalizes to one of `V0` .. `V4`, when ReleaseVersion is searchable and no
ReleaseVersion is stored yet, the keyword pass stores under ReleaseVersion the trimmed
content with that first letter removed, as the only value, and marks the token Identifier.
For the contents `v0` .. `v4`, `V0` .. `V4` the stored value is the single digit. -/
theorem searchForKeywords_release_version (D : Deps) (p : parser) (i : Nat) (c : Char)
    (cs : List Char)
    (hk : p.keywordManager = newKeywordManager)
    (hword : p.keywordWord i = String.mk (c :: cs))
    (hc : c = 'v' ∨ c = 'V')
    (hw : keywordManager.normalize D (p.keywordWord i) ∈ ["V0", "V1", "V2", "V3", "V4"])
    (hs : D.isSearchable elementCategory.ReleaseVersion = true)
    (hno : p.elements.contains elementCategory.ReleaseVersion = false) :
    (p.searchForKeywordsStep D i).elements
        = p.elements.insert elementCategory.ReleaseVersion (String.mk cs)
    ∧ (p.searchForKeywordsStep D i).elements.get elementCategory.ReleaseVersion = [String.mk cs]
    ∧ (p.searchForKeywordsStep D i).tokens
        = p.tokens.setCategory (some i) tokenCategory.Identifier := by
  have hrd : reDigit c = false := by
    rcases hc with hc | hc <;> subst hc <;> decide
  have hslice : goSliceFrom1 (String.mk (c :: cs)) = String.mk cs := by
    rcases hc with hc | hc <;> subst hc <;> rfl
  have hfind : p.keywordManager.findWithoutCategory
      (keywordManager.normalize D (p.keywordWord i))
      = (⟨elementCategory.ReleaseVersion, keywordOptionsDefault⟩, true) := by
    rw [hk]
    simp only [List.mem_cons, List.mem_singleton, List.not_mem_nil, or_false] at hw
    rcases hw with hw | hw | hw | hw | hw <;> rw [hw] <;> decide
  have hstep := searchForKeywordsStep_found D p i _ hfind
    (by rw [hword]; simp [String.ext_iff])
    (by rw [hword, isNumeric_cons_false c cs hrd]; simp)
  have hval : p.elements.values elementCategory.ReleaseVersion = [] := by
    unfold Elements.contains at hno
    cases hl : p.elements.values elementCategory.ReleaseVersion with
    | nil => rfl
    | cons a l => rw [hl] at hno; simp at hno
  rw [hstep, hword, ← hslice]
  unfold parser.keywordFound parser.storeKeyword
  refine ⟨?_, ?_, ?_⟩
  · simp [hs, hno, keywordOptionsDefault, elementCategory.isSingular, keyword.empty,
      keyword.zero]
  · simp [hs, hno, hval, keywordOptionsDefault, elementCategory.isSingular, keyword.empty,
      keyword.zero, Elements.insert, Elements.put, Elements.get]
  · simp [hs, hno, keywordOptionsDefault, elementCategory.isSingular, keyword.empty,
      keyword.zero]

theorem searchForKeywords_release_version_witness :
    ((parser.new [⟨tokenCategory.Unknown, "v2", false⟩] Options.default).searchForKeywordsStep
        Deps.sample 0).elements.get elementCategory.ReleaseVersion = ["2"]
    ∧ ((parser.new [⟨tokenCategory.Unknown, "v2", false⟩] Options.default).searchForKeywordsStep
        Deps.sample 0).tokens = [⟨tokenCategory.Identifier, "v2", false⟩] :=
  ⟨(searchForKeywords_release_version Deps.sample
      (parser.new [⟨tokenCategory.Unknown, "v2", false⟩] Options.default) 0 'v' ['2']
      rfl (by decide) (Or.inl rfl) (by decide) rfl rfl).2.1,
   (searchForKeywords_release_version Deps.sample
      (parser.new [⟨tokenCategory.Unknown, "v2", false⟩] Options.default) 0 'v' ['2']
      rfl (by decide) (Or.inl rfl) (by decide) rfl rfl).2.2⟩

/-! ## Theorems: the season handler and post-processing -/

theorem Elements.contains_eq_false_iff (e : Elements) (c : elementCategory) :
    e.contains c = false ↔ e.values c = [] := by
  unfold Elements.contains
  cases e.values c <;> simp

theorem Elements.contains_eq_true_iff (e : Elements) (c : elementCategory) :
    e.contains c = true ↔ e.values c ≠ [] := by
  unfold Elements.contains
  cases e.values c <;> simp

/-- The last block of `postProcessing` reads `get(AnimeTitle)[0]` whenever no EpisodeNumber
is stored; with no AnimeTitle either, that is a read past the end of an empty list. -/
theorem postProcessing_error_of_no_title (D : Deps) (p : parser)
    (h1 : p.elements.contains elementCategory.EpisodeTitle = false)
    (h2 : p.elements.contains elementCategory.AnimeTitle = false)
    (h3 : p.elements.contains elementCategory.EpisodeNumber = false) :
    p.postProcessing D = Except.error Panic.indexOutOfRange := by
  have h2v : p.elements.values elementCategory.AnimeTitle = [] :=
    (Elements.contains_eq_false_iff _ _).1 h2
  unfold parser.postProcessing parser.postProcessing1 parser.postProcessing2
    parser.postProcessing3 parser.postProcessing4 parser.postProcessing5
  simp [h1, h2, h3, h2v, Elements.get, goFirst, bind, Except.bind, pure, Except.pure]

theorem parsePasses_empty (D : Deps) (o : Options) :
    (parser.new [] o).parsePasses D = parser.new [] o := by
  have e1 : (parser.new [] o).preProcessing = parser.new [] o := rfl
  have e2 : (parser.new [] o).searchForShortenedRange D = parser.new [] o := rfl
  have e3 : (parser.new [] o).searchForKeywords D = parser.new [] o := rfl
  have e4 : (parser.new [] o).searchForIsolatedNumbers D = parser.new [] o := rfl
  have e5 : (parser.new [] o).searchForEpisodeNumber D = parser.new [] o := rfl
  have e6 : (parser.new [] o).searchForEpisodeNumberAtTheStart = parser.new [] o := rfl
  have e7 : (parser.new [] o).searchForAnimeTitle D = parser.new [] o := rfl
  have e8 : (parser.new [] o).searchForReleaseGroup D = parser.new [] o := rfl
  have e9 : (parser.new [] o).searchForEpisodeTitle = parser.new [] o := rfl
  have hc : ∀ c, (parser.new [] o).elements.contains c = false := fun _ => rfl
  unfold parser.parsePasses parser.episodeNumberPass parser.releaseGroupPass
    parser.episodeTitlePass
  simp only [e1, e2, e3, e4, e5, e6, e7, e8, e9, hc, ite_self, Bool.false_eq_true, and_false,
    if_false]

/-- The empty input: `parse` on an empty token store and an empty element store reaches
`postProcessing` with the empty store and panics there. -/
theorem parse_empty_input_panics (D : Deps) (o : Options) :
    (parser.new [] o).parse D = Except.error Panic.indexOutOfRange := by
  unfold parser.parse
  rw [parsePasses_empty]
  exact postProcessing_error_of_no_title D _ rfl rfl rfl

/-! ## Theorems: which categories a pass can store into -/

theorem parser.sameFor_refl (c : elementCategory) (p : parser) : parser.sameFor c p p :=
  ⟨rfl, rfl, rfl⟩

theorem parser.sameFor_trans {c : elementCategory} {p q r : parser}
    (h1 : parser.sameFor c p q) (h2 : parser.sameFor c q r) : parser.sameFor c p r :=
  ⟨h2.1.trans h1.1, h2.2.1.trans h1.2.1, h2.2.2.trans h1.2.2⟩

theorem Elements.put_values_ne (e : Elements) (cat c : elementCategory) (l : List String)
    (h : c ≠ cat) : (e.put cat l).values c = e.values c := by
  simp [Elements.put, h]

theorem Elements.insert_values_of_safe (e : Elements) (cat c : elementCategory) (v : String)
    (h : insertSafe c cat) : (e.insert cat v).values c = e.values c := by
  unfold Elements.insert
  split_ifs with h1
  · split
    · exact Elements.put_values_ne _ _ _ _ h.1
    · split_ifs with h2
      · exact Elements.put_values_ne _ _ _ _ (h.2 h2.1)
      · rfl
  · exact Elements.put_values_ne _ _ _ _ h.1

theorem parser.sameFor_insert {c cat : elementCategory} (hs : insertSafe c cat) (p : parser)
    (ts : Tanuki.tokens) (v : String) :
    parser.sameFor c p ⟨ts, p.elements.insert cat v, p.options, p.keywordManager⟩ :=
  ⟨Elements.insert_values_of_safe _ _ _ _ hs, rfl, rfl⟩

theorem parser.sameFor_tokens (c : elementCategory) (p : parser) (ts : Tanuki.tokens) :
    parser.sameFor c p ⟨ts, p.elements, p.options, p.keywordManager⟩ :=
  ⟨rfl, rfl, rfl⟩

theorem parser.setAnimeSeason_sameFor {c : elementCategory} (hc : c ≠ elementCategory.AnimeSeason)
    {p q : parser} (h : parser.sameFor c p q) (a b : tokenPtr) (v : String) :
    parser.sameFor c p (q.setAnimeSeason a b v) :=
  parser.sameFor_trans h
    ⟨Elements.insert_values_of_safe _ _ _ _ ⟨hc, fun h => by cases h⟩, rfl, rfl⟩

theorem parser.setAnimePart_sameFor {c : elementCategory} (hc : c ≠ elementCategory.AnimePart)
    {p q : parser} (h : parser.sameFor c p q) (a b : tokenPtr) (v : String) :
    parser.sameFor c p (q.setAnimePart a b v) :=
  parser.sameFor_trans h
    ⟨Elements.insert_values_of_safe _ _ _ _ ⟨hc, fun h => by cases h⟩, rfl, rfl⟩

theorem parser.setAnimeSeason_twice_sameFor {c : elementCategory}
    (hc : c ≠ elementCategory.AnimeSeason) (p : parser) (a b a2 b2 : tokenPtr) (v v2 : String) :
    parser.sameFor c p ((p.setAnimeSeason a b v).setAnimeSeason a2 b2 v2) :=
  parser.setAnimeSeason_sameFor hc
    (parser.setAnimeSeason_sameFor hc (parser.sameFor_refl _ _) _ _ _) _ _ _

theorem parser.setAnimePart_twice_sameFor {c : elementCategory}
    (hc : c ≠ elementCategory.AnimePart) (p : parser) (a b a2 b2 : tokenPtr) (v v2 : String) :
    parser.sameFor c p ((p.setAnimePart a b v).setAnimePart a2 b2 v2) :=
  parser.setAnimePart_sameFor hc
    (parser.setAnimePart_sameFor hc (parser.sameFor_refl _ _) _ _ _) _ _ _

theorem parser.seasonShortenedRange_sameFor {c : elementCategory}
    (hc : c ≠ elementCategory.AnimeSeason) (p : parser) (a b : tokenPtr) :
    parser.sameFor c p (p.seasonShortenedRange a b) := by
  unfold parser.seasonShortenedRange
  simp only []
  repeat' (first | split_ifs | split)
  all_goals first
    | with_reducible exact parser.sameFor_refl _ _
    | with_reducible exact parser.setAnimeSeason_twice_sameFor hc _ _ _ _ _ _ _

theorem parser.seasonRange_sameFor {c : elementCategory}
    (hc : c ≠ elementCategory.AnimeSeason) (p : parser) (a b : tokenPtr) (found : Bool) :
    parser.sameFor c p (p.seasonRange a b found) := by
  unfold parser.seasonRange
  simp only []
  repeat' (first | split_ifs | split)
  all_goals first
    | with_reducible exact parser.sameFor_refl _ _
    | with_reducible exact parser.setAnimeSeason_twice_sameFor hc _ _ _ _ _ _ _

theorem parser.seasonNumber_sameFor {c : elementCategory}
    (hc : c ≠ elementCategory.AnimeSeason) (p : parser) (a b : tokenPtr) :
    parser.sameFor c p (p.seasonNumber a b) := by
  unfold parser.seasonNumber
  simp only []
  split_ifs
  · exact parser.setAnimeSeason_sameFor hc
      (parser.setAnimeSeason_sameFor hc (parser.sameFor_refl _ _) _ _ _) _ _ _
  · exact parser.setAnimeSeason_sameFor hc (parser.sameFor_refl _ _) _ _ _

theorem parser.checkAnimeSeasonKeyword_sameFor {c : elementCategory}
    (hc : c ≠ elementCategory.AnimeSeason) (D : Deps) (p : parser) (tkn : tokenPtr) :
    parser.sameFor c p (p.checkAnimeSeasonKeyword D tkn).2 := by
  unfold parser.checkAnimeSeasonKeyword
  simp only []
  have h12 : ∀ (a b : tokenPtr) (f : Bool),
      parser.sameFor c p ((p.seasonShortenedRange a b).seasonRange a b f) := fun a b f =>
    parser.sameFor_trans (parser.seasonShortenedRange_sameFor hc p a b)
      (parser.seasonRange_sameFor hc _ a b f)
  split_ifs
  · exact parser.setAnimeSeason_sameFor hc (parser.sameFor_refl _ _) _ _ _
  · exact parser.sameFor_trans (h12 _ _ _) (parser.seasonNumber_sameFor hc _ _ _)
  · exact h12 _ _ _

theorem parser.partRange_sameFor {c : elementCategory}
    (hc : c ≠ elementCategory.AnimePart) (p : parser) (a b : tokenPtr) :
    parser.sameFor c p (p.partRange a b) := by
  unfold parser.partRange
  simp only []
  repeat' (first | split_ifs | split)
  all_goals first
    | with_reducible exact parser.sameFor_refl _ _
    | with_reducible exact parser.setAnimePart_twice_sameFor hc _ _ _ _ _ _ _

theorem parser.partNumber_sameFor {c : elementCategory}
    (hc : c ≠ elementCategory.AnimePart) (p : parser) (a b : tokenPtr) :
    parser.sameFor c p (p.partNumber a b) := by
  unfold parser.partNumber
  simp only []
  split_ifs
  · exact parser.setAnimePart_sameFor hc
      (parser.setAnimePart_sameFor hc (parser.sameFor_refl _ _) _ _ _) _ _ _
  · exact parser.setAnimePart_sameFor hc (parser.sameFor_refl _ _) _ _ _

theorem parser.checkAnimePartKeyword_sameFor {c : elementCategory}
    (hc : c ≠ elementCategory.AnimePart) (D : Deps) (p : parser) (tkn : tokenPtr) :
    parser.sameFor c p (p.checkAnimePartKeyword D tkn).2 := by
  unfold parser.checkAnimePartKeyword
  simp only []
  split_ifs
  · exact parser.setAnimePart_sameFor hc (parser.sameFor_refl _ _) _ _ _
  · exact parser.sameFor_trans (parser.partRange_sameFor hc p _ _)
      (parser.partNumber_sameFor hc _ _ _)
  · exact parser.partRange_sameFor hc p _ _

theorem parser.buildElement_sameFor {c cat : elementCategory} (hc : insertSafe c cat)
    (p : parser) (b e : tokenPtr) (keep : Bool) :
    parser.sameFor c p (p.buildElement cat b e keep) := by
  unfold parser.buildElement
  simp only []
  split_ifs
  all_goals first
    | with_reducible exact parser.sameFor_insert hc _ _ _
    | with_reducible exact parser.sameFor_tokens _ _ _

theorem parser.buildElement_twice_sameFor {c cat : elementCategory} (hc : insertSafe c cat)
    (p : parser) (b e b2 e2 : tokenPtr) (keep keep2 : Bool) :
    parser.sameFor c p ((p.buildElement cat b e keep).buildElement cat b2 e2 keep2) :=
  parser.sameFor_trans (parser.buildElement_sameFor hc _ _ _ _)
    (parser.buildElement_sameFor hc _ _ _ _)

/-- A loop over token indices keeps what each iteration keeps; `P` is a property of the
options and the vocabulary that the iterations may rely on. -/
theorem parser.foldl_sameFor {α : Type} {c : elementCategory} (f : parser → α → parser)
    (P : Options → Tanuki.keywordManager → Prop)
    (hf : ∀ q i, P q.options q.keywordManager → parser.sameFor c q (f q i))
    (l : List α) (p : parser) (hp : P p.options p.keywordManager) :
    parser.sameFor c p (l.foldl f p) := by
  induction l generalizing p with
  | nil => exact parser.sameFor_refl _ _
  | cons i rest ih =>
    have h1 := hf p i hp
    have hp2 : P (f p i).options (f p i).keywordManager := by
      rw [h1.2.1, h1.2.2]; exact hp
    exact parser.sameFor_trans h1 (ih (f p i) hp2)

theorem parser.preProcessing_sameFor (c : elementCategory) (p : parser) :
    parser.sameFor c p p.preProcessing := by
  unfold parser.preProcessing
  apply parser.foldl_sameFor _ (fun _ _ => True) _ _ _ trivial
  intro q i _
  simp only []
  split
  · split_ifs
    · exact ⟨rfl, rfl, rfl⟩
    · exact parser.sameFor_refl _ _
  · exact parser.sameFor_refl _ _

theorem parser.searchForShortenedRange_sameFor {c : elementCategory}
    (hc : c ≠ elementCategory.AnimeSeason) (D : Deps) (p : parser) :
    parser.sameFor c p (p.searchForShortenedRange D) := by
  unfold parser.searchForShortenedRange
  apply parser.foldl_sameFor _ (fun _ _ => True) _ _ _ trivial
  intro q i _
  simp only []
  split_ifs
  · exact parser.checkAnimeSeasonKeyword_sameFor hc D q _
  · exact parser.sameFor_refl _ _

theorem parser.storeKeyword_sameFor {c cat : elementCategory}
    (hc : cat ≠ elementCategory.Unknown → insertSafe c cat)
    (p : parser) (tkn : tokenPtr) (kd : keyword) (w : String) :
    parser.sameFor c p (p.storeKeyword tkn kd cat w) := by
  unfold parser.storeKeyword
  simp only []
  split_ifs with h1
  · exact ⟨Elements.insert_values_of_safe _ _ _ _ (hc h1), rfl, rfl⟩
  · exact ⟨Elements.insert_values_of_safe _ _ _ _ (hc h1), rfl, rfl⟩
  · exact parser.sameFor_refl _ _

theorem parser.keywordNotFound_sameFor {c : elementCategory}
    (h1 : c ≠ elementCategory.FileChecksum) (h2 : c ≠ elementCategory.VideoResolution)
    (p : parser) (tkn : tokenPtr) (w : String) (kd : keyword) :
    parser.sameFor c p (p.keywordNotFound tkn w kd) := by
  unfold parser.keywordNotFound
  split_ifs
  · exact parser.storeKeyword_sameFor (fun _ => ⟨h1, fun h => by cases h⟩) _ _ _ _
  · exact parser.storeKeyword_sameFor (fun _ => ⟨h2, fun h => by cases h⟩) _ _ _ _
  · exact parser.storeKeyword_sameFor (fun h => absurd rfl h) _ _ _ _

/-- The outcomes of the branch of a found keyword: the state unchanged, the season or the
part handler, the extent handler (for a valid EpisodePrefix or a VolumePrefix keyword), or
a value stored under the keyword's category (which is not a ReleaseGroup one when the
option ParseReleaseGroup is off). -/
theorem parser.keywordFound_cases (D : Deps) (p : parser) (tkn : tokenPtr) (w : String)
    (kd : keyword) :
    p.keywordFound D tkn w kd = p
    ∨ p.keywordFound D tkn w kd = (p.checkAnimeSeasonKeyword D tkn).2
    ∨ p.keywordFound D tkn w kd = (p.checkAnimePartKeyword D tkn).2
    ∨ (((kd.category = elementCategory.EpisodePrefix ∧ kd.options.valid = true)
          ∨ kd.category = elementCategory.VolumePrefix)
        ∧ ∃ cat, p.keywordFound D tkn w kd = D.checkExtentKeyword cat tkn p)
    ∨ (¬ (p.options.ParseReleaseGroup = false ∧ kd.category = elementCategory.ReleaseGroup)
        ∧ ∃ v, p.keywordFound D tkn w kd = p.storeKeyword tkn kd kd.category v) := by
  unfold parser.keywordFound
  simp only []
  by_cases g1 : p.options.ParseReleaseGroup = false ∧ kd.category = elementCategory.ReleaseGroup
  · rw [if_pos g1]; exact Or.inl rfl
  rw [if_neg g1]
  by_cases g2 : D.isSearchable kd.category = false ∨ kd.options.searchable = false
  · rw [if_pos g2]; exact Or.inl rfl
  rw [if_neg g2]
  by_cases g3 : kd.category.isSingular = true ∧ p.elements.contains kd.category = true
  · rw [if_pos g3]; exact Or.inl rfl
  rw [if_neg g3]
  by_cases g4 : kd.category = elementCategory.AnimeSeasonPrefix
  · rw [if_pos g4]; exact Or.inr (Or.inl rfl)
  rw [if_neg g4]
  by_cases g5 : kd.category = elementCategory.AnimePartPrefix
  · rw [if_pos g5]; exact Or.inr (Or.inr (Or.inl rfl))
  rw [if_neg g5]
  by_cases g6 : kd.category = elementCategory.EpisodePrefix
  · rw [if_pos g6]
    by_cases g7 : kd.options.valid = true
    · rw [if_pos g7]
      exact Or.inr (Or.inr (Or.inr (Or.inl ⟨Or.inl ⟨g6, g7⟩, _, rfl⟩)))
    · rw [if_neg g7]; exact Or.inl rfl
  rw [if_neg g6]
  by_cases g8 : kd.category = elementCategory.ReleaseVersion
  · rw [if_pos g8]
    exact Or.inr (Or.inr (Or.inr (Or.inr ⟨g1, _, rfl⟩)))
  rw [if_neg g8]
  by_cases g9 : kd.category = elementCategory.VolumePrefix
  · rw [if_pos g9]
    exact Or.inr (Or.inr (Or.inr (Or.inl ⟨Or.inr g9, _, rfl⟩)))
  rw [if_neg g9]
  exact Or.inr (Or.inr (Or.inr (Or.inr ⟨g1, _, rfl⟩)))

/-- The branch of a found keyword keeps the category `c` when `c` is not the season or the
part, the keyword is skipped or its category cannot touch `c`, and the extent handler, if
it is called, keeps `c`. -/
theorem parser.keywordFound_sameFor {c : elementCategory} (D : Deps) (p : parser)
    (tkn : tokenPtr) (w : String) (kd : keyword)
    (hS : c ≠ elementCategory.AnimeSeason) (hP : c ≠ elementCategory.AnimePart)
    (hcat : (p.options.ParseReleaseGroup = false ∧ kd.category = elementCategory.ReleaseGroup)
      ∨ insertSafe c kd.category)
    (hext : (kd.category = elementCategory.EpisodePrefix ∧ kd.options.valid = true)
        ∨ kd.category = elementCategory.VolumePrefix →
      ∀ cat, parser.sameFor c p (D.checkExtentKeyword cat tkn p)) :
    parser.sameFor c p (p.keywordFound D tkn w kd) := by
  rcases parser.keywordFound_cases D p tkn w kd with h | h | h | ⟨he, cat, h⟩ | ⟨hn, v, h⟩
  · rw [h]; exact parser.sameFor_refl _ _
  · rw [h]; exact parser.checkAnimeSeasonKeyword_sameFor hS D p _
  · rw [h]; exact parser.checkAnimePartKeyword_sameFor hP D p _
  · rw [h]; exact hext he cat
  · rw [h]
    rcases hcat with hcat | hcat
    · exact absurd hcat hn
    · exact parser.storeKeyword_sameFor (fun _ => hcat) _ _ _ _

theorem Deps.sample_keeps (c : elementCategory) : Deps.sample.keeps c :=
  ⟨fun _ _ q => parser.sameFor_refl c q, fun _ q => parser.sameFor_refl c q,
   fun _ q => parser.sameFor_refl c q, fun _ q => parser.sameFor_refl c q,
   fun _ q => parser.sameFor_refl c q, fun _ q => parser.sameFor_refl c q⟩

theorem parser.searchForIsolatedNumbers_sameFor {c : elementCategory}
    (h1 : c ≠ elementCategory.AnimeYear) (h2 : c ≠ elementCategory.VideoResolution)
    (D : Deps) (p : parser) : parser.sameFor c p (p.searchForIsolatedNumbers D) := by
  have hs1 : insertSafe c elementCategory.AnimeYear := ⟨h1, fun h => by cases h⟩
  have hs2 : insertSafe c elementCategory.VideoResolution := ⟨h2, fun h => by cases h⟩
  unfold parser.searchForIsolatedNumbers
  apply parser.foldl_sameFor _ (fun _ _ => True) _ _ _ trivial
  intro q i _
  unfold parser.searchForIsolatedNumbersStep
  simp only []
  split_ifs
  all_goals first
    | with_reducible exact parser.sameFor_refl _ _
    | with_reducible exact parser.sameFor_insert hs1 _ _ _
    | with_reducible exact parser.sameFor_insert hs2 _ _ _

theorem parser.searchForEpisodeNumberAtTheStart_sameFor {c : elementCategory}
    (h1 : c ≠ elementCategory.EpisodeNumber) (h2 : c ≠ elementCategory.EpisodeNumberAlt)
    (p : parser) : parser.sameFor c p p.searchForEpisodeNumberAtTheStart := by
  have hs1 : insertSafe c elementCategory.EpisodeNumber := ⟨h1, fun _ => h2⟩
  unfold parser.searchForEpisodeNumberAtTheStart
  apply parser.foldl_sameFor _ (fun _ _ => True) _ _ _ trivial
  intro q i _
  unfold parser.searchForEpisodeNumberAtTheStartStep
  simp only []
  split_ifs
  all_goals first
    | with_reducible exact parser.sameFor_refl _ _
    | with_reducible exact parser.sameFor_insert hs1 _ _ _

theorem parser.searchForEpisodeNumber_sameFor {c : elementCategory} (D : Deps)
    (hD : D.keeps c) (p : parser) : parser.sameFor c p (p.searchForEpisodeNumber D) := by
  obtain ⟨_, k1, k2, k3, k4, k5⟩ := hD
  unfold parser.searchForEpisodeNumber
  simp only []
  have h0 : ∀ b : Bool, parser.sameFor c p
      ⟨p.tokens, p.elements.setCheckAltNumber b, p.options, p.keywordManager⟩ :=
    fun _ => ⟨rfl, rfl, rfl⟩
  have h1 := parser.sameFor_trans (h0 (p.elements.contains elementCategory.EpisodeNumber))
    (k1 (p.tokens.getListFlag tokenFlagsUnknown) _)
  split_ifs
  · exact parser.sameFor_refl _ _
  · exact h1
  · exact h1
  · exact h1
  · exact parser.sameFor_trans h1 (k2 _ _)
  · exact parser.sameFor_trans (parser.sameFor_trans h1 (k2 _ _)) (k3 _ _)
  · exact parser.sameFor_trans (parser.sameFor_trans (parser.sameFor_trans h1 (k2 _ _)) (k3 _ _))
      (k4 _ _)
  · exact parser.sameFor_trans (parser.sameFor_trans (parser.sameFor_trans
      (parser.sameFor_trans h1 (k2 _ _)) (k3 _ _)) (k4 _ _)) (k5 _ _)

theorem parser.searchForAnimeTitle_sameFor {c : elementCategory}
    (hc : c ≠ elementCategory.AnimeTitle) (D : Deps) (p : parser) :
    parser.sameFor c p (p.searchForAnimeTitle D) := by
  have hs : insertSafe c elementCategory.AnimeTitle := ⟨hc, fun h => by cases h⟩
  have h1 : ∀ (q : parser) (b : tokenPtr) (f : Bool),
      parser.sameFor c q (q.titleToLastToken b f) := by
    intro q b f
    unfold parser.titleToLastToken
    simp only []
    split_ifs
    · exact parser.buildElement_sameFor hs _ _ _ _
    · exact parser.sameFor_refl _ _
    · exact parser.sameFor_refl _ _
  have h2 : ∀ (q : parser) (b e : tokenPtr) (f : Bool),
      parser.sameFor c q (q.titleBuild b e f) := by
    intro q b e f
    unfold parser.titleBuild
    simp only []
    split_ifs
    · exact parser.sameFor_refl _ _
    · exact parser.buildElement_sameFor hs _ _ _ _
    · exact parser.buildElement_sameFor hs _ _ _ _
  unfold parser.searchForAnimeTitle
  simp only []
  by_cases g : (p.tokens.deref
      (if (p.tokens.find (tokenFlagsNotEnclosed ++ tokenFlagsUnknown)).2 = false then
        titleBeginLoop D p.tokens (p.tokens.length + 1) (p.tokens.get 0).1 (p.tokens.get 0).2 false
      else (p.tokens.find (tokenFlagsNotEnclosed ++ tokenFlagsUnknown)).1)).empty = true
  · rw [if_pos g]
    exact parser.sameFor_refl _ _
  · rw [if_neg g]
    exact parser.sameFor_trans (h1 _ _ _) (h2 _ _ _ _)

theorem parser.episodeTitleLoop_sameFor {c : elementCategory}
    (hc : c ≠ elementCategory.EpisodeTitle) (p : parser) (fuel : Nat) (tokenEnd : tokenPtr) :
    parser.sameFor c p (p.episodeTitleLoop fuel tokenEnd) := by
  have hs : insertSafe c elementCategory.EpisodeTitle := ⟨hc, fun h => by cases h⟩
  induction fuel generalizing tokenEnd with
  | zero => exact parser.sameFor_refl _ _
  | succ n ih =>
    unfold parser.episodeTitleLoop
    simp only []
    repeat' (first | split_ifs | split)
    all_goals first
      | with_reducible exact parser.sameFor_refl _ _
      | with_reducible exact ih _
      | with_reducible exact parser.buildElement_sameFor hs _ _ _ _

theorem parser.searchForEpisodeTitle_sameFor {c : elementCategory}
    (hc : c ≠ elementCategory.EpisodeTitle) (p : parser) :
    parser.sameFor c p p.searchForEpisodeTitle :=
  parser.episodeTitleLoop_sameFor hc p _ _

theorem Elements.erase_values_ne (e : Elements) (cat c : elementCategory) (h : c ≠ cat) :
    (e.erase cat).values c = e.values c :=
  Elements.put_values_ne _ _ _ _ h

theorem Elements.remove_values_ne (e : Elements) (cat c : elementCategory) (v : String)
    (h : c ≠ cat) : (e.remove cat v).values c = e.values c :=
  Elements.put_values_ne _ _ _ _ h

theorem Except.bind_eq_ok {α β : Type} {x : Except Panic α} {f : α → Except Panic β} {b : β}
    (h : (x >>= f) = Except.ok b) : ∃ a, x = Except.ok a ∧ f a = Except.ok b := by
  cases x with
  | error e => cases h
  | ok a => exact ⟨a, rfl, h⟩

theorem Except.pure_eq_ok {α : Type} {a b : α} (h : (pure a : Except Panic α) = Except.ok b) :
    a = b :=
  Except.ok.inj h

theorem parser.sameFor_elements {c : elementCategory} (p : parser) (e : Elements)
    (h : e.values c = p.elements.values c) :
    parser.sameFor c p ⟨p.tokens, e, p.options, p.keywordManager⟩ :=
  ⟨h, rfl, rfl⟩

theorem parser.postProcessing1_sameFor {c : elementCategory} (hc : postSafe c) (p q : parser)
    (h : p.postProcessing1 = Except.ok q) : parser.sameFor c p q := by
  obtain ⟨hET, hEN, hENA, _, _, _⟩ := hc
  unfold parser.postProcessing1 at h
  split_ifs at h
  · obtain ⟨t, _, h⟩ := Except.bind_eq_ok h
    split at h
    · have := Except.pure_eq_ok h
      subst this
      apply parser.sameFor_elements
      rw [Elements.insert_values_of_safe _ _ _ _ ⟨hEN, fun _ => hENA⟩,
        Elements.erase_values_ne _ _ _ hET]
    · have := Except.pure_eq_ok h
      subst this
      exact parser.sameFor_refl _ _
  · have := Except.pure_eq_ok h
    subst this
    exact parser.sameFor_refl _ _

theorem parser.postProcessing2_sameFor {c : elementCategory} (hc : postSafe c) (p q : parser)
    (h : p.postProcessing2 = Except.ok q) : parser.sameFor c p q := by
  obtain ⟨hET, _, _, _, _, _⟩ := hc
  unfold parser.postProcessing2 at h
  split_ifs at h
  · obtain ⟨t, _, h⟩ := Except.bind_eq_ok h
    split at h
    · have := Except.pure_eq_ok h
      subst this
      apply parser.sameFor_elements
      rw [Elements.erase_values_ne _ _ _ hET]
    · have := Except.pure_eq_ok h
      subst this
      exact parser.sameFor_refl _ _
  · have := Except.pure_eq_ok h
    subst this
    exact parser.sameFor_refl _ _

theorem parser.postProcessingTypes_sameFor {c : elementCategory} (hc : postSafe c) (D : Deps)
    (p : parser) (t : String) (l : List String) :
    parser.sameFor c p (p.postProcessingTypes D t l) := by
  obtain ⟨hET, _, _, hAT, _, _⟩ := hc
  unfold parser.postProcessingTypes
  apply parser.foldl_sameFor _ (fun _ _ => True) _ _ _ trivial
  intro q a _
  simp only []
  split_ifs
  · apply parser.sameFor_elements
    rw [Elements.erase_values_ne _ _ _ hET]
  · apply parser.sameFor_elements
    rw [Elements.remove_values_ne _ _ _ _ hAT]
  · exact parser.sameFor_refl _ _
  · exact parser.sameFor_refl _ _

theorem parser.postProcessing3_sameFor {c : elementCategory} (hc : postSafe c) (D : Deps)
    (p q : parser) (h : p.postProcessing3 D = Except.ok q) : parser.sameFor c p q := by
  unfold parser.postProcessing3 at h
  split_ifs at h
  · obtain ⟨t, _, h⟩ := Except.bind_eq_ok h
    have := Except.pure_eq_ok h
    subst this
    exact parser.postProcessingTypes_sameFor hc D p _ _
  · have := Except.pure_eq_ok h
    subst this
    exact parser.sameFor_refl _ _

theorem parser.postProcessing4_sameFor {c : elementCategory} (hc : postSafe c) (p q : parser)
    (h : p.postProcessing4 = Except.ok q) : parser.sameFor c p q := by
  obtain ⟨hET, hEN, hENA, _, hT, _⟩ := hc
  unfold parser.postProcessing4 at h
  split_ifs at h
  · obtain ⟨t, _, h⟩ := Except.bind_eq_ok h
    split at h
    · have := Except.pure_eq_ok h
      subst this
      apply parser.sameFor_elements
      rw [Elements.insert_values_of_safe _ _ _ _ ⟨hET, fun h => by cases h⟩,
        Elements.erase_values_ne _ _ _ hT]
    · split at h
      · simp only [] at h
        split_ifs at h
        · have := Except.pure_eq_ok h
          subst this
          apply parser.sameFor_elements
          rw [Elements.insert_values_of_safe _ _ _ _ ⟨hEN, fun _ => hENA⟩,
            Elements.erase_values_ne _ _ _ hT]
        · have := Except.pure_eq_ok h
          subst this
          exact parser.sameFor_refl _ _
      · have := Except.pure_eq_ok h
        subst this
        exact parser.sameFor_refl _ _
  · have := Except.pure_eq_ok h
    subst this
    exact parser.sameFor_refl _ _

theorem parser.postProcessing5_sameFor {c : elementCategory} (hc : postSafe c) (p q : parser)
    (h : p.postProcessing5 = Except.ok q) : parser.sameFor c p q := by
  obtain ⟨hET, hEN, hENA, _, hT, hS⟩ := hc
  have i1 : ∀ (e : Elements) (o : Option String),
      (match o with
        | some season => e.insert elementCategory.AnimeSeason season
        | none => e).values c = e.values c := by
    intro e o
    cases o with
    | none => rfl
    | some v => exact Elements.insert_values_of_safe _ _ _ _ ⟨hS, fun h => by cases h⟩
  have i2 : ∀ (e : Elements) (o : Option String),
      (match o with
        | some episode => e.insert elementCategory.EpisodeNumber episode
        | none => e).values c = e.values c := by
    intro e o
    cases o with
    | none => rfl
    | some v => exact Elements.insert_values_of_safe _ _ _ _ ⟨hEN, fun _ => hENA⟩
  have i3 : ∀ (e : Elements) (o : Option String),
      (match o with
        | some episodeTitle => e.insert elementCategory.EpisodeTitle episodeTitle
        | none => e).values c = e.values c := by
    intro e o
    cases o with
    | none => rfl
    | some v => exact Elements.insert_values_of_safe _ _ _ _ ⟨hET, fun h => by cases h⟩
  unfold parser.postProcessing5 at h
  split_ifs at h
  · obtain ⟨t, _, h⟩ := Except.bind_eq_ok h
    split at h
    · have := Except.pure_eq_ok h
      subst this
      apply parser.sameFor_elements
      rw [Elements.erase_values_ne _ _ _ hT, i3, i2, i1]
    · have := Except.pure_eq_ok h
      subst this
      exact parser.sameFor_refl _ _
  · have := Except.pure_eq_ok h
    subst this
    exact parser.sameFor_refl _ _

/-- When `postProcessing` returns, the categories it never writes are as before. -/
theorem parser.postProcessing_sameFor {c : elementCategory} (hc : postSafe c) (D : Deps)
    (p q : parser) (h : p.postProcessing D = Except.ok q) : parser.sameFor c p q := by
  unfold parser.postProcessing at h
  obtain ⟨p1, h1, h⟩ := Except.bind_eq_ok h
  obtain ⟨p2, h2, h⟩ := Except.bind_eq_ok h
  obtain ⟨p3, h3, h⟩ := Except.bind_eq_ok h
  obtain ⟨p4, h4, h⟩ := Except.bind_eq_ok h
  exact parser.sameFor_trans (parser.sameFor_trans (parser.sameFor_trans (parser.sameFor_trans
    (parser.postProcessing1_sameFor hc _ _ h1) (parser.postProcessing2_sameFor hc _ _ h2))
    (parser.postProcessing3_sameFor hc D _ _ h3)) (parser.postProcessing4_sameFor hc _ _ h4))
    (parser.postProcessing5_sameFor hc _ _ h)

/-! ## Theorems: the option ParseReleaseGroup -/

theorem parser.searchForKeywordsStep_keeps_releaseGroup (D : Deps)
    (hD : D.keeps elementCategory.ReleaseGroup) (p : parser) (i : Nat)
    (hopt : p.options.ParseReleaseGroup = false) :
    parser.sameFor elementCategory.ReleaseGroup p (p.searchForKeywordsStep D i) := by
  unfold parser.searchForKeywordsStep
  simp only []
  split_ifs
  · exact parser.sameFor_refl _ _
  · exact parser.sameFor_refl _ _
  · apply parser.keywordFound_sameFor D p _ _ _ (by decide) (by decide)
    · by_cases h : (p.keywordManager.findWithoutCategory (keywordManager.normalize D
          (goTrim (p.tokens.deref (some i)).Content [' ', '-']))).1.category
          = elementCategory.ReleaseGroup
      · exact Or.inl ⟨hopt, h⟩
      · exact Or.inr ⟨fun h2 => h h2.symm, fun _ => by decide⟩
    · intro _ cat
      exact hD.1 cat _ p
  · exact parser.keywordNotFound_sameFor (by decide) (by decide) _ _ _ _

theorem parser.searchForKeywords_keeps_releaseGroup (D : Deps)
    (hD : D.keeps elementCategory.ReleaseGroup) (p : parser)
    (hopt : p.options.ParseReleaseGroup = false) :
    parser.sameFor elementCategory.ReleaseGroup p (p.searchForKeywords D) := by
  unfold parser.searchForKeywords
  exact parser.foldl_sameFor _ (fun o _ => o.ParseReleaseGroup = false)
    (fun q i hq => parser.searchForKeywordsStep_keeps_releaseGroup D hD q i hq) _ _ hopt

theorem parser.parsePasses_keeps_releaseGroup (D : Deps)
    (hD : D.keeps elementCategory.ReleaseGroup) (p : parser)
    (hopt : p.options.ParseReleaseGroup = false) :
    parser.sameFor elementCategory.ReleaseGroup p (p.parsePasses D) := by
  have s1 := parser.preProcessing_sameFor elementCategory.ReleaseGroup p
  have s2 := parser.sameFor_trans s1
    (parser.searchForShortenedRange_sameFor (by decide) D _)
  have s3 := parser.sameFor_trans s2
    (parser.searchForKeywords_keeps_releaseGroup D hD _ (by rw [s2.2.1]; exact hopt))
  have s4 := parser.sameFor_trans s3
    (parser.searchForIsolatedNumbers_sameFor (by decide) (by decide) D _)
  have s5 : parser.sameFor elementCategory.ReleaseGroup p
      (((((p.preProcessing).searchForShortenedRange D).searchForKeywords D).searchForIsolatedNumbers
        D).episodeNumberPass D) := by
    unfold parser.episodeNumberPass
    split_ifs
    · exact parser.sameFor_trans s4 (parser.searchForEpisodeNumber_sameFor D hD _)
    · exact s4
  have s6 := parser.sameFor_trans s5
    (parser.searchForEpisodeNumberAtTheStart_sameFor (by decide) (by decide) _)
  have s7 := parser.sameFor_trans s6 (parser.searchForAnimeTitle_sameFor (by decide) D _)
  have s8 : parser.sameFor elementCategory.ReleaseGroup p
      ((((((((p.preProcessing).searchForShortenedRange D).searchForKeywords D).searchForIsolatedNumbers
        D).episodeNumberPass D).searchForEpisodeNumberAtTheStart).searchForAnimeTitle
        D).releaseGroupPass D) := by
    unfold parser.releaseGroupPass
    rw [if_neg]
    · exact s7
    · rw [s7.2.1, hopt]
      simp
  have s9 : parser.sameFor elementCategory.ReleaseGroup p
      (((((((((p.preProcessing).searchForShortenedRange D).searchForKeywords D).searchForIsolatedNumbers
        D).episodeNumberPass D).searchForEpisodeNumberAtTheStart).searchForAnimeTitle
        D).releaseGroupPass D).episodeTitlePass) := by
    unfold parser.episodeTitlePass
    split_ifs
    · exact parser.sameFor_trans s8 (parser.searchForEpisodeTitle_sameFor (by decide) _)
    · exact s8
  exact s9

/-- C3: with option ParseReleaseGroup=false the parser stores no ReleaseGroup value.  For
every parser state, whatever the routines taken as parameters do as long as they keep the
ReleaseGroup values, the options and the vocabulary: the passes of `parse` leave the
ReleaseGroup values as they were (`searchForReleaseGroup`, the only pass that builds one,
is not invoked), and so does `parse` when it returns; and the keyword pass, on a token
whose normalized word is found as a ReleaseGroup keyword, leaves the parser state
unchanged: nothing is stored and the token stays as it is.  The ReleaseGroup keywords of
the vocabulary are `THORA`, `HORRIBLESUBS`, `ERAI-RAWS`, `SUBSPLEASE`. -/
theorem parse_without_release_group (D : Deps) (p : parser)
    (hD : D.keeps elementCategory.ReleaseGroup)
    (hopt : p.options.ParseReleaseGroup = false) :
    (p.parsePasses D).elements.get elementCategory.ReleaseGroup
        = p.elements.get elementCategory.ReleaseGroup
    ∧ (∀ q, p.parse D = Except.ok q →
        q.elements.get elementCategory.ReleaseGroup = p.elements.get elementCategory.ReleaseGroup)
    ∧ p.releaseGroupPass D = p
    ∧ (∀ i kd,
        p.keywordManager.findWithoutCategory (keywordManager.normalize D (p.keywordWord i))
          = (kd, true) →
        kd.category = elementCategory.ReleaseGroup → p.searchForKeywordsStep D i = p)
    ∧ (∀ w kd, newKeywordManager.findWithoutCategory w = (kd, true) →
        (kd.category = elementCategory.ReleaseGroup ↔
          w ∈ ["THORA", "HORRIBLESUBS", "ERAI-RAWS", "SUBSPLEASE"])) := by
  have hp := parser.parsePasses_keeps_releaseGroup D hD p hopt
  refine ⟨hp.1, ?_, ?_, ?_, ?_⟩
  · intro q hq
    have h2 := parser.postProcessing_sameFor
      (c := elementCategory.ReleaseGroup) (by unfold postSafe; decide) D _ q hq
    exact (parser.sameFor_trans hp h2).1
  · unfold parser.releaseGroupPass
    rw [if_neg]
    rw [hopt]
    simp
  · intro i kd h hcat
    unfold parser.keywordWord at h
    unfold parser.searchForKeywordsStep
    simp only []
    split_ifs
    · rfl
    · rfl
    · rw [h]
      unfold parser.keywordFound
      simp only [hopt, hcat, and_self, if_true]
    · rename_i hf
      rw [h] at hf
      exact absurd rfl hf
  · intro w kd h
    have hall : ∀ e ∈ newKeywordManager.keywords ++ newKeywordManager.fileExtensions,
        (e.2.category = elementCategory.ReleaseGroup ↔
          e.1 ∈ ["THORA", "HORRIBLESUBS", "ERAI-RAWS", "SUBSPLEASE"]) := by
      decide
    rcases findWithoutCategory_mem _ _ _ h with hm | hm
    · exact hall (w, kd) (List.mem_append_left _ hm)
    · exact hall (w, kd) (List.mem_append_right _ hm)

theorem parse_without_release_group_witness :
    ((parser.new releaseGroupTokens optionsNoReleaseGroup).parsePasses Deps.sample).elements.get
        elementCategory.ReleaseGroup = []
    ∧ ((parser.new releaseGroupTokens optionsNoReleaseGroup).parse Deps.sample).toOption.map
          (fun q => (q.elements.get elementCategory.AnimeTitle,
            q.elements.get elementCategory.ReleaseGroup)) = some (["Title [SubsPlease]"], [])
    ∧ (parser.new releaseGroupTokens optionsNoReleaseGroup).searchForKeywordsStep Deps.sample 5
        = parser.new releaseGroupTokens optionsNoReleaseGroup
    ∧ ((parser.new releaseGroupTokens Options.default).parse Deps.sample).toOption.map
          (fun q => q.elements.get elementCategory.ReleaseGroup) = some ["SubsPlease"] :=
  ⟨(parse_without_release_group Deps.sample (parser.new releaseGroupTokens optionsNoReleaseGroup)
      (Deps.sample_keeps _) rfl).1,
   by decide,
   (parse_without_release_group Deps.sample (parser.new releaseGroupTokens optionsNoReleaseGroup)
      (Deps.sample_keeps _) rfl).2.2.2.1 5 ⟨elementCategory.ReleaseGroup, keywordOptionsDefault⟩
      (by decide) rfl,
   by decide⟩

/-! ## Theorems: the option ParseEpisodeNumber -/

theorem parser.sameWords_refl (p : parser) : parser.sameWords p p := ⟨rfl, rfl⟩

theorem parser.sameWords_trans {p q r : parser} (h1 : parser.sameWords p q)
    (h2 : parser.sameWords q r) : parser.sameWords p r :=
  ⟨h2.1.trans h1.1, h2.2.trans h1.2⟩

theorem tokens.modify_category_contents (ts : tokens) (i : Nat) (c : tokenCategory) :
    tokens.contents (List.modify (fun t => { t with Category := c }) i ts) = tokens.contents ts := by
  unfold tokens.contents
  induction ts generalizing i with
  | nil => simp
  | cons t rest ih =>
    cases i with
    | zero => simp
    | succ n => simp [ih]

theorem tokens.setCategory_contents (ts : tokens) (p : tokenPtr) (c : tokenCategory) :
    (ts.setCategory p c).contents = ts.contents := by
  cases p with
  | none => rfl
  | some i => exact tokens.modify_category_contents ts i c

theorem tokens.deref_content (ts : tokens) (i : Nat) :
    (ts.deref (some i)).Content = ts.contents.getD i "" := by
  unfold tokens.deref tokens.contents
  induction ts generalizing i with
  | nil => rfl
  | cons t rest ih =>
    cases i with
    | zero => rfl
    | succ n => simpa using ih n

theorem parser.keywordWord_of_sameWords {p q : parser} (h : parser.sameWords p q) (i : Nat) :
    q.keywordWord i = p.keywordWord i := by
  unfold parser.keywordWord
  rw [tokens.deref_content, tokens.deref_content, h.1]

theorem parser.sameWords_setCategory2 (p : parser) (e : Elements) (a b : tokenPtr)
    (c d : tokenCategory) :
    parser.sameWords p ⟨(p.tokens.setCategory a c).setCategory b d, e, p.options,
      p.keywordManager⟩ :=
  ⟨by
    show ((p.tokens.setCategory a c).setCategory b d).contents = p.tokens.contents
    rw [tokens.setCategory_contents, tokens.setCategory_contents], rfl⟩

theorem parser.sameWords_setCategory (p : parser) (e : Elements) (a : tokenPtr)
    (c : tokenCategory) :
    parser.sameWords p ⟨p.tokens.setCategory a c, e, p.options, p.keywordManager⟩ :=
  ⟨by
    show (p.tokens.setCategory a c).contents = p.tokens.contents
    rw [tokens.setCategory_contents], rfl⟩

theorem parser.sameWords_elements (p : parser) (e : Elements) :
    parser.sameWords p ⟨p.tokens, e, p.options, p.keywordManager⟩ :=
  ⟨rfl, rfl⟩

theorem parser.setAnimeSeason_sameWords (p : parser) (a b : tokenPtr) (v : String) :
    parser.sameWords p (p.setAnimeSeason a b v) :=
  parser.sameWords_setCategory2 p _ _ _ _ _

theorem parser.setAnimeSeason_twice_sameWords (p : parser) (a b a2 b2 : tokenPtr)
    (v v2 : String) :
    parser.sameWords p ((p.setAnimeSeason a b v).setAnimeSeason a2 b2 v2) :=
  parser.sameWords_trans (parser.setAnimeSeason_sameWords _ _ _ _)
    (parser.setAnimeSeason_sameWords _ _ _ _)

theorem parser.setAnimePart_sameWords (p : parser) (a b : tokenPtr) (v : String) :
    parser.sameWords p (p.setAnimePart a b v) :=
  parser.sameWords_setCategory2 p _ _ _ _ _

theorem parser.setAnimePart_twice_sameWords (p : parser) (a b a2 b2 : tokenPtr)
    (v v2 : String) :
    parser.sameWords p ((p.setAnimePart a b v).setAnimePart a2 b2 v2) :=
  parser.sameWords_trans (parser.setAnimePart_sameWords _ _ _ _)
    (parser.setAnimePart_sameWords _ _ _ _)

theorem parser.checkAnimeSeasonKeyword_sameWords (D : Deps) (p : parser) (tkn : tokenPtr) :
    parser.sameWords p (p.checkAnimeSeasonKeyword D tkn).2 := by
  have h1 : ∀ (q : parser) (a b : tokenPtr), parser.sameWords q (q.seasonShortenedRange a b) := by
    intro q a b
    unfold parser.seasonShortenedRange
    simp only []
    repeat' (first | split_ifs | split)
    all_goals first
      | with_reducible exact parser.sameWords_refl _
      | with_reducible exact parser.setAnimeSeason_twice_sameWords _ _ _ _ _ _ _
  have h2 : ∀ (q : parser) (a b : tokenPtr) (f : Bool),
      parser.sameWords q (q.seasonRange a b f) := by
    intro q a b f
    unfold parser.seasonRange
    simp only []
    repeat' (first | split_ifs | split)
    all_goals first
      | with_reducible exact parser.sameWords_refl _
      | with_reducible exact parser.setAnimeSeason_twice_sameWords _ _ _ _ _ _ _
  have h3 : ∀ (q : parser) (a b : tokenPtr), parser.sameWords q (q.seasonNumber a b) := by
    intro q a b
    unfold parser.seasonNumber
    simp only []
    split_ifs
    · exact parser.setAnimeSeason_twice_sameWords _ _ _ _ _ _ _
    · exact parser.setAnimeSeason_sameWords _ _ _ _
  unfold parser.checkAnimeSeasonKeyword
  simp only []
  split_ifs
  · exact parser.setAnimeSeason_sameWords _ _ _ _
  · exact parser.sameWords_trans (parser.sameWords_trans (h1 _ _ _) (h2 _ _ _ _)) (h3 _ _ _)
  · exact parser.sameWords_trans (h1 _ _ _) (h2 _ _ _ _)

theorem parser.checkAnimePartKeyword_sameWords (D : Deps) (p : parser) (tkn : tokenPtr) :
    parser.sameWords p (p.checkAnimePartKeyword D tkn).2 := by
  have h2 : ∀ (q : parser) (a b : tokenPtr), parser.sameWords q (q.partRange a b) := by
    intro q a b
    unfold parser.partRange
    simp only []
    repeat' (first | split_ifs | split)
    all_goals first
      | with_reducible exact parser.sameWords_refl _
      | with_reducible exact parser.setAnimePart_twice_sameWords _ _ _ _ _ _ _
  have h3 : ∀ (q : parser) (a b : tokenPtr), parser.sameWords q (q.partNumber a b) := by
    intro q a b
    unfold parser.partNumber
    simp only []
    split_ifs
    · exact parser.setAnimePart_twice_sameWords _ _ _ _ _ _ _
    · exact parser.setAnimePart_sameWords _ _ _ _
  unfold parser.checkAnimePartKeyword
  simp only []
  split_ifs
  · exact parser.setAnimePart_sameWords _ _ _ _
  · exact parser.sameWords_trans (h2 _ _ _) (h3 _ _ _)
  · exact h2 _ _ _

theorem parser.storeKeyword_sameWords (p : parser) (tkn : tokenPtr) (kd : keyword)
    (cat : elementCategory) (w : String) :
    parser.sameWords p (p.storeKeyword tkn kd cat w) := by
  unfold parser.storeKeyword
  simp only []
  split_ifs
  · exact parser.sameWords_setCategory p _ _ _
  · exact parser.sameWords_elements p _
  · exact parser.sameWords_refl _

theorem newKeywordManager_not_episode (w : String) (kd : keyword)
    (h : newKeywordManager.findWithoutCategory w = (kd, true)) :
    kd.category ∉ episodeCategories := by
  have hall : ∀ e ∈ newKeywordManager.keywords ++ newKeywordManager.fileExtensions,
      e.2.category ∉ episodeCategories := by
    decide
  rcases findWithoutCategory_mem _ _ _ h with hm | hm
  · exact hall (w, kd) (List.mem_append_left _ hm)
  · exact hall (w, kd) (List.mem_append_right _ hm)

/-- One iteration of the keyword pass, on a token that is not handed to the extent handler,
keeps the three categories and the token contents. -/
theorem parser.searchForKeywordsStep_keeps_episode (D : Deps) (p : parser) (i : Nat)
    (c : elementCategory) (hc : c ∈ episodeCategories)
    (hk : p.keywordManager = newKeywordManager) (hne : ¬ p.extentWord D i) :
    parser.sameFor c p (p.searchForKeywordsStep D i)
    ∧ parser.sameWords p (p.searchForKeywordsStep D i) := by
  have hcS : c ≠ elementCategory.AnimeSeason := by
    intro h; subst h; revert hc; decide
  have hcP : c ≠ elementCategory.AnimePart := by
    intro h; subst h; revert hc; decide
  have hcF : c ≠ elementCategory.FileChecksum := by
    intro h; subst h; revert hc; decide
  have hcV : c ≠ elementCategory.VideoResolution := by
    intro h; subst h; revert hc; decide
  unfold parser.extentWord parser.keywordWord at hne
  unfold parser.searchForKeywordsStep
  simp only []
  split_ifs with g1 g2 g3
  · exact ⟨parser.sameFor_refl _ _, parser.sameWords_refl _⟩
  · exact ⟨parser.sameFor_refl _ _, parser.sameWords_refl _⟩
  · generalize hr : p.keywordManager.findWithoutCategory (keywordManager.normalize D
      (goTrim (p.tokens.deref (some i)).Content [' ', '-'])) = r at g3 hne
    obtain ⟨kd, b⟩ := r
    simp only at g3
    subst g3
    have hnot : kd.category ∉ episodeCategories := by
      rw [hk] at hr
      exact newKeywordManager_not_episode _ _ hr
    have hne2 : ¬ ((kd.category = elementCategory.EpisodePrefix ∧ kd.options.valid = true)
        ∨ kd.category = elementCategory.VolumePrefix) := fun h => hne ⟨kd, rfl, h⟩
    have hsafe : insertSafe c kd.category := by
      constructor
      · intro h; rw [← h] at hnot; exact hnot hc
      · intro h; rw [h] at hnot; exact absurd (by decide) hnot
    constructor
    · exact parser.keywordFound_sameFor D p _ _ _ hcS hcP (Or.inr hsafe)
        (fun h => absurd h hne2)
    · show parser.sameWords p (p.keywordFound D (some i) _ kd)
      rcases parser.keywordFound_cases D p (some i)
        (goTrim (p.tokens.deref (some i)).Content [' ', '-']) kd
        with h | h | h | ⟨he, cat, h⟩ | ⟨hn, v, h⟩
      · rw [h]; exact parser.sameWords_refl _
      · rw [h]; exact parser.checkAnimeSeasonKeyword_sameWords D p _
      · rw [h]; exact parser.checkAnimePartKeyword_sameWords D p _
      · exact absurd he hne2
      · rw [h]; exact parser.storeKeyword_sameWords _ _ _ _ _
  · constructor
    · exact parser.keywordNotFound_sameFor hcF hcV _ _ _ _
    · unfold parser.keywordNotFound
      split_ifs <;> exact parser.storeKeyword_sameWords _ _ _ _ _

theorem parser.extentWord_of_sameWords (D : Deps) {p q : parser} (h : parser.sameWords p q)
    (i : Nat) : q.extentWord D i ↔ p.extentWord D i := by
  unfold parser.extentWord
  rw [parser.keywordWord_of_sameWords h, h.2]

/-- The keyword pass keeps the three categories when none of the tokens is handed to the
extent handler. -/
theorem parser.searchForKeywords_keeps_episode (D : Deps) (p : parser) (c : elementCategory)
    (hc : c ∈ episodeCategories) (hk : p.keywordManager = newKeywordManager)
    (hne : ∀ i, ¬ p.extentWord D i) :
    parser.sameFor c p (p.searchForKeywords D) := by
  unfold parser.searchForKeywords
  have key : ∀ (l : List Nat) (q : parser), parser.sameFor c p q → parser.sameWords p q →
      parser.sameFor c p (l.foldl (parser.searchForKeywordsStep D) q) := by
    intro l
    induction l with
    | nil => intro q h1 _; exact h1
    | cons i rest ih =>
      intro q h1 h2
      have hq := parser.searchForKeywordsStep_keeps_episode D q i c hc (by rw [h2.2, hk])
        (fun h => hne i ((parser.extentWord_of_sameWords D h2 i).1 h))
      exact ih _ (parser.sameFor_trans h1 hq.1) (parser.sameWords_trans h2 hq.2)
  exact key _ p (parser.sameFor_refl _ _) (parser.sameWords_refl _)

/-- Whatever the routines taken as parameters do, `parse` on the token `05` with
ParseEpisodeNumber off returns with `05` stored as EpisodeNumber: the pass
`searchForEpisodeNumberAtTheStart` is not gated by the option. -/
theorem parse_episode_at_start (D : Deps) :
    parserEpisodeAtStart.parse D = Except.ok parserEpisodeAtStartResult := by
  have e1 : parserEpisodeAtStart.preProcessing = parserEpisodeAtStart := rfl
  have e2 : parserEpisodeAtStart.searchForShortenedRange D = parserEpisodeAtStart := rfl
  have e3 : parserEpisodeAtStart.searchForKeywords D = parserEpisodeAtStart := rfl
  have e4 : parserEpisodeAtStart.searchForIsolatedNumbers D = parserEpisodeAtStart := rfl
  have e5 : parserEpisodeAtStart.episodeNumberPass D = parserEpisodeAtStart := rfl
  have e6 : parserEpisodeAtStart.searchForEpisodeNumberAtTheStart
      = parserEpisodeAtStartResult := rfl
  have e7 : parserEpisodeAtStartResult.searchForAnimeTitle D = parserEpisodeAtStartResult := rfl
  have e8 : parserEpisodeAtStartResult.releaseGroupPass D = parserEpisodeAtStartResult := rfl
  have e9 : parserEpisodeAtStartResult.episodeTitlePass = parserEpisodeAtStartResult := rfl
  have f1 : parserEpisodeAtStartResult.postProcessing1 = Except.ok parserEpisodeAtStartResult :=
    rfl
  have f2 : parserEpisodeAtStartResult.postProcessing2 = Except.ok parserEpisodeAtStartResult :=
    rfl
  have f3 : parserEpisodeAtStartResult.postProcessing3 D
      = Except.ok parserEpisodeAtStartResult := rfl
  have f4 : parserEpisodeAtStartResult.postProcessing4 = Except.ok parserEpisodeAtStartResult :=
    rfl
  have f5 : parserEpisodeAtStartResult.postProcessing5 = Except.ok parserEpisodeAtStartResult :=
    rfl
  unfold parser.parse parser.parsePasses parser.postProcessing
  simp only [e1, e2, e3, e4, e5, e6, e7, e8, e9, f1, f2, f3, f4, f5, bind, Except.bind]

/-- C2, the claim as stated fails: the token list is the single Unknown numeric token `05`,
the store holds none of the three categories and ParseEpisodeNumber is false, yet `parse`
returns with `05` stored as EpisodeNumber, whatever the routines taken as parameters
are. -/
theorem parse_stores_episode_number_counterexample :
    parserEpisodeAtStart.options.ParseEpisodeNumber = false
    ∧ (∀ c ∈ episodeCategories, parserEpisodeAtStart.elements.get c = [])
    ∧ (parserEpisodeAtStart.parse Deps.sample).toOption.map
        (fun q => q.elements.get elementCategory.EpisodeNumber) = some ["05"]
    ∧ ¬ ∃ D : Deps, ∀ q, parserEpisodeAtStart.parse D = Except.ok q →
        q.elements.get elementCategory.EpisodeNumber = [] := by
  refine ⟨rfl, by decide, ?_, ?_⟩
  · rw [parse_episode_at_start Deps.sample]
    rfl
  · rintro ⟨D, h⟩
    have h2 := h _ (parse_episode_at_start D)
    exact absurd h2 (by decide)

/-- C2, amended: ParseEpisodeNumber=false removes the pass `searchForEpisodeNumber` from
`parse` and nothing else.  For every parser state with the vocabulary of
`newKeywordManager` and each of the categories EpisodeNumber, EpisodeNumberAlt and
VolumeNumber: the guarded call of `searchForEpisodeNumber` leaves the state unchanged;
`preProcessing`, `searchForShortenedRange`, `searchForIsolatedNumbers`,
`searchForAnimeTitle` and `searchForEpisodeTitle` leave the values of the category as they
were; so does `searchForKeywords` when no token's word is found as a valid EpisodePrefix
keyword or as a VolumePrefix keyword (those it hands to the extent handler, whatever the
option); and so do, under that condition on the tokens that reach the keyword pass, all
the passes that `parse` runs before `searchForEpisodeNumberAtTheStart`. -/
theorem passes_without_episode_number (D : Deps) (p : parser) (c : elementCategory)
    (hopt : p.options.ParseEpisodeNumber = false)
    (hk : p.keywordManager = newKeywordManager)
    (hc : c ∈ episodeCategories) :
    p.episodeNumberPass D = p
    ∧ p.preProcessing.elements.get c = p.elements.get c
    ∧ (p.searchForShortenedRange D).elements.get c = p.elements.get c
    ∧ (p.searchForIsolatedNumbers D).elements.get c = p.elements.get c
    ∧ (p.searchForAnimeTitle D).elements.get c = p.elements.get c
    ∧ p.searchForEpisodeTitle.elements.get c = p.elements.get c
    ∧ ((∀ i, ¬ p.extentWord D i) →
        (p.searchForKeywords D).elements.get c = p.elements.get c)
    ∧ ((∀ i, ¬ ((p.preProcessing).searchForShortenedRange D).extentWord D i) →
        (((((p.preProcessing).searchForShortenedRange D).searchForKeywords
            D).searchForIsolatedNumbers D).episodeNumberPass D).elements.get c
          = p.elements.get c) := by
  have hcS : c ≠ elementCategory.AnimeSeason := by
    intro h; subst h; revert hc; decide
  have hcY : c ≠ elementCategory.AnimeYear := by
    intro h; subst h; revert hc; decide
  have hcV : c ≠ elementCategory.VideoResolution := by
    intro h; subst h; revert hc; decide
  have hcT : c ≠ elementCategory.AnimeTitle := by
    intro h; subst h; revert hc; decide
  have hcE : c ≠ elementCategory.EpisodeTitle := by
    intro h; subst h; revert hc; decide
  refine ⟨?_, (parser.preProcessing_sameFor c p).1,
    (parser.searchForShortenedRange_sameFor hcS D p).1,
    (parser.searchForIsolatedNumbers_sameFor hcY hcV D p).1,
    (parser.searchForAnimeTitle_sameFor hcT D p).1,
    (parser.searchForEpisodeTitle_sameFor hcE p).1, ?_, ?_⟩
  · unfold parser.episodeNumberPass
    rw [hopt]
    rfl
  · intro hne
    exact (parser.searchForKeywords_keeps_episode D p c hc hk hne).1
  · intro hne
    have s1 := parser.preProcessing_sameFor c p
    have s2 := parser.sameFor_trans s1 (parser.searchForShortenedRange_sameFor hcS D _)
    have s3 := parser.sameFor_trans s2
      (parser.searchForKeywords_keeps_episode D _ c hc (by rw [s2.2.2, hk]) hne)
    have s4 := parser.sameFor_trans s3 (parser.searchForIsolatedNumbers_sameFor hcY hcV D _)
    have s5 : (((((p.preProcessing).searchForShortenedRange D).searchForKeywords
        D).searchForIsolatedNumbers D).episodeNumberPass D)
        = ((((p.preProcessing).searchForShortenedRange D).searchForKeywords
        D).searchForIsolatedNumbers D) := by
      unfold parser.episodeNumberPass
      rw [s4.2.1, hopt]
      rfl
    rw [s5]
    exact s4.1

theorem passes_without_episode_number_witness :
    parserEpisodeAtStart.episodeNumberPass Deps.sample = parserEpisodeAtStart
    ∧ (((((parserEpisodeAtStart.preProcessing).searchForShortenedRange
          Deps.sample).searchForKeywords Deps.sample).searchForIsolatedNumbers
          Deps.sample).episodeNumberPass Deps.sample).elements.get elementCategory.EpisodeNumber
        = parserEpisodeAtStart.elements.get elementCategory.EpisodeNumber := by
  have h := passes_without_episode_number Deps.sample parserEpisodeAtStart
    elementCategory.EpisodeNumber rfl rfl (by decide)
  have e0 : (parserEpisodeAtStart.preProcessing).searchForShortenedRange Deps.sample
      = parserEpisodeAtStart := rfl
  refine ⟨h.1, h.2.2.2.2.2.2.2 ?_⟩
  rw [e0]
  intro i
  rintro ⟨kd, hf, _⟩
  have e : ∀ n, parserEpisodeAtStart.keywordManager.findWithoutCategory
      (keywordManager.normalize Deps.sample (parserEpisodeAtStart.keywordWord n))
      = (keyword.zero, false) := by
    intro n
    cases n with
    | zero => decide
    | succ m => rfl
  rw [e i] at hf
  simp at hf

/-! ## Theorems: isCRC32 -/

theorem hexDigit?_lt (c : Char) (d : Nat) (h : hexDigit? c = some d) : d < 16 ∧ c.toNat < 0x80 := by
  unfold hexDigit? at h
  split_ifs at h with h1 h2 h3 <;> simp at h <;> omega

/-- The step of `digitsValue`. -/
theorem digitsFold_none (base : Nat) (cs : List Char) :
    cs.foldl (fun acc c =>
      match acc, hexDigit? c with
      | some a, some d => if d < base then some (a * base + d) else none
      | _, _ => none) (none : Option Nat) = none := by
  induction cs with
  | nil => rfl
  | cons c cs ih => simpa [List.foldl] using ih

theorem digitsFold_some (cs : List Char) : ∀ (a v : Nat),
    cs.foldl (fun acc c =>
      match acc, hexDigit? c with
      | some a, some d => if d < 16 then some (a * 16 + d) else none
      | _, _ => none) (some a) = some v →
    (∀ c ∈ cs, (hexDigit? c).isSome = true) ∧ v < (a + 1) * 16 ^ cs.length := by
  induction cs with
  | nil =>
    intro a v h
    simp at h
    subst h
    simp
  | cons c cs ih =>
    intro a v h
    rw [List.foldl_cons] at h
    cases hd : hexDigit? c with
    | none =>
      rw [hd] at h
      simp only at h
      rw [digitsFold_none] at h
      exact absurd h (by simp)
    | some d =>
      rw [hd] at h
      have hlt := (hexDigit?_lt c d hd).1
      simp only [hlt, if_true] at h
      obtain ⟨h1, h2⟩ := ih _ _ h
      refine ⟨?_, ?_⟩
      · intro x hx
        rcases List.mem_cons.1 hx with e | e
        · rw [e, hd]; rfl
        · exact h1 x e
      · rw [List.length_cons, pow_succ]
        calc v < (a * 16 + d + 1) * 16 ^ cs.length := h2
          _ ≤ ((a + 1) * 16) * 16 ^ cs.length := Nat.mul_le_mul_right _ (by omega)
          _ = (a + 1) * (16 ^ cs.length * 16) := by ring

theorem digitsFold_total (cs : List Char) (hall : ∀ c ∈ cs, (hexDigit? c).isSome = true) :
    ∀ a : Nat, ∃ v, cs.foldl (fun acc c =>
      match acc, hexDigit? c with
      | some a, some d => if d < 16 then some (a * 16 + d) else none
      | _, _ => none) (some a) = some v := by
  induction cs with
  | nil => intro a; exact ⟨a, rfl⟩
  | cons c cs ih =>
    intro a
    rw [List.foldl_cons]
    have hc := hall c (List.mem_cons_self _ _)
    cases hd : hexDigit? c with
    | none => rw [hd] at hc; simp at hc
    | some d =>
      have hlt := (hexDigit?_lt c d hd).1
      simp only [hlt, if_true]
      exact ih (fun x hx => hall x (List.mem_cons_of_mem _ hx)) _

/-- `digitsValue 16` succeeds exactly on the non-empty lists of hexadecimal digits. -/
theorem digitsValue_hex_isSome (cs : List Char) :
    (digitsValue 16 cs).isSome = true ↔ cs ≠ [] ∧ ∀ c ∈ cs, (hexDigit? c).isSome = true := by
  unfold digitsValue
  by_cases hn : cs = []
  · simp [hn]
  · rw [if_neg hn]
    constructor
    · intro h
      obtain ⟨v, hv⟩ := Option.isSome_iff_exists.1 h
      exact ⟨hn, (digitsFold_some cs 0 v hv).1⟩
    · intro h
      obtain ⟨v, hv⟩ := digitsFold_total cs h.2 0
      exact Option.isSome_iff_exists.2 ⟨v, hv⟩

theorem digitsValue_hex_lt (cs : List Char) (v : Nat) (h : digitsValue 16 cs = some v) :
    v < 16 ^ cs.length := by
  unfold digitsValue at h
  by_cases hn : cs = []
  · simp [hn] at h
  · rw [if_neg hn] at h
    simpa using (digitsFold_some cs 0 v h).2

theorem goLen_of_hex (cs : List Char) (hall : ∀ c ∈ cs, (hexDigit? c).isSome = true) :
    ((cs.map charBytes).sum) = cs.length := by
  induction cs with
  | nil => rfl
  | cons c cs ih =>
    have hc := hall c (List.mem_cons_self _ _)
    obtain ⟨d, hd⟩ := Option.isSome_iff_exists.1 hc
    have := (hexDigit?_lt c d hd).2
    have e : charBytes c = 1 := by unfold charBytes; rw [if_pos this]
    simp only [List.map_cons, List.sum_cons, List.length_cons, e]
    rw [ih (fun x hx => hall x (List.mem_cons_of_mem _ hx))]; omega

theorem hexDigit?_isSome_iff (c : Char) : (hexDigit? c).isSome = true ↔ c ∈ hexChars := by
  constructor
  · intro h
    have hc : Char.ofNat c.toNat = c := Char.ofNat_toNat c
    unfold hexDigit? at h
    split_ifs at h with h1 h2 h3
    · obtain ⟨a, b⟩ := h1
      rw [← hc]
      generalize c.toNat = n at a b
      interval_cases n <;> decide
    · obtain ⟨a, b⟩ := h2
      rw [← hc]
      generalize c.toNat = n at a b
      interval_cases n <;> decide
    · obtain ⟨a, b⟩ := h3
      rw [← hc]
      generalize c.toNat = n at a b
      interval_cases n <;> decide
    · simp at h
  · intro h
    simp only [hexChars, List.mem_cons, List.mem_singleton, List.not_mem_nil, or_false] at h
    rcases h with h | h | h | h | h | h | h | h | h | h | h | h | h | h | h | h | h | h | h | h | h | h <;>
      subst h <;> decide

/-- What `strconv.ParseInt(s, 16, 64)` accepts among the strings of 8 bytes. -/
theorem goParseInt_hex_isSome (cs : List Char) (h8 : cs.length ≤ 8) :
    (goParseInt (String.mk cs) 16).isSome = true ↔
      (cs ≠ [] ∧ ∀ c ∈ cs, c ∈ hexChars)
      ∨ ∃ ds, (cs = '+' :: ds ∨ cs = '-' :: ds) ∧ ds ≠ [] ∧ ∀ c ∈ ds, c ∈ hexChars := by
  have hp : (16 : Nat) ^ 8 < 2 ^ 63 := by norm_num
  have bound : ∀ (ds : List Char) (v : Nat), ds.length ≤ 8 → digitsValue 16 ds = some v →
      v < 2 ^ 63 := by
    intro ds v hl hv
    have := digitsValue_hex_lt ds v hv
    have h2 : (16 : Nat) ^ ds.length ≤ 16 ^ 8 := Nat.pow_le_pow_right (by norm_num) hl
    omega
  have plus : '+' ∉ hexChars := by decide
  have minus : '-' ∉ hexChars := by decide
  have key : ∀ ds : List Char, (digitsValue 16 ds).isSome = true ↔
      ds ≠ [] ∧ ∀ c ∈ ds, c ∈ hexChars := by
    intro ds
    rw [digitsValue_hex_isSome]
    simp only [hexDigit?_isSome_iff]
  unfold goParseInt
  show (match cs with
    | '+' :: cs =>
      match digitsValue 16 cs with
      | some v => if v < 2 ^ 63 then some (v : Int) else none
      | none => none
    | '-' :: cs =>
      match digitsValue 16 cs with
      | some v => if v ≤ 2 ^ 63 then some (-(v : Int)) else none
      | none => none
    | cs =>
      match digitsValue 16 cs with
      | some v => if v < 2 ^ 63 then some (v : Int) else none
      | none => none).isSome = true ↔ _
  split
  · rename_i ds
    have hl : ds.length ≤ 8 := by simp at h8; omega
    cases hv : digitsValue 16 ds with
    | none =>
      have hk := key ds
      rw [hv] at hk
      simp only [Option.isSome_none, Bool.false_eq_true, false_iff]
      rintro (⟨_, h⟩ | ⟨es, h1 | h1, h2, h3⟩)
      · exact plus (h _ (List.mem_cons_self _ _))
      · simp only [List.cons.injEq, true_and] at h1
        subst h1
        exact absurd (hk.2 ⟨h2, h3⟩) (by simp)
      · simp at h1
    | some v =>
      have hk := (key ds).1 (by rw [hv]; rfl)
      simp only [bound ds v hl hv, if_true, Option.isSome_some, true_iff]
      exact Or.inr ⟨ds, Or.inl rfl, hk.1, hk.2⟩
  · rename_i ds
    have hl : ds.length ≤ 8 := by simp at h8; omega
    cases hv : digitsValue 16 ds with
    | none =>
      have hk := key ds
      rw [hv] at hk
      simp only [Option.isSome_none, Bool.false_eq_true, false_iff]
      rintro (⟨_, h⟩ | ⟨es, h1 | h1, h2, h3⟩)
      · exact minus (h _ (List.mem_cons_self _ _))
      · simp at h1
      · simp only [List.cons.injEq, true_and] at h1
        subst h1
        exact absurd (hk.2 ⟨h2, h3⟩) (by simp)
    | some v =>
      have hk := (key ds).1 (by rw [hv]; rfl)
      have hb := bound ds v hl hv
      simp only [Nat.le_of_lt hb, if_true, Option.isSome_some, true_iff]
      exact Or.inr ⟨ds, Or.inr rfl, hk.1, hk.2⟩
  · rename_i hplus hminus
    cases hv : digitsValue 16 cs with
    | none =>
      have hk := key cs
      rw [hv] at hk
      simp only [Option.isSome_none, Bool.false_eq_true, false_iff]
      rintro (h | ⟨es, h1 | h1, _, _⟩)
      · exact absurd (hk.2 h) (by simp)
      · exact hplus es h1
      · exact hminus es h1
    | some v =>
      have hk := (key cs).1 (by rw [hv]; rfl)
      simp only [bound cs v h8 hv, if_true, Option.isSome_some, true_iff]
      exact Or.inl hk

theorem length_le_goLen (cs : List Char) : cs.length ≤ (cs.map charBytes).sum := by
  induction cs with
  | nil => simp
  | cons c cs ih =>
    have : 1 ≤ charBytes c := by unfold charBytes; split_ifs <;> omega
    simp only [List.map_cons, List.sum_cons, List.length_cons]; omega

theorem goLen_of_hexChars (cs : List Char) (hall : ∀ c ∈ cs, c ∈ hexChars) :
    (cs.map charBytes).sum = cs.length :=
  goLen_of_hex cs (fun c hc => (hexDigit?_isSome_iff c).2 (hall c hc))

/-- C14, the code at the failing input: `isCRC32` accepts `+1234567`; in general it accepts
exactly the strings of 8 hexadecimal digits and the strings made of a sign `+` or `-` followed
by 7 hexadecimal digits. -/
theorem isCRC32_accepts_sign :
    isCRC32 "+1234567" = true ∧ ∀ s : String, isCRC32 s = true ↔
      (s.data.length = 8 ∧ ∀ c ∈ s.data, c ∈ hexChars)
      ∨ ∃ ds, (s.data = '+' :: ds ∨ s.data = '-' :: ds) ∧ ds.length = 7
          ∧ ∀ c ∈ ds, c ∈ hexChars := by
  refine ⟨by decide, fun s => ?_⟩
  have hs : s = String.mk s.data := rfl
  have sign : ∀ ds : List Char, (s.data = '+' :: ds ∨ s.data = '-' :: ds) →
      (s.data.map charBytes).sum = 1 + (ds.map charBytes).sum ∧ s.data.length = ds.length + 1 := by
    rintro ds (h | h) <;> rw [h] <;> exact ⟨rfl, rfl⟩
  unfold isCRC32 isHexadecimalString goLen
  rw [Bool.and_eq_true, decide_eq_true_eq]
  constructor
  · rintro ⟨h8, hp⟩
    have hle : s.data.length ≤ 8 := h8 ▸ length_le_goLen s.data
    rw [hs] at hp
    rcases (goParseInt_hex_isSome s.data hle).1 hp with ⟨_, hall⟩ | ⟨ds, hsg, _, hall⟩
    · exact Or.inl ⟨by rw [← goLen_of_hexChars s.data hall]; exact h8, hall⟩
    · refine Or.inr ⟨ds, hsg, ?_, hall⟩
      have := (sign ds hsg).1
      rw [goLen_of_hexChars ds hall] at this
      omega
  · rintro (⟨h8, hall⟩ | ⟨ds, hsg, h7, hall⟩)
    · refine ⟨by rw [goLen_of_hexChars s.data hall]; exact h8, ?_⟩
      rw [hs]
      refine (goParseInt_hex_isSome s.data (le_of_eq h8)).2 (Or.inl ⟨?_, hall⟩)
      intro e
      rw [e] at h8
      simp at h8
    · have hg := sign ds hsg
      refine ⟨by rw [hg.1, goLen_of_hexChars ds hall]; omega, ?_⟩
      rw [hs]
      refine (goParseInt_hex_isSome s.data (by omega)).2 (Or.inr ⟨ds, hsg, ?_, hall⟩)
      intro e
      rw [e] at h7
      simp at h7

/-! ## Theorems: isResolution -/

/-- A greedy bounded repetition succeeds when some admissible number of characters of the
class can be taken and the continuation succeeds on the rest. -/
theorem Regex.repRun_isSome (p : Char → Bool) (k : Nat → List Char → Option Caps) :
    ∀ (inp : List Char) (min : Nat) (max : Option Nat) (pos : Nat),
      (Regex.repRun p k min max pos inp).isSome = true ↔
        ∃ n, min ≤ n ∧ (∀ m, max = some m → n ≤ m) ∧ n ≤ inp.length
          ∧ (∀ c ∈ inp.take n, p c = true) ∧ (k (pos + n) (inp.drop n)).isSome = true := by
  intro inp
  induction inp with
  | nil =>
    intro min max pos
    unfold Regex.repRun
    constructor
    · intro h
      by_cases h0 : min = 0
      · rw [if_pos h0] at h
        exact ⟨0, by omega, fun m _ => Nat.zero_le m, le_refl _, by simp, by simpa using h⟩
      · rw [if_neg h0] at h
        simp at h
    · rintro ⟨n, h1, _, h3, _, h5⟩
      have hn : n = 0 := by simpa using h3
      subst hn
      rw [if_pos (by omega)]
      simpa using h5
  | cons c cs ih =>
    intro min max pos
    unfold Regex.repRun
    by_cases hc : p c = true ∧ max ≠ some 0
    · simp only [hc, ne_eq, not_false_eq_true, and_self, if_true]
      cases hm : Regex.repRun p k (min - 1) (max.map (fun m => m - 1)) (pos + 1) cs with
      | some r =>
        simp only [Option.isSome_some, true_iff]
        obtain ⟨n, h1, h2, h3, h4, h5⟩ := (ih (min - 1) _ (pos + 1)).1 (by rw [hm]; rfl)
        refine ⟨n + 1, by omega, ?_, by simp; omega, ?_, ?_⟩
        · intro m e
          subst e
          have := h2 (m - 1) rfl
          have : m ≠ 0 := fun e => hc.2 (by rw [e])
          omega
        · intro x hx
          rw [List.take_succ_cons] at hx
          rcases List.mem_cons.1 hx with e | e
          · rw [e]; exact hc.1
          · exact h4 x e
        · rw [List.drop_succ_cons, ← Nat.add_assoc, Nat.add_right_comm]
          exact h5
      | none =>
        have hnone := (ih (min - 1) (max.map (fun m => m - 1)) (pos + 1))
        rw [hm] at hnone
        simp only [Option.isSome_none, Bool.false_eq_true, false_iff, not_exists] at hnone
        constructor
        · intro h
          by_cases h0 : min = 0
          · rw [if_pos h0] at h
            exact ⟨0, by omega, fun m _ => Nat.zero_le m, Nat.zero_le _, by simp, by simpa using h⟩
          · rw [if_neg h0] at h
            simp at h
        · rintro ⟨n, h1, h2, h3, h4, h5⟩
          cases n with
          | zero =>
            rw [if_pos (by omega)]
            simpa using h5
          | succ n =>
            exfalso
            refine hnone n ⟨by omega, ?_, by simpa using h3, ?_, ?_⟩
            · intro m e
              cases max with
              | none => simp at e
              | some M =>
                simp only [Option.map_some', Option.some.injEq] at e
                have := h2 M rfl
                omega
            · intro x hx
              exact h4 x (by rw [List.take_succ_cons]; exact List.mem_cons_of_mem _ hx)
            · rw [List.drop_succ_cons] at h5
              have e : pos + 1 + n = pos + (n + 1) := by omega
              rw [e]; exact h5
    · simp only [hc, if_false]
      constructor
      · intro h
        by_cases h0 : min = 0
        · rw [if_pos h0] at h
          exact ⟨0, by omega, fun m _ => Nat.zero_le m, Nat.zero_le _, by simp, by simpa using h⟩
        · rw [if_neg h0] at h
          simp at h
      · rintro ⟨n, h1, h2, h3, h4, h5⟩
        cases n with
        | zero =>
          rw [if_pos (by omega)]
          simpa using h5
        | succ n =>
          exfalso
          apply hc
          refine ⟨h4 c (by rw [List.take_succ_cons]; exact List.mem_cons_self _ _), ?_⟩
          intro e
          have := h2 0 e
          omega
/-- A bounded repetition between 3 and 4 times, in terms of `isDigits`. -/
theorem Regex.repRun_digits_3_4 (k : Nat → List Char → Option Caps) (pos : Nat)
    (inp : List Char) :
    (Regex.repRun reDigit k 3 (some 4) pos inp).isSome = true ↔
      (isDigits 3 (inp.take 3) = true ∧ (k (pos + 3) (inp.drop 3)).isSome = true)
      ∨ (isDigits 4 (inp.take 4) = true ∧ (k (pos + 4) (inp.drop 4)).isSome = true) := by
  rw [Regex.repRun_isSome]
  have dig : ∀ n, isDigits n (inp.take n) = true ↔
      n ≤ inp.length ∧ ∀ c ∈ inp.take n, reDigit c = true := by
    intro n
    unfold isDigits
    rw [Bool.and_eq_true, decide_eq_true_eq, List.all_eq_true, List.length_take]
    constructor
    · rintro ⟨a, b⟩; exact ⟨by omega, b⟩
    · rintro ⟨a, b⟩; exact ⟨by omega, b⟩
  constructor
  · rintro ⟨n, h1, h2, h3, h4, h5⟩
    have h2 := h2 4 rfl
    have hn : n = 3 ∨ n = 4 := by omega
    rcases hn with e | e <;> subst e
    · exact Or.inl ⟨(dig 3).2 ⟨h3, h4⟩, h5⟩
    · exact Or.inr ⟨(dig 4).2 ⟨h3, h4⟩, h5⟩
  · rintro (⟨a, b⟩ | ⟨a, b⟩)
    · obtain ⟨h3, h4⟩ := (dig 3).1 a
      exact ⟨3, le_refl _, fun m e => by simp at e; omega, h3, h4, b⟩
    · obtain ⟨h3, h4⟩ := (dig 4).1 a
      exact ⟨4, by omega, fun m e => by simp at e; omega, h3, h4, b⟩

theorem resolutionTail_cons (c : Char) (cs : List Char) :
    resolutionTail (c :: cs) =
      if cs = [] then decide (c ∈ ['p', 'P'])
      else decide (c ∈ ['x', 'X', Char.ofNat 0xD7]) && (isDigits 3 cs || isDigits 4 cs) := by
  cases cs with
  | nil => rfl
  | cons d ds => rfl

theorem isDigits_take_drop (n : Nat) (cs : List Char) :
    (isDigits n (cs.take n) = true ∧ cs.drop n = []) ↔ isDigits n cs = true := by
  unfold isDigits
  simp only [Bool.and_eq_true, decide_eq_true_eq, List.length_take, List.drop_eq_nil_iff]
  constructor
  · rintro ⟨⟨a, b⟩, c⟩
    have e : cs.length = n := by omega
    rw [List.take_of_length_le (le_of_eq e)] at b
    exact ⟨e, b⟩
  · rintro ⟨a, b⟩
    rw [List.take_of_length_le (le_of_eq a)]
    exact ⟨⟨by omega, b⟩, le_of_eq a⟩

/-- The part of the resolution pattern after the first digits: `([pP]|([xX×]\d{3,4}))$`. -/
theorem resolutionTail_run (pos : Nat) (inp : List Char) (caps : Caps)
    (k : Nat → List Char → Caps → Option Caps) (hk : ∀ e i c, (k e i c).isSome = true) :
    (Regex.run (.seq (.group 1 (.alt (.cls (reOneOf ['p', 'P']))
        (.group 2 (.seq (.cls (reOneOf ['x', 'X', Char.ofNat 0xD7]))
          (.rep reDigit 3 (some 4)))))) .eot) pos inp caps k).isSome = true
      ↔ resolutionTail inp = true := by
  cases inp with
  | nil => simp [Regex.run, resolutionTail]
  | cons c cs =>
    simp only [Regex.run]
    rw [resolutionTail_cons]
    have tail : ∀ (n : Nat) (p1 : Nat) (cp : Nat → Caps),
        (isDigits n (cs.take n) = true
          ∧ (if cs.drop n = [] then k p1 (cs.drop n) (cp p1) else none).isSome = true)
        ↔ isDigits n cs = true := by
      intro n p1 cp
      constructor
      · rintro ⟨a, b⟩
        by_cases hd : cs.drop n = []
        · exact (isDigits_take_drop n cs).1 ⟨a, hd⟩
        · rw [if_neg hd] at b
          exact absurd b (by simp)
      · intro h
        obtain ⟨a, hd⟩ := (isDigits_take_drop n cs).2 h
        exact ⟨a, by rw [if_pos hd]; exact hk _ _ _⟩
    by_cases hp : reOneOf ['p', 'P'] c = true
    · have hx : reOneOf ['x', 'X', Char.ofNat 0xD7] c = false := by
        unfold reOneOf at hp ⊢
        rw [decide_eq_true_eq] at hp
        simp only [List.mem_cons, List.mem_singleton, List.not_mem_nil, or_false] at hp
        rcases hp with e | e <;> subst e <;> decide
      have hp2 : c ∈ ['p', 'P'] := by simpa [reOneOf] using hp
      have hx2 : c ∉ ['x', 'X', Char.ofNat 0xD7] := by
        intro h; simp [reOneOf, h] at hx
      by_cases hcs : cs = []
      · obtain ⟨r, hr⟩ := Option.isSome_iff_exists.1 (hk (pos + 1) cs ((1, pos, pos + 1) :: caps))
        simp only [hp, hcs, if_true, hp2, decide_True]
        rw [hcs] at hr
        rw [hr]
        simp
      · simp only [hp, hcs, if_true, if_false, hx, Bool.false_eq_true, hx2, decide_False,
          Bool.false_and, Option.isSome_none]
    · have hp2 : c ∉ ['p', 'P'] := by
        intro h; exact hp (by simp [reOneOf, h])
      simp only [hp, Bool.false_eq_true, if_false]
      by_cases hx : reOneOf ['x', 'X', Char.ofNat 0xD7] c = true
      · have hx2 : c ∈ ['x', 'X', Char.ofNat 0xD7] := by simpa [reOneOf] using hx
        simp only [hx, if_true, hx2, decide_True, Bool.true_and, hp2, decide_False]
        rw [Regex.repRun_digits_3_4]
        rw [tail 3 (pos + 1 + 3) (fun p1 => (1, pos, p1) :: (2, pos, p1) :: caps),
          tail 4 (pos + 1 + 4) (fun p1 => (1, pos, p1) :: (2, pos, p1) :: caps)]
        by_cases hcs : cs = []
        · subst hcs; simp [isDigits]
        · simp [hcs]
      · have hx2 : c ∉ ['x', 'X', Char.ofNat 0xD7] := by
          intro h; exact hx (by simp [reOneOf, h])
        simp only [hx, Bool.false_eq_true, if_false, hx2, decide_False, Bool.false_and, hp2,
          Option.isSome_none, ite_self]
/-- The leftmost search succeeds when the pattern matches at the start of some suffix. -/
theorem Regex.findFrom_isSome (r : Regex) : ∀ (inp : List Char) (pos : Nat),
    (r.findFrom pos inp).isSome = true ↔
      ∃ pre suf, inp = pre ++ suf
        ∧ (r.run (pos + pre.length) suf []
            (fun e _ caps => some ((0, pos + pre.length, e) :: caps))).isSome = true := by
  intro inp
  induction inp with
  | nil =>
    intro pos
    unfold Regex.findFrom
    constructor
    · intro h
      exact ⟨[], [], rfl, h⟩
    · rintro ⟨pre, suf, e, h⟩
      obtain ⟨e1, e2⟩ := List.append_eq_nil.1 e.symm
      subst e1; subst e2
      exact h
  | cons c cs ih =>
    intro pos
    unfold Regex.findFrom
    cases hr : r.run pos (c :: cs) [] (fun e _ caps => some ((0, pos, e) :: caps)) with
    | some caps =>
      simp only [Option.isSome_some, true_iff]
      exact ⟨[], c :: cs, rfl, by simpa using (by rw [hr]; rfl)⟩
    | none =>
      simp only
      rw [ih (pos + 1)]
      constructor
      · rintro ⟨pre, suf, e, h⟩
        refine ⟨c :: pre, suf, by rw [e]; rfl, ?_⟩
        have e2 : pos + (c :: pre).length = pos + 1 + pre.length := by simp; omega
        rw [e2]; exact h
      · rintro ⟨pre, suf, e, h⟩
        cases pre with
        | nil =>
          simp only [List.nil_append] at e
          subst e
          simp only [List.length_nil, Nat.add_zero] at h
          rw [hr] at h
          simp at h
        | cons d pre =>
          simp only [List.cons_append, List.cons.injEq] at e
          refine ⟨pre, suf, e.2, ?_⟩
          have e2 : pos + (d :: pre).length = pos + 1 + pre.length := by simp; omega
          rw [e2] at h; exact h

/-- The resolution pattern matches at the start of a text exactly when the whole text has
the form of a resolution. -/
theorem resolutionRe_run (pos : Nat) (inp : List Char)
    (k : Nat → List Char → Caps → Option Caps) (hk : ∀ e i c, (k e i c).isSome = true) :
    (resolutionRe.run pos inp [] k).isSome = true ↔ isResolutionForm inp = true := by
  have e : resolutionRe.run pos inp [] k
      = Regex.repRun reDigit (fun pos1 inp1 =>
          Regex.run (.seq (.group 1 (.alt (.cls (reOneOf ['p', 'P']))
            (.group 2 (.seq (.cls (reOneOf ['x', 'X', Char.ofNat 0xD7]))
              (.rep reDigit 3 (some 4)))))) .eot) pos1 inp1 [] k) 3 (some 4) pos inp := rfl
  rw [e, Regex.repRun_digits_3_4, resolutionTail_run _ _ _ k hk, resolutionTail_run _ _ _ k hk]
  unfold isResolutionForm
  simp only [Bool.or_eq_true, Bool.and_eq_true]

/-- C15, the claim as stated fails: `isResolution` accepts `Foo720p` and `12345p`, which
are not of the form of a resolution. -/
theorem isResolution_prefix_counterexample :
    (isResolution "Foo720p" = true ∧ isResolutionForm "Foo720p".data = false)
    ∧ (isResolution "12345p" = true ∧ isResolutionForm "12345p".data = false) := by
  decide

/-- C15, amended: `isResolution(s)` is true if and only if some suffix of `s` has the form of a
resolution (3 or 4 digits and `p` or `P`, or 3 or 4 digits, one of `x`, `X`, `×`, and 3 or
4 digits): the pattern is anchored at the end of the text only. -/
theorem isResolution_iff_suffix (s : String) :
    isResolution s = true ↔
      ∃ pre suf, s.data = pre ++ suf ∧ isResolutionForm suf = true := by
  unfold isResolution Regex.isMatch
  rw [Regex.findFrom_isSome]
  have hrun : ∀ (pos : Nat) (suf : List Char),
      (resolutionRe.run pos suf [] (fun e _ caps => some ((0, pos, e) :: caps))).isSome = true
        ↔ isResolutionForm suf = true :=
    fun pos suf => resolutionRe_run pos suf _ (fun _ _ _ => rfl)
  constructor
  · rintro ⟨pre, suf, e, h⟩
    exact ⟨pre, suf, e, (hrun _ suf).1 h⟩
  · rintro ⟨pre, suf, e, h⟩
    exact ⟨pre, suf, e, (hrun _ suf).2 h⟩

/-! ## Theorems: the vocabulary and normalize -/

/-- C11, the code at the failing input: `第` (U+7B2C) is not a key of the vocabulary: both
lookups report not found. The key that `newKeywordManager` adds next to `E` with the invalid
options is written `"\x7B2C"`, the three characters `\x7b`, `2`, `C`, and that is the key both
lookups find. -/
theorem episode_prefix_counter_not_a_key :
    newKeywordManager.findWithoutCategory "第" = (keyword.zero, false)
    ∧ newKeywordManager.find "第" elementCategory.EpisodePrefix = (keyword.zero, false)
    ∧ String.mk [Char.ofNat 0x7B2C] = "第"
    ∧ newKeywordManager.findWithoutCategory "\x7b2C"
        = (⟨elementCategory.EpisodePrefix, keywordOptionsInvalid⟩, true)
    ∧ newKeywordManager.find "\x7b2C" elementCategory.EpisodePrefix
        = (⟨elementCategory.EpisodePrefix, keywordOptionsInvalid⟩, true) := by
  decide

/-- C12, the claim as stated fails: on `ó` the upper case of the form NFKD, which
`normalize` returns, is `O` followed by the combining acute accent, and the upper case of
the form NFKC is `Ó`. -/
theorem normalize_nfkc_counterexample :
    keywordManager.normalize Deps.sample "ó"
      ≠ Deps.sample.toUpper (Deps.sample.normForm norm.NFKC "ó") := by
  decide

/-- On the sample library the upper case of the form NFKD and of the form NFKC of a text
are equal exactly when the text has neither `ó` nor `Ó`. -/
theorem sample_nfkd_eq_nfkc_iff (cs : List Char) :
    (cs.flatMap sampleDecompose).map sampleUpperChar
        = (cs.flatMap (fun c =>
            if c.toNat = 0xF3 ∨ c.toNat = 0xD3 then [c] else sampleDecompose c)).map
            sampleUpperChar
      ↔ ∀ c ∈ cs, c.toNat ≠ 0xF3 ∧ c.toNat ≠ 0xD3 := by
  induction cs with
  | nil => simp
  | cons c cs ih =>
    simp only [List.flatMap_cons, List.map_append, List.mem_cons, forall_eq_or_imp]
    by_cases hc : c.toNat = 0xF3 ∨ c.toNat = 0xD3
    · have hcc : Char.ofNat c.toNat = c := Char.ofNat_toNat c
      have hne : ¬ (c.toNat ≠ 0xF3 ∧ c.toNat ≠ 0xD3) := by omega
      rw [if_pos hc]
      simp only [hne, false_and, iff_false]
      have e1 : ∀ n, n = 0xF3 ∨ n = 0xD3 →
          List.map sampleUpperChar (sampleDecompose (Char.ofNat n)) = ['O', Char.ofNat 0x301]
          ∧ List.map sampleUpperChar [Char.ofNat n] = [Char.ofNat 0xD3] := by
        rintro n (h | h) <;> subst h <;> decide
      obtain ⟨a, b⟩ := e1 c.toNat hc
      rw [hcc] at a b
      rw [a, b]
      intro e
      simp only [List.cons_append, List.cons.injEq] at e
      exact absurd e.1 (by decide)
    · have hne : c.toNat ≠ 0xF3 ∧ c.toNat ≠ 0xD3 := by omega
      rw [if_neg hc]
      simp only [hne, ne_eq, not_false_eq_true, and_self, true_and]
      rw [List.append_cancel_left_eq]
      exact ih

/-- C12, amended: `normalize(s)` is the upper case of the form `norm.Form(3)` of `s`, which
is NFKD, the compatibility decomposition, and not NFKC.  On the sample library the result is
the upper case of the form NFKC exactly for the texts that have neither `ó` nor `Ó`. -/
theorem normalize_eq_upper_nfkd (D : Deps) (s : String) :
    keywordManager.normalize D s = D.toUpper (D.normForm norm.NFKD s)
      ∧ norm.NFKD ≠ norm.NFKC
      ∧ (keywordManager.normalize Deps.sample s
            = Deps.sample.toUpper (Deps.sample.normForm norm.NFKC s)
          ↔ ∀ c ∈ s.data, c.toNat ≠ 0xF3 ∧ c.toNat ≠ 0xD3) := by
  refine ⟨rfl, by decide, ?_⟩
  rw [← sample_nfkd_eq_nfkc_iff]
  constructor
  · intro h
    exact congrArg String.data h
  · intro h
    exact congrArg String.mk h

theorem GoMap.get?_isSome_of_mem {β : Type} (m : GoMap β) (k : String)
    (h : k ∈ m.map (fun e => e.1)) : (m.get? k).isSome = true := by
  induction m with
  | nil => simp at h
  | cons e rest ih =>
    obtain ⟨k1, v⟩ := e
    unfold GoMap.get?
    by_cases hk : k1 = k
    · rw [if_pos hk]; rfl
    · rw [if_neg hk]
      simp only [List.map_cons, List.mem_cons] at h
      rcases h with h | h
      · exact absurd h.symm hk
      · exact ih h

/-- Every key of the two tables is found by `findWithoutCategory`. -/
theorem findWithoutCategory_of_key (kwm : keywordManager) (k : String) (h : k ∈ kwm.keys) :
    (kwm.findWithoutCategory k).2 = true := by
  unfold keywordManager.findWithoutCategory
  unfold keywordManager.keys at h
  cases h1 : kwm.keywords.get? k with
  | some v => rfl
  | none =>
    rcases List.mem_append.1 h with h | h
    · have := GoMap.get?_isSome_of_mem _ _ h
      rw [h1] at this
      simp at this
    · obtain ⟨v, hv⟩ := Option.isSome_iff_exists.1 (GoMap.get?_isSome_of_mem _ _ h)
      simp only [hv]

/-- Every key of the vocabulary other than `EPISóDIO` is made of characters that the
decomposition and the upper case leave as they are. -/
theorem newKeywordManager_keys_stable :
    ∀ k ∈ newKeywordManager.keys, k ≠ episodioKey → k.data.all normalizeStable = true := by
  decide

theorem episodioKey_is_key :
    newKeywordManager.keywords.get? episodioKey
      = some ⟨elementCategory.EpisodePrefix, keywordOptionsDefault⟩ := by
  decide
theorem sampleUpperChar_ne_small_o (c : Char) : sampleUpperChar c ≠ Char.ofNat 0xF3 := by
  have hc : Char.ofNat c.toNat = c := Char.ofNat_toNat c
  unfold sampleUpperChar
  split_ifs with h
  · rw [← hc]
    generalize c.toNat = n at h
    rcases h with ⟨a, b⟩ | ⟨a, b, _⟩
    · interval_cases n <;> decide
    · interval_cases n <;> decide
  · intro e
    apply h
    rw [e]
    decide

theorem sample_toUpper_no_small_o (s : String) :
    Char.ofNat 0xF3 ∉ (Deps.sample.toUpper s).data := by
  intro h
  obtain ⟨c, _, hc⟩ := List.mem_map.1 h
  exact sampleUpperChar_ne_small_o c hc

theorem sample_stable_char (c : Char) (h : normalizeStable c = true) :
    sampleDecompose c = [c] ∧ sampleUpperChar c = c := by
  unfold normalizeStable at h
  simp only [Bool.or_eq_true, decide_eq_true_eq] at h
  constructor
  · unfold sampleDecompose
    rw [if_neg (by omega), if_neg (by omega), if_neg (by omega), if_neg (by omega),
      if_neg (by omega), if_neg (by omega)]
  · unfold sampleUpperChar
    rw [if_neg (by omega)]

theorem sample_normalize_stable (s : String) (h : s.data.all normalizeStable = true) :
    keywordManager.normalize Deps.sample s = s := by
  have key : ∀ cs : List Char, cs.all normalizeStable = true →
      (cs.flatMap sampleDecompose).map sampleUpperChar = cs := by
    intro cs
    induction cs with
    | nil => intro _; rfl
    | cons c cs ih =>
      intro hc
      simp only [List.all_cons, Bool.and_eq_true] at hc
      obtain ⟨h1, h2⟩ := sample_stable_char c hc.1
      simp only [List.flatMap_cons, h1, List.singleton_append, List.map_cons, h2, ih hc.2]
  show String.mk ((s.data.flatMap sampleDecompose).map sampleUpperChar) = s
  rw [key s.data h]

/-- C13, the code at the failing input: for a text library that leaves the stable characters as
they are and whose upper case never returns the small letter `ó`, every key of the two tables
other than `EPISóDIO` is a fixed point of `normalize` and is found after normalization, while no
text is normalized to the key `EPISóDIO`: that key is not a fixed point and its entry is never
found. -/
theorem keys_normalized_except_episodio (D : Deps)
    (hfix : ∀ s : String, s.data.all normalizeStable = true → keywordManager.normalize D s = s)
    (hupper : ∀ s : String, Char.ofNat 0xF3 ∉ (D.toUpper s).data) :
    (∀ k ∈ newKeywordManager.keys, k ≠ episodioKey →
        keywordManager.normalize D k = k
        ∧ (newKeywordManager.findWithoutCategory (keywordManager.normalize D k)).2 = true)
    ∧ episodioKey ∈ newKeywordManager.keys
    ∧ ∀ t : String, keywordManager.normalize D t ≠ episodioKey := by
  refine ⟨?_, by decide, ?_⟩
  · intro k hk hne
    have e := hfix k (newKeywordManager_keys_stable k hk hne)
    rw [e]
    exact ⟨rfl, findWithoutCategory_of_key _ k hk⟩
  · intro t e
    have h := hupper (D.normForm 3 t)
    apply h
    show Char.ofNat 0xF3 ∈ (keywordManager.normalize D t).data
    rw [e]
    decide

theorem keys_normalized_except_episodio_witness :
    (∀ s : String, s.data.all normalizeStable = true →
        keywordManager.normalize Deps.sample s = s)
    ∧ (∀ s : String, Char.ofNat 0xF3 ∉ (Deps.sample.toUpper s).data)
    ∧ (∀ k ∈ newKeywordManager.keys, k ≠ episodioKey →
        keywordManager.normalize Deps.sample k = k
        ∧ (newKeywordManager.findWithoutCategory
            (keywordManager.normalize Deps.sample k)).2 = true)
    ∧ episodioKey ∈ newKeywordManager.keys
    ∧ ∀ t : String, keywordManager.normalize Deps.sample t ≠ episodioKey :=
  ⟨sample_normalize_stable, sample_toUpper_no_small_o,
    keys_normalized_except_episodio Deps.sample sample_normalize_stable
      sample_toUpper_no_small_o⟩

/-- The token `EPISÓDIO` is normalized to `EPISO` followed by the combining acute accent
and `DIO`, which is not a key. -/
theorem episodio_token_not_found :
    keywordManager.normalize Deps.sample "EPISÓDIO"
      = String.mk ['E', 'P', 'I', 'S', 'O', Char.ofNat 0x301, 'D', 'I', 'O']
    ∧ newKeywordManager.findWithoutCategory (keywordManager.normalize Deps.sample "EPISÓDIO")
      = (keyword.zero, false) := by
  decide

/-! ## Theorems: ranges after a season or part keyword -/

theorem splitChars_ne_nil (sep : Char) (cs : List Char) : splitChars sep cs ≠ [] := by
  cases cs with
  | nil => simp [splitChars]
  | cons c cs =>
    unfold splitChars
    split
    · simp
    · split_ifs <;> simp

theorem splitChars_not_mem (sep : Char) (cs : List Char) (h : sep ∉ cs) :
    splitChars sep cs = [cs] := by
  induction cs with
  | nil => rfl
  | cons c cs ih =>
    unfold splitChars
    rw [ih (fun hm => h (List.mem_cons_of_mem _ hm))]
    have hne : c ≠ sep := fun e => h (by rw [e]; exact List.mem_cons_self _ _)
    simp only [hne, if_false]

theorem splitChars_append (sep : Char) (a rest : List Char) (h : sep ∉ a) :
    splitChars sep (a ++ sep :: rest) = a :: splitChars sep rest := by
  induction a with
  | nil =>
    show splitChars sep (sep :: rest) = _
    unfold splitChars
    cases hr : splitChars sep rest with
    | nil => exact absurd hr (splitChars_ne_nil _ _)
    | cons q qs =>
      cases rest with
      | nil => simp [splitChars] at hr ⊢; simp [hr]
      | cons r rs => simp only [if_true]; rw [← hr]; rfl
  | cons c a ih =>
    show splitChars sep (c :: (a ++ sep :: rest)) = _
    conv_lhs => unfold splitChars
    rw [ih (fun hm => h (List.mem_cons_of_mem _ hm))]
    have hne : c ≠ sep := fun e => h (by rw [e]; exact List.mem_cons_self _ _)
    simp only [hne, if_false]

theorem rangeText_data (a : String) (c : Char) (b : String) :
    (rangeText a c b).data = a.data ++ c :: b.data := by
  unfold rangeText
  simp [String.data_append, String.singleton]

theorem goSplit_rangeText_sep (a b : String) (c : Char) (ha : c ∉ a.data) (hb : c ∉ b.data) :
    goSplit (rangeText a c b) c = [a, b] := by
  unfold goSplit
  rw [rangeText_data, splitChars_append c _ _ ha, splitChars_not_mem c _ hb]
  rfl

theorem goSplit_rangeText_other (a b : String) (c d : Char) (hd : d ≠ c) (ha : d ∉ a.data)
    (hb : d ∉ b.data) :
    goSplit (rangeText a c b) d = [rangeText a c b] := by
  unfold goSplit
  rw [splitChars_not_mem d]
  · rfl
  · rw [rangeText_data]
    intro hm
    rcases List.mem_append.1 hm with h | h
    · exact ha h
    · rcases List.mem_cons.1 h with h | h
      · exact hd h
      · exact hb h

theorem isNumeric_digits (a : String) (h : isNumeric a = true) (c : Char)
    (hc : reDigit c = false) : c ∉ a.data := by
  unfold isNumeric at h
  rw [Bool.and_eq_true, List.all_eq_true] at h
  intro hm
  rw [h.2 c hm] at hc
  exact absurd hc (by simp)

theorem isNumeric_rangeText (a b : String) (c : Char) (hc : reDigit c = false) :
    isNumeric (rangeText a c b) = false := by
  unfold isNumeric
  rw [rangeText_data]
  simp [hc]
theorem reDigit_separator (c : Char) (hc : c = '-' ∨ c = '~' ∨ c = '&') :
    reDigit c = false := by
  rcases hc with e | e | e <;> subst e <;> decide

/-- The range block of the season handler on a next token `a c b`. -/
theorem parser.seasonRange_rangeText (p : parser) (tkn nextToken : tokenPtr) (a b : String)
    (c : Char) (hcontent : (p.tokens.deref nextToken).Content = rangeText a c b)
    (ha : isNumeric a = true) (hb : isNumeric b = true) (hw : goLen a = goLen b)
    (hc : c = '-' ∨ c = '~' ∨ c = '&') :
    p.seasonRange tkn nextToken true
      = if c = '&' then p
        else (p.setAnimeSeason tkn nextToken a).setAnimeSeason tkn nextToken b := by
  have na : ∀ d : Char, reDigit d = false → d ∉ a.data := isNumeric_digits a ha
  have nb : ∀ d : Char, reDigit d = false → d ∉ b.data := isNumeric_digits b hb
  unfold parser.seasonRange
  simp only [if_true, hcontent]
  rcases hc with e | e | e <;> subst e
  · rw [goSplit_rangeText_sep a b '-' (na _ (by decide)) (nb _ (by decide))]
    simp [hw, ha, hb]
  · rw [goSplit_rangeText_other a b '~' '-' (by decide) (na _ (by decide)) (nb _ (by decide)),
      goSplit_rangeText_sep a b '~' (na _ (by decide)) (nb _ (by decide))]
    simp [hw, ha, hb]
  · rw [goSplit_rangeText_other a b '&' '-' (by decide) (na _ (by decide)) (nb _ (by decide)),
      goSplit_rangeText_other a b '&' '~' (by decide) (na _ (by decide)) (nb _ (by decide))]
    simp

theorem parser.seasonShortenedRange_none (p : parser) (tkn nextToken : tokenPtr)
    (h : seasonRe.findStringSubmatch 2 (p.tokens.deref tkn).Content = none) :
    p.seasonShortenedRange tkn nextToken = p := by
  unfold parser.seasonShortenedRange
  simp only [h]
  split_ifs <;> rfl

theorem parser.content_of_sameWords {p q : parser} (h : parser.sameWords p q) (t : tokenPtr) :
    (q.tokens.deref t).Content = (p.tokens.deref t).Content := by
  cases t with
  | none => rfl
  | some i => rw [tokens.deref_content, tokens.deref_content, h.1]

/-- C16, the code at the failing input: when no ordinal precedes the keyword token, the keyword
token is not itself a shortened range, and the next token that is not a delimiter is `a c b`
with `a`, `b` numeric of equal width, then for `c` one of `-`, `~` the season handler calls
`setAnimeSeason` with `a` and then with `b`, and for `c` the character `&` it changes nothing:
the split at `&` is never tried. -/
theorem season_range_separators (D : Deps) (p : parser) (tkn : tokenPtr) (a b : String)
    (c : Char) (hprev : ¬ p.ordinalBefore D tkn)
    (hshort : seasonRe.findStringSubmatch 2 (p.tokens.deref tkn).Content = none)
    (hfound : (p.tokens.findNext tkn tokenFlagsNotDelimiter).2 = true)
    (hcontent : (p.tokens.deref (p.tokens.findNext tkn tokenFlagsNotDelimiter).1).Content
      = rangeText a c b)
    (ha : isNumeric a = true) (hb : isNumeric b = true) (hw : goLen a = goLen b)
    (hc : c = '-' ∨ c = '~' ∨ c = '&') :
    p.checkAnimeSeasonKeyword D tkn
      = (false,
          if c = '&' then p
          else (p.setAnimeSeason tkn (p.tokens.findNext tkn tokenFlagsNotDelimiter).1 a).setAnimeSeason
            tkn (p.tokens.findNext tkn tokenFlagsNotDelimiter).1 b) := by
  unfold parser.checkAnimeSeasonKeyword
  unfold parser.ordinalBefore at hprev
  simp only [if_neg hprev, hfound]
  rw [parser.seasonShortenedRange_none p tkn _ hshort,
    parser.seasonRange_rangeText p tkn _ a b c hcontent ha hb hw hc]
  have hn : ∀ q : parser, parser.sameWords p q →
      isNumeric (q.tokens.deref (p.tokens.findNext tkn tokenFlagsNotDelimiter).1).Content
        = false := by
    intro q hq
    rw [parser.content_of_sameWords hq, hcontent]
    exact isNumeric_rangeText a b c (reDigit_separator c hc)
  by_cases hamp : c = '&'
  · simp only [hamp, if_true]
    simp [hn p (parser.sameWords_refl p)]
  · simp only [hamp, if_false]
    simp [hn _ (parser.setAnimeSeason_twice_sameWords p _ _ _ _ _ _)]
theorem season_range_separators_witness :
    ¬ (parser.keywordThenToken "Seasons" "1&2").ordinalBefore Deps.sample (some 0)
    ∧ seasonRe.findStringSubmatch 2
        ((parser.keywordThenToken "Seasons" "1&2").tokens.deref (some 0)).Content = none
    ∧ ((parser.keywordThenToken "Seasons" "1&2").tokens.findNext (some 0)
        tokenFlagsNotDelimiter).2 = true
    ∧ ((parser.keywordThenToken "Seasons" "1&2").tokens.deref
        ((parser.keywordThenToken "Seasons" "1&2").tokens.findNext (some 0)
          tokenFlagsNotDelimiter).1).Content = rangeText "1" '&' "2"
    ∧ (parser.keywordThenToken "Seasons" "1&2").checkAnimeSeasonKeyword Deps.sample (some 0)
        = (false, parser.keywordThenToken "Seasons" "1&2") :=
  ⟨by unfold parser.ordinalBefore; decide, by decide, by decide, by decide,
    season_range_separators Deps.sample (parser.keywordThenToken "Seasons" "1&2") (some 0)
      "1" "2" '&' (by unfold parser.ordinalBefore; decide) (by decide) (by decide) (by decide)
      (by decide) (by decide) (by decide) (by decide)⟩

/-- The range block of the part handler on a next token `a c b`, whatever the widths. -/
theorem parser.partRange_rangeText (p : parser) (tkn nextToken : tokenPtr) (a b : String)
    (c : Char) (hcontent : (p.tokens.deref nextToken).Content = rangeText a c b)
    (ha : isNumeric a = true) (hb : isNumeric b = true) (hc : c = '-' ∨ c = '~') :
    p.partRange tkn nextToken
      = (p.setAnimePart tkn nextToken a).setAnimePart tkn nextToken b := by
  have na : ∀ d : Char, reDigit d = false → d ∉ a.data := isNumeric_digits a ha
  have nb : ∀ d : Char, reDigit d = false → d ∉ b.data := isNumeric_digits b hb
  unfold parser.partRange
  simp only [hcontent]
  rcases hc with e | e <;> subst e
  · rw [goSplit_rangeText_sep a b '-' (na _ (by decide)) (nb _ (by decide))]
    simp [ha, hb]
  · rw [goSplit_rangeText_other a b '~' '-' (by decide) (na _ (by decide)) (nb _ (by decide)),
      goSplit_rangeText_sep a b '~' (na _ (by decide)) (nb _ (by decide))]
    simp [ha, hb]

/-- The range block of the season handler on a next token `a c b` of unequal widths. -/
theorem parser.seasonRange_unequal (p : parser) (tkn nextToken : tokenPtr) (a b : String)
    (c : Char) (hcontent : (p.tokens.deref nextToken).Content = rangeText a c b)
    (ha : isNumeric a = true) (hb : isNumeric b = true) (hw : goLen a ≠ goLen b)
    (hc : c = '-' ∨ c = '~') :
    p.seasonRange tkn nextToken true = p := by
  have na : ∀ d : Char, reDigit d = false → d ∉ a.data := isNumeric_digits a ha
  have nb : ∀ d : Char, reDigit d = false → d ∉ b.data := isNumeric_digits b hb
  unfold parser.seasonRange
  simp only [if_true, hcontent]
  rcases hc with e | e <;> subst e
  · rw [goSplit_rangeText_sep a b '-' (na _ (by decide)) (nb _ (by decide))]
    simp [hw]
  · rw [goSplit_rangeText_other a b '~' '-' (by decide) (na _ (by decide)) (nb _ (by decide)),
      goSplit_rangeText_sep a b '~' (na _ (by decide)) (nb _ (by decide))]
    simp [hw]

/-- C17, the code at the failing input: the part handler does not have the structure of the
season handler. When no ordinal precedes the keyword token and the next token that is not a
delimiter is `a-b` or `a~b` with `a`, `b` numeric of different widths (such as `1-02`), the part
handler calls `setAnimePart` with `a` and then with `b`, which stores under AnimePart and marks
the two tokens, while the season handler, on a keyword token that is not itself a shortened
range, changes nothing. -/
theorem part_range_unequal_width (D : Deps) (p : parser) (tkn : tokenPtr) (a b : String)
    (c : Char) (hprev : ¬ p.ordinalBefore D tkn)
    (hshort : seasonRe.findStringSubmatch 2 (p.tokens.deref tkn).Content = none)
    (hfound : (p.tokens.findNext tkn tokenFlagsNotDelimiter).2 = true)
    (hcontent : (p.tokens.deref (p.tokens.findNext tkn tokenFlagsNotDelimiter).1).Content
      = rangeText a c b)
    (ha : isNumeric a = true) (hb : isNumeric b = true) (hw : goLen a ≠ goLen b)
    (hc : c = '-' ∨ c = '~') :
    p.checkAnimePartKeyword D tkn
      = (false, (p.setAnimePart tkn (p.tokens.findNext tkn tokenFlagsNotDelimiter).1 a).setAnimePart
          tkn (p.tokens.findNext tkn tokenFlagsNotDelimiter).1 b)
    ∧ p.checkAnimeSeasonKeyword D tkn = (false, p) := by
  have hd : reDigit c = false := by rcases hc with e | e <;> subst e <;> decide
  have hn : ∀ q : parser, parser.sameWords p q →
      isNumeric (q.tokens.deref (p.tokens.findNext tkn tokenFlagsNotDelimiter).1).Content
        = false := by
    intro q hq
    rw [parser.content_of_sameWords hq, hcontent]
    exact isNumeric_rangeText a b c hd
  unfold parser.ordinalBefore at hprev
  constructor
  · unfold parser.checkAnimePartKeyword
    simp only [if_neg hprev, hfound]
    rw [parser.partRange_rangeText p tkn _ a b c hcontent ha hb hc]
    simp [hn _ (parser.setAnimePart_twice_sameWords p _ _ _ _ _ _)]
  · unfold parser.checkAnimeSeasonKeyword
    simp only [if_neg hprev, hfound]
    rw [parser.seasonShortenedRange_none p tkn _ hshort,
      parser.seasonRange_unequal p tkn _ a b c hcontent ha hb hw hc]
    simp [hn p (parser.sameWords_refl p)]

theorem part_range_unequal_width_witness :
    ¬ (parser.keywordThenToken "Part" "1-02").ordinalBefore Deps.sample (some 0)
    ∧ seasonRe.findStringSubmatch 2
        ((parser.keywordThenToken "Part" "1-02").tokens.deref (some 0)).Content = none
    ∧ ((parser.keywordThenToken "Part" "1-02").tokens.findNext (some 0)
        tokenFlagsNotDelimiter) = (some 2, true)
    ∧ ((parser.keywordThenToken "Part" "1-02").tokens.deref (some 2)).Content
        = rangeText "1" '-' "02"
    ∧ goLen "1" ≠ goLen "02"
    ∧ ((parser.keywordThenToken "Part" "1-02").checkAnimePartKeyword Deps.sample (some 0)
        = (false, ((parser.keywordThenToken "Part" "1-02").setAnimePart (some 0) (some 2)
            "1").setAnimePart (some 0) (some 2) "02")
      ∧ (parser.keywordThenToken "Part" "1-02").checkAnimeSeasonKeyword Deps.sample (some 0)
        = (false, parser.keywordThenToken "Part" "1-02"))
    ∧ ((parser.keywordThenToken "Part" "1-02").checkAnimePartKeyword Deps.sample
        (some 0)).2.elements.get elementCategory.AnimePart = ["1"]
    ∧ ((parser.keywordThenToken "Part" "1-02").checkAnimePartKeyword Deps.sample
        (some 0)).2.tokens.map (fun t => t.Category)
        = [tokenCategory.Identifier, tokenCategory.Delimiter, tokenCategory.Identifier] :=
  ⟨by unfold parser.ordinalBefore; decide, by decide, by decide, by decide, by decide,
    part_range_unequal_width Deps.sample (parser.keywordThenToken "Part" "1-02") (some 0)
      "1" "02" '-' (by unfold parser.ordinalBefore; decide) (by decide) (by decide)
      (by decide) (by decide) (by decide) (by decide) (by decide),
    by decide, by decide⟩

/-! ## Theorems: buildElement -/

theorem List.getLast?_dropWhile {α : Type} (P : α → Bool) (l : List α)
    (h : l.dropWhile P ≠ []) : (l.dropWhile P).getLast? = l.getLast? := by
  induction l with
  | nil => exact absurd rfl h
  | cons a l ih =>
    rw [List.dropWhile_cons] at h ⊢
    by_cases ha : P a = true
    · rw [if_pos ha] at h ⊢
      rw [ih h]
      cases l with
      | nil => exact absurd rfl h
      | cons b l => rfl
    · rw [if_neg ha]

theorem goTrim_noEdge (s : String) (cutset : List Char) : noEdge cutset (goTrim s cutset) := by
  unfold noEdge goTrim
  constructor
  · intro c hc
    simp only [List.head?_reverse] at hc
    by_cases hne : ((s.data.dropWhile (fun c => decide (c ∈ cutset))).reverse).dropWhile
        (fun c => decide (c ∈ cutset)) = []
    · rw [hne] at hc
      simp at hc
    · rw [List.getLast?_dropWhile _ _ hne, List.getLast?_reverse] at hc
      have := List.head?_dropWhile_not (fun c => decide (c ∈ cutset)) s.data
      rw [hc] at this
      simpa using this
  · intro c hc
    simp only [List.getLast?_reverse] at hc
    have := List.head?_dropWhile_not (fun c => decide (c ∈ cutset))
      ((s.data.dropWhile (fun c => decide (c ∈ cutset))).reverse)
    rw [hc] at this
    simpa using this

theorem List.dropWhile_of_head {α : Type} (P : α → Bool) (l : List α)
    (h : ∀ a, l.head? = some a → P a = false) : l.dropWhile P = l := by
  cases l with
  | nil => rfl
  | cons a l =>
    rw [List.dropWhile_cons, if_neg]
    rw [h a rfl]
    simp

theorem goTrim_of_noEdge (s : String) (cutset : List Char) (h : noEdge cutset s) :
    goTrim s cutset = s := by
  unfold goTrim
  rw [List.dropWhile_of_head _ s.data (fun a ha => by simpa using h.1 a ha)]
  rw [List.dropWhile_of_head _ s.data.reverse (fun a ha => by
    rw [List.head?_reverse] at ha
    simpa using h.2 a ha)]
  rw [List.reverse_reverse]

theorem noEdge_mono {cutset small : List Char} (hs : ∀ c ∈ small, c ∈ cutset) (v : String)
    (h : noEdge cutset v) : noEdge small v :=
  ⟨fun c hc hm => h.1 c hc (hs c hm), fun c hc hm => h.2 c hc (hs c hm)⟩

theorem goTrim_space_after (s : String) :
    goTrim (goTrim s (' ' :: dashes)) [' '] = goTrim s (' ' :: dashes) :=
  goTrim_of_noEdge _ _ (noEdge_mono (fun c hc => by
    rw [List.mem_singleton] at hc
    rw [hc]
    exact List.mem_cons_self _ _) _ (goTrim_noEdge s _))
theorem tokens.setCategory_getD_ne (ts : tokens) (i j : Nat) (c : tokenCategory) (h : i ≠ j) :
    (ts.setCategory (some i) c).getD j token.zero = ts.getD j token.zero := by
  unfold tokens.setCategory
  simp only [List.getD_eq_getElem?_getD, List.getElem?_modify, if_neg h]
  cases ts[j]? <;> rfl

/-- One step of the loop of `buildElement` without delimiters adds the piece of the token
and touches no other token. -/
theorem buildElementStep_piece (b e : tokenPtr) (ts ts1 : tokens) (acc : String) (i : Nat)
    (h : ts1.getD i token.zero = ts.getD i token.zero) :
    (buildElementStep b e false (acc, ts1) i).1 = acc ++ spanPiece b e ts i
    ∧ ∀ j, i ≠ j →
      (buildElementStep b e false (acc, ts1) i).2.getD j token.zero = ts1.getD j token.zero := by
  have hd : ts1.deref (some i) = ts.deref (some i) := h
  unfold buildElementStep spanPiece
  simp only [hd]
  generalize ts.deref (some i) = t
  obtain ⟨cat, content, encl⟩ := t
  cases cat
  · exact ⟨by simp, fun j hj => tokens.setCategory_getD_ne ts1 i j _ hj⟩
  · exact ⟨by simp, fun j _ => rfl⟩
  · refine ⟨?_, fun j _ => ?_⟩
    · by_cases h1 : some i ≠ b ∧ some i ≠ e
      · by_cases h2 : content = "," ∨ content = "&"
        · simp [h1, h2]
        · simp [h1, h2]
      · simp [h1]
    · simp only [reduceCtorEq, if_false, if_true, Bool.false_eq_true]
      split_ifs <;> rfl
  · exact ⟨by simp, fun j _ => rfl⟩
  · exact ⟨by simp, fun j _ => rfl⟩

theorem buildElement_fold (b e : tokenPtr) (ts : tokens) (l : List Nat) :
    ∀ (acc : String) (ts1 : tokens), l.Nodup →
      (∀ i ∈ l, ts1.getD i token.zero = ts.getD i token.zero) →
      (l.foldl (buildElementStep b e false) (acc, ts1)).1
        = l.foldl (fun r i => r ++ spanPiece b e ts i) acc := by
  induction l with
  | nil => intro acc ts1 _ _; rfl
  | cons i l ih =>
    intro acc ts1 hnd hsame
    rw [List.foldl_cons, List.foldl_cons]
    obtain ⟨h1, h2⟩ := buildElementStep_piece b e ts ts1 acc i (hsame i (List.mem_cons_self _ _))
    have hnd2 := List.nodup_cons.1 hnd
    have e2 : buildElementStep b e false (acc, ts1) i
        = ((buildElementStep b e false (acc, ts1) i).1,
            (buildElementStep b e false (acc, ts1) i).2) := rfl
    rw [e2, ih _ _ hnd2.2 (fun j hj => by
      rw [h2 j (fun e => hnd2.1 (e ▸ hj))]
      exact hsame j (List.mem_cons_of_mem _ hj)), h1]

theorem tokens.getList_nodup (ts : tokens) (flags : tokenFlags) (b e : tokenPtr) :
    (ts.getList flags b e).Nodup := by
  unfold tokens.getList
  split
  · exact List.Nodup.filter _ (List.nodup_range _)
  · exact List.nodup_nil

/-- The element text that `buildElement` builds without delimiters, before trimming. -/
theorem buildElement_text (p : parser) (b e : tokenPtr) :
    ((p.tokens.getList tokenFlagsMinusOne b e).foldl (buildElementStep b e false)
      ("", p.tokens)).1 = spanText b e p.tokens := by
  rw [buildElement_fold b e p.tokens _ "" p.tokens (tokens.getList_nodup _ _ _ _)
    (fun _ _ => rfl)]
  unfold spanText String.join
  rw [List.foldl_map]

/-- C18, the claim as stated fails: with the delimiters not kept, a `&` delimiter that is
the last token of the span is dropped, and so is one that is the first token. -/
theorem buildElement_edge_delimiter_counterexample :
    ((parser.ofTokens [(tokenCategory.Unknown, "A"), (tokenCategory.Delimiter, "&")]).buildElement
        elementCategory.AnimeTitle (some 0) (some 1) false).elements.get
        elementCategory.AnimeTitle = ["A"]
    ∧ ((parser.ofTokens [(tokenCategory.Delimiter, "&"), (tokenCategory.Unknown, "A")]).buildElement
        elementCategory.AnimeTitle (some 0) (some 1) false).elements.get
        elementCategory.AnimeTitle = ["A"] := by
  decide

/-- The example of the claim: the tokens `Kanojo` `,` ` ` `Okarishimasu` give
`Kanojo, Okarishimasu`. -/
theorem buildElement_kanojo :
    ((parser.ofTokens [(tokenCategory.Unknown, "Kanojo"), (tokenCategory.Delimiter, ","),
        (tokenCategory.Delimiter, " "), (tokenCategory.Unknown, "Okarishimasu")]).buildElement
        elementCategory.AnimeTitle (some 0) (some 3) false).elements.get
        elementCategory.AnimeTitle = ["Kanojo, Okarishimasu"] := by
  decide

/-- C18, amended: with the delimiters not kept, `buildElement` takes the text of the span (Unknown
and Bracket tokens give their content; a Delimiter token that is neither the first nor the
last token of the span gives itself when it is `,` or `&` and one space otherwise; every
other token gives nothing), trims spaces and dashes from both ends, and inserts the result
when it is not empty. -/
theorem buildElement_without_delimiters (p : parser) (cat : elementCategory)
    (b e : tokenPtr) :
    (p.buildElement cat b e false).elements
      = if goTrim (spanText b e p.tokens) (' ' :: dashes) ≠ "" then
          p.elements.insert cat (goTrim (spanText b e p.tokens) (' ' :: dashes))
        else p.elements := by
  unfold parser.buildElement
  simp only [if_true, buildElement_text, goTrim_space_after]
  split_ifs <;> rfl
/-- C19, the claim as stated fails: with the delimiters kept, a leading dash stays in the
stored value, and a span of one space stores the empty string. -/
theorem buildElement_keep_delimiters_counterexample :
    ((parser.ofTokens [(tokenCategory.Unknown, "-"), (tokenCategory.Unknown, "A")]).buildElement
        elementCategory.ReleaseGroup (some 0) (some 1) true).elements.get
        elementCategory.ReleaseGroup = ["-A"]
    ∧ ((parser.ofTokens [(tokenCategory.Delimiter, " ")]).buildElement
        elementCategory.ReleaseGroup (some 0) (some 0) true).elements.get
        elementCategory.ReleaseGroup = [""] := by
  decide

/-- C19, amended: `buildElement` leaves the element store as it is or inserts one value `v`; `v`
has no leading and no trailing space, and when the delimiters are not kept `v` is not empty and
has no leading and no trailing space or dash. -/
theorem buildElement_value_edges (p : parser) (cat : elementCategory) (b e : tokenPtr)
    (keepDelimiters : Bool) :
    (p.buildElement cat b e keepDelimiters).elements = p.elements
    ∨ ∃ v, (p.buildElement cat b e keepDelimiters).elements = p.elements.insert cat v
        ∧ noEdge [' '] v
        ∧ (keepDelimiters = false → v ≠ "" ∧ noEdge (' ' :: dashes) v) := by
  unfold parser.buildElement
  cases keepDelimiters with
  | false =>
    simp only [if_true, goTrim_space_after]
    split_ifs with h
    · exact Or.inr ⟨_, rfl, noEdge_mono (fun c hc => by
        rw [List.mem_singleton] at hc
        rw [hc]
        exact List.mem_cons_self _ _) _ (goTrim_noEdge _ _), fun _ => ⟨h, goTrim_noEdge _ _⟩⟩
    · exact Or.inl rfl
  | true =>
    simp only [Bool.true_eq_false, if_false]
    split_ifs with h
    · exact Or.inr ⟨_, rfl, goTrim_noEdge _ _, fun hk => absurd hk (by simp)⟩
    · exact Or.inl rfl

/-! ## Theorems: the episode number at the start -/

theorem parser.episodeAtStartTest_iff (p : parser) (i : Nat) :
    p.episodeAtStartTest i = true ↔
      isNumeric (p.tokens.deref (some i)).Content = true
      ∧ ((p.tokens.get 0).2 = true ∧ goLen (p.tokens.deref (some i)).Content > 1
        ∧ (p.tokens.deref (p.tokens.get 0).1).Content = (p.tokens.deref (some i)).Content
        ∧ p.elements.contains elementCategory.EpisodeNumber = false) := by
  unfold parser.episodeAtStartTest
  simp only [Bool.and_eq_true, decide_eq_true_eq, Bool.not_eq_true', and_assoc]

theorem searchForEpisodeNumberAtTheStartStep_eq (p : parser) (i : Nat) :
    p.searchForEpisodeNumberAtTheStartStep i
      = if p.episodeAtStartTest i = true then
          { p with
            elements := p.elements.insert elementCategory.EpisodeNumber
              (p.tokens.deref (some i)).Content,
            tokens := p.tokens.setCategory (some i) tokenCategory.Identifier }
        else p := by
  unfold parser.searchForEpisodeNumberAtTheStartStep
  by_cases h1 : isNumeric (p.tokens.deref (some i)).Content = true
  · by_cases h2 : (p.tokens.get 0).2 = true ∧ goLen (p.tokens.deref (some i)).Content > 1
        ∧ (p.tokens.deref (p.tokens.get 0).1).Content = (p.tokens.deref (some i)).Content
        ∧ p.elements.contains elementCategory.EpisodeNumber = false
    · rw [if_pos ((parser.episodeAtStartTest_iff p i).2 ⟨h1, h2⟩)]
      simp only [h1, Bool.true_eq_false, if_false]
      rw [if_pos h2]
    · rw [if_neg (fun h => h2 ((parser.episodeAtStartTest_iff p i).1 h).2)]
      simp only [h1, Bool.true_eq_false, if_false]
      rw [if_neg h2]
  · rw [if_neg (fun h => h1 ((parser.episodeAtStartTest_iff p i).1 h).1)]
    have h1f : isNumeric (p.tokens.deref (some i)).Content = false := by simpa using h1
    simp only [h1f, if_true]

/-- Once an EpisodeNumber is stored the pass changes nothing. -/
theorem searchForEpisodeNumberAtTheStart_done (l : List Nat) (q : parser)
    (h : q.elements.contains elementCategory.EpisodeNumber = true) :
    l.foldl parser.searchForEpisodeNumberAtTheStartStep q = q := by
  induction l with
  | nil => rfl
  | cons i l ih =>
    rw [List.foldl_cons, searchForEpisodeNumberAtTheStartStep_eq, if_neg, ih]
    intro ht
    have := ((parser.episodeAtStartTest_iff q i).1 ht).2.2.2.2
    rw [h] at this
    exact absurd this (by simp)

theorem Elements.contains_insert_episodeNumber (e : Elements) (v : String)
    (h : e.contains elementCategory.EpisodeNumber = false) :
    (e.insert elementCategory.EpisodeNumber v).contains elementCategory.EpisodeNumber = true := by
  have hv : e.values elementCategory.EpisodeNumber = [] := by
    unfold Elements.contains at h
    simpa using h
  unfold Elements.insert
  simp only [elementCategory.isSingular, if_true, hv]
  simp [Elements.contains, Elements.put]

/-- The pass over a list of token indices: the first index that passes the test is stored
and marked, whatever its position; the others are left as they are. -/
theorem searchForEpisodeNumberAtTheStart_fold (l : List Nat) (p : parser) :
    l.foldl parser.searchForEpisodeNumberAtTheStartStep p
      = match l.find? (fun i => p.episodeAtStartTest i) with
        | some i =>
          { p with
            elements := p.elements.insert elementCategory.EpisodeNumber
              (p.tokens.deref (some i)).Content,
            tokens := p.tokens.setCategory (some i) tokenCategory.Identifier }
        | none => p := by
  induction l with
  | nil => rfl
  | cons i l ih =>
    rw [List.foldl_cons, searchForEpisodeNumberAtTheStartStep_eq, List.find?_cons]
    by_cases ht : p.episodeAtStartTest i = true
    · rw [if_pos ht]
      simp only [ht]
      apply searchForEpisodeNumberAtTheStart_done
      exact Elements.contains_insert_episodeNumber _ _
        ((parser.episodeAtStartTest_iff p i).1 ht).2.2.2.2
    · rw [if_neg ht]
      have hf : p.episodeAtStartTest i = false := by simpa using ht
      simp only [hf]
      exact ih

/-- C20, the code at the failing input: on the tokens `05` (Identifier), ` `, `05` (Unknown) the
pass stores `05` as EpisodeNumber and marks the token at index 2; in general it stores and marks
the first Unknown token that passes the test, which compares the content with the content of the
token at index 0 and not the position. -/
theorem episode_at_start_compares_content :
    (parserEpisodeLater.searchForEpisodeNumberAtTheStart.elements.get
        elementCategory.EpisodeNumber = ["05"]
      ∧ parserEpisodeLater.searchForEpisodeNumberAtTheStart.tokens
        = [⟨tokenCategory.Identifier, "05", false⟩, ⟨tokenCategory.Delimiter, " ", false⟩,
            ⟨tokenCategory.Identifier, "05", false⟩])
    ∧ ∀ p : parser, p.searchForEpisodeNumberAtTheStart
      = match (p.tokens.getListFlag tokenFlagsUnknown).find?
          (fun i => p.episodeAtStartTest i) with
        | some i =>
          { p with
            elements := p.elements.insert elementCategory.EpisodeNumber
              (p.tokens.deref (some i)).Content,
            tokens := p.tokens.setCategory (some i) tokenCategory.Identifier }
        | none => p :=
  ⟨by decide, fun p => searchForEpisodeNumberAtTheStart_fold _ p⟩

/-! ## Theorems: dashes and separators -/

/-- A string of one byte is one ASCII character. -/
theorem goLen_eq_one (s : String) (h : goLen s = 1) :
    ∃ c : Char, s = String.singleton c ∧ c.toNat < 0x80 := by
  unfold goLen at h
  have hs : s = String.mk s.data := rfl
  cases hd : s.data with
  | nil => rw [hd] at h; simp at h
  | cons c cs =>
    rw [hd] at h
    simp only [List.map_cons, List.sum_cons] at h
    have h1 : 1 ≤ charBytes c := by unfold charBytes; split_ifs <;> omega
    have h2 := length_le_goLen cs
    have hcs : cs = [] := by
      cases cs with
      | nil => rfl
      | cons d ds => simp only [List.length_cons] at h2; omega
    subst hcs
    refine ⟨c, by rw [hs, hd]; rfl, ?_⟩
    simp only [List.map_nil, List.sum_nil, Nat.add_zero] at h
    unfold charBytes at h
    split_ifs at h with a <;> first | exact a | omega

theorem singleton_inj (c d : Char) (h : String.singleton c = String.singleton d) : c = d := by
  have := congrArg String.data h
  simpa [String.singleton] using this

/-- C27: only ASCII characters are recognised as dashes and separators.  `isDashCharacter(s)`
is true if and only if `s` is `-`, `isSeparatorCharacter(s)` is true if and only if `s` is
one of `&`, `~`, `-`, and the dashes U+2010..U+2015 of the two constants are rejected by
both, because the length test counts bytes. -/
theorem dashes_are_ascii_only :
    (∀ s : String, isDashCharacter s = true ↔ s = "-")
    ∧ (∀ s : String, isSeparatorCharacter s = true ↔ s = "&" ∨ s = "~" ∨ s = "-")
    ∧ ∀ c : Char, 0x2010 ≤ c.toNat ∧ c.toNat ≤ 0x2015 →
        c ∈ dashes ∧ c ∈ separators
        ∧ goLen (String.singleton c) = 3
        ∧ isDashCharacter (String.singleton c) = false
        ∧ isSeparatorCharacter (String.singleton c) = false := by
  refine ⟨?_, ?_, ?_⟩
  · intro s
    constructor
    · intro h
      unfold isDashCharacter at h
      by_cases hl : goLen s = 1
      · obtain ⟨c, hc, hascii⟩ := goLen_eq_one s hl
        subst hc
        rw [if_neg (by simpa using hl)] at h
        simp only [dashes, List.any_cons, List.any_nil, Bool.or_false, Bool.or_eq_true,
          decide_eq_true_eq] at h
        rcases h with h | h | h | h | h | h | h <;>
          first
          | exact h
          | (have e := singleton_inj _ _ h
             rw [e] at hascii
             exact absurd hascii (by decide))
      · rw [if_pos hl] at h
        exact absurd h (by simp)
    · intro h
      subst h
      decide
  · intro s
    constructor
    · intro h
      unfold isSeparatorCharacter at h
      by_cases hl : goLen s = 1
      · obtain ⟨c, hc, hascii⟩ := goLen_eq_one s hl
        subst hc
        rw [if_neg (by simpa using hl)] at h
        simp only [separators, List.any_cons, List.any_nil, Bool.or_false, Bool.or_eq_true,
          decide_eq_true_eq] at h
        rcases h with h | h | h | h | h | h | h | h | h
        · exact Or.inl h
        · exact Or.inr (Or.inl h)
        · exact Or.inr (Or.inr h)
        all_goals
          have e := singleton_inj _ _ h
          rw [e] at hascii
          exact absurd hascii (by decide)
      · rw [if_pos hl] at h
        exact absurd h (by simp)
    · rintro (h | h | h) <;> subst h <;> decide
  · intro c hc
    have hcc : Char.ofNat c.toNat = c := Char.ofNat_toNat c
    rw [← hcc]
    obtain ⟨a, b⟩ := hc
    generalize c.toNat = n at a b
    interval_cases n <;> decide

/-! ## Theorems: postProcessing -/

theorem postProcessingTypes_fold (D : Deps) (title : String) (l : List String) :
    ∀ p : parser,
      ((p.postProcessingTypes D title l).elements.values elementCategory.EpisodeTitle
          = if title ∈ l then [] else p.elements.values elementCategory.EpisodeTitle)
      ∧ ((p.postProcessingTypes D title l).elements.values elementCategory.AnimeType
          = (p.elements.values elementCategory.AnimeType).filter
              (fun t => !(decide (t ∈ l) && typeRemovable D p.keywordManager title t)))
      ∧ (p.postProcessingTypes D title l).keywordManager = p.keywordManager
      ∧ (p.postProcessingTypes D title l).tokens = p.tokens := by
  induction l with
  | nil =>
    intro p
    refine ⟨rfl, ?_, rfl, rfl⟩
    show p.elements.values _ = _
    simp
  | cons a l ih =>
    intro p
    unfold parser.postProcessingTypes
    rw [List.foldl_cons]
    by_cases h1 : a = title
    · simp only [h1, if_true]
      obtain ⟨i1, i2, i3, i4⟩ := ih { p with elements := p.elements.erase elementCategory.EpisodeTitle }
      unfold parser.postProcessingTypes at i1 i2 i3 i4
      refine ⟨?_, ?_, i3, i4⟩
      · rw [i1]
        simp [Elements.erase, Elements.put]
      · rw [i2]
        simp only [Elements.erase, Elements.put, reduceCtorEq, if_false]
        apply List.filter_congr
        intro t _
        by_cases ht : t = title
        · simp [ht, typeRemovable]
        · simp [ht]
    · simp only [h1, if_false]
      by_cases h2 : goContains title a = true
        ∧ (p.keywordManager.find (keywordManager.normalize D a) elementCategory.AnimeType).2 = true
      · obtain ⟨h2a, h2b⟩ := h2
        simp only [h2a, h2b, if_true]
        obtain ⟨i1, i2, i3, i4⟩ :=
          ih { p with elements := p.elements.remove elementCategory.AnimeType a }
        unfold parser.postProcessingTypes at i1 i2 i3 i4
        refine ⟨?_, ?_, i3, i4⟩
        · rw [i1]
          have hne : title ≠ a := fun e => h1 e.symm
          simp [Elements.remove, Elements.put, hne]
        · rw [i2]
          simp only [Elements.remove, Elements.put, if_true, List.filter_filter]
          apply List.filter_congr
          intro t _
          by_cases ht : t = a
          · subst ht
            simp [typeRemovable, h1, h2a, h2b]
          · simp [ht]
      · have hrem : typeRemovable D p.keywordManager title a = false := by
          unfold typeRemovable
          by_cases h2a : goContains title a = true
          · have h2b : (p.keywordManager.find (keywordManager.normalize D a)
                elementCategory.AnimeType).2 = false := by
              cases hb : (p.keywordManager.find (keywordManager.normalize D a)
                elementCategory.AnimeType).2
              · rfl
              · exact absurd ⟨h2a, hb⟩ h2
            simp [h2b]
          · simp [h2a]
        have hstep : (if goContains title a = true then
              if (p.keywordManager.find (keywordManager.normalize D a)
                  elementCategory.AnimeType).2 = true then
                { p with elements := p.elements.remove elementCategory.AnimeType a }
              else p
            else p) = p := by
          split_ifs with x y
          · exact absurd ⟨x, y⟩ h2
          · rfl
          · rfl
        rw [hstep]
        obtain ⟨i1, i2, i3, i4⟩ := ih p
        unfold parser.postProcessingTypes at i1 i2 i3 i4
        refine ⟨?_, ?_, i3, i4⟩
        · rw [i1]
          have hne : title ≠ a := fun e => h1 e.symm
          simp [hne]
        · rw [i2]
          apply List.filter_congr
          intro t _
          by_cases ht : t = a
          · subst ht
            simp [hrem]
          · simp [ht]
/-- C21, the claim as stated fails: with the episode title `OVA` equal to the stored anime
type `OVA`, `postProcessing` erases the episode title and leaves `OVA` under AnimeType. -/
theorem postProcessing_equal_type_counterexample :
    ((parser.ofElements [(elementCategory.AnimeTitle, "Title"),
        (elementCategory.EpisodeNumber, "01"), (elementCategory.AnimeType, "OVA"),
        (elementCategory.EpisodeTitle, "OVA")]).postProcessing Deps.sample).toOption.map
      (fun q => (q.elements.get elementCategory.AnimeType,
        q.elements.get elementCategory.EpisodeTitle)) = some (["OVA"], []) := by
  decide

/-- C21, amended: when AnimeType and EpisodeTitle are both present, the third block of
`postProcessing` returns; it erases the EpisodeTitle exactly when the episode title is equal
to one of the stored anime types, and it removes from AnimeType exactly the types that differ
from the episode title, are contained in it and normalize to an AnimeType keyword.  A type
equal to the episode title stays under AnimeType. -/
theorem postProcessing3_equal_or_contained (D : Deps) (p : parser) (title : String)
    (rest : List String)
    (hT : p.elements.get elementCategory.EpisodeTitle = title :: rest)
    (hA : p.elements.get elementCategory.AnimeType ≠ []) :
    ∃ q, p.postProcessing3 D = Except.ok q
      ∧ q.elements.get elementCategory.EpisodeTitle
          = (if title ∈ p.elements.get elementCategory.AnimeType then [] else title :: rest)
      ∧ q.elements.get elementCategory.AnimeType
          = (p.elements.get elementCategory.AnimeType).filter
              (fun t => !typeRemovable D p.keywordManager title t)
      ∧ (title ∈ p.elements.get elementCategory.AnimeType →
          title ∈ q.elements.get elementCategory.AnimeType) := by
  have c1 : p.elements.contains elementCategory.AnimeType = true := by
    rw [Elements.contains_eq_true_iff]; exact hA
  have c2 : p.elements.contains elementCategory.EpisodeTitle = true := by
    rw [Elements.contains_eq_true_iff]
    show p.elements.get elementCategory.EpisodeTitle ≠ []
    rw [hT]; simp
  obtain ⟨i1, i2, _, _⟩ := postProcessingTypes_fold D title
    (p.elements.get elementCategory.AnimeType) p
  have hfilter : (p.elements.get elementCategory.AnimeType).filter
        (fun t => !(decide (t ∈ p.elements.get elementCategory.AnimeType)
          && typeRemovable D p.keywordManager title t))
      = (p.elements.get elementCategory.AnimeType).filter
        (fun t => !typeRemovable D p.keywordManager title t) := by
    apply List.filter_congr
    intro t ht
    simp [ht]
  refine ⟨p.postProcessingTypes D title (p.elements.get elementCategory.AnimeType), ?_, ?_, ?_,
    ?_⟩
  · unfold parser.postProcessing3
    rw [if_pos ⟨c1, c2⟩, hT]
    rfl
  · show (p.postProcessingTypes D title _).elements.values _ = _
    rw [i1]
    split_ifs
    · rfl
    · exact hT
  · show (p.postProcessingTypes D title _).elements.values _ = _
    rw [i2]
    exact hfilter
  · intro hm
    show title ∈ (p.postProcessingTypes D title _).elements.values _
    rw [i2]
    exact hfilter ▸ List.mem_filter.2 ⟨hm, by simp [typeRemovable]⟩

theorem postProcessing3_equal_or_contained_witness :
    (parser.ofElements [(elementCategory.AnimeType, "OVA"), (elementCategory.AnimeType, "Movie"),
        (elementCategory.EpisodeTitle, "The OVA")]).elements.get elementCategory.EpisodeTitle
      = "The OVA" :: []
    ∧ (parser.ofElements [(elementCategory.AnimeType, "OVA"), (elementCategory.AnimeType, "Movie"),
        (elementCategory.EpisodeTitle, "The OVA")]).elements.get elementCategory.AnimeType ≠ []
    ∧ ∃ q, (parser.ofElements [(elementCategory.AnimeType, "OVA"),
          (elementCategory.AnimeType, "Movie"),
          (elementCategory.EpisodeTitle, "The OVA")]).postProcessing3 Deps.sample = Except.ok q
      ∧ q.elements.get elementCategory.EpisodeTitle = ["The OVA"]
      ∧ q.elements.get elementCategory.AnimeType = ["Movie"] := by
  refine ⟨by decide, by decide, ?_⟩
  obtain ⟨q, h1, h2, h3, _⟩ := postProcessing3_equal_or_contained Deps.sample
    (parser.ofElements [(elementCategory.AnimeType, "OVA"), (elementCategory.AnimeType, "Movie"),
      (elementCategory.EpisodeTitle, "The OVA")]) "The OVA" [] (by decide) (by decide)
  refine ⟨q, h1, ?_, ?_⟩
  · rw [h2]; decide
  · rw [h3]; decide

/-- The map `md` of the fifth block of `postProcessing` has the three named groups as keys,
whatever took part in the match. -/
theorem seasonEpisodeTitle_md (s : String) (m : List String)
    (hm : seasonEpisodeTitleRe.findStringSubmatch 4 s = some m) :
    (mdOf seasonEpisodeTitleReNames m).get? "season" = some (m.getD 2 "")
    ∧ (mdOf seasonEpisodeTitleReNames m).get? "episode" = some (m.getD 3 "")
    ∧ (mdOf seasonEpisodeTitleReNames m).get? "episode_title" = some (m.getD 4 "") := by
  unfold Regex.findStringSubmatch at hm
  cases hc : seasonEpisodeTitleRe.findFrom 0 s.data with
  | none => rw [hc] at hm; simp at hm
  | some caps =>
    rw [hc] at hm
    simp only [Option.some.injEq] at hm
    subst hm
    have hr : List.range (4 + 1) = [0, 1, 2, 3, 4] := by decide
    rw [hr]
    simp only [List.map_cons, List.map_nil, mdOf, seasonEpisodeTitleReNames, List.zip_cons_cons,
      List.zip_nil_right, List.foldl_cons, List.foldl_nil, GoMap.set, GoMap.get?, List.getD_cons_succ,
      List.getD_cons_zero]
    refine ⟨?_, ?_, ?_⟩ <;> simp
/-- C22, the code at the failing input: when the fifth block of `postProcessing` is entered
and the AnimeTitle matches the pattern, the block inserts the text of the group `season`
under AnimeSeason whether or not the group took part in the match (the empty string when it
did not), then the episode number and the episode title, and erases the title. -/
theorem postProcessing5_season_always_inserted (p : parser) (t : String) (rest m : List String)
    (hT : p.elements.get elementCategory.AnimeTitle = t :: rest)
    (hcond : p.elements.contains elementCategory.AnimeSeason = false
      ∨ p.elements.contains elementCategory.EpisodeNumber = false)
    (hm : seasonEpisodeTitleRe.findStringSubmatch 4 t = some m) :
    p.postProcessing5
      = Except.ok { p with
          elements := (((p.elements.insert elementCategory.AnimeSeason (m.getD 2 "")).insert
            elementCategory.EpisodeNumber (m.getD 3 "")).insert
            elementCategory.EpisodeTitle (m.getD 4 "")).erase elementCategory.AnimeTitle } := by
  have c1 : p.elements.contains elementCategory.AnimeTitle = true := by
    rw [Elements.contains_eq_true_iff]
    show p.elements.get elementCategory.AnimeTitle ≠ []
    rw [hT]; simp
  have hc : (p.elements.contains elementCategory.AnimeTitle = true
        ∧ p.elements.contains elementCategory.AnimeSeason = false)
      ∨ p.elements.contains elementCategory.EpisodeNumber = false := by
    rcases hcond with h | h
    · exact Or.inl ⟨c1, h⟩
    · exact Or.inr h
  obtain ⟨m1, m2, m3⟩ := seasonEpisodeTitle_md t m hm
  unfold parser.postProcessing5
  rw [if_pos hc, hT]
  simp only [goFirst, bind, Except.bind, hm, m1, m2, m3]
  rfl

theorem postProcessing5_season_always_inserted_witness :
    (parser.ofElements [(elementCategory.AnimeTitle, "07-Ghost")]).elements.get
        elementCategory.AnimeTitle = "07-Ghost" :: []
    ∧ seasonEpisodeTitleRe.findStringSubmatch 4 "07-Ghost"
        = some ["07-Ghost", "", "", "07", "Ghost"]
    ∧ (parser.ofElements [(elementCategory.AnimeTitle, "07-Ghost")]).postProcessing5
      = Except.ok { parser.ofElements [(elementCategory.AnimeTitle, "07-Ghost")] with
          elements := ((((parser.ofElements
            [(elementCategory.AnimeTitle, "07-Ghost")]).elements.insert
            elementCategory.AnimeSeason "").insert elementCategory.EpisodeNumber "07").insert
            elementCategory.EpisodeTitle "Ghost").erase elementCategory.AnimeTitle }
    ∧ ((parser.ofElements [(elementCategory.AnimeTitle, "07-Ghost")]).postProcessing
        Deps.sample).toOption.map (fun q => q.elements.get elementCategory.AnimeSeason)
        = some [""]
    ∧ ((parser.ofElements [(elementCategory.AnimeTitle, "E05-Foo")]).postProcessing
        Deps.sample).toOption.map (fun q => q.elements.get elementCategory.AnimeSeason)
        = some [""] :=
  ⟨by decide, by decide,
    postProcessing5_season_always_inserted
      (parser.ofElements [(elementCategory.AnimeTitle, "07-Ghost")]) "07-Ghost" []
      ["07-Ghost", "", "", "07", "Ghost"] (by decide) (Or.inl (by decide)) (by decide),
    by decide, by decide⟩

/-! ## Theorems: the release-group pass -/

theorem range_filter_head (q : Nat → Bool) (hi j : Nat) (rest : List Nat)
    (h : (List.range hi).filter q = j :: rest) :
    j < hi ∧ q j = true ∧ ∀ m, m < j → q m = false := by
  have hm : j ∈ (List.range hi).filter q := by rw [h]; exact List.mem_cons_self _ _
  obtain ⟨h1, h2⟩ := List.mem_filter.1 hm
  refine ⟨List.mem_range.1 h1, h2, fun m hmj => ?_⟩
  by_contra hq
  have hq2 : q m = true := by simpa using hq
  have hs : ((List.range hi).filter q).Pairwise (· < ·) :=
    List.Pairwise.filter _ (List.pairwise_lt_range hi)
  rw [h] at hs
  have hmem : m ∈ j :: rest := by
    rw [← h]
    exact List.mem_filter.2 ⟨List.mem_range.2 (lt_trans hmj (List.mem_range.1 h1)), hq2⟩
  rcases List.mem_cons.1 hmem with e | e
  · omega
  · have := (List.pairwise_cons.1 hs).1 m e
    omega

theorem range_filter_last (q : Nat → Bool) (hi k : Nat) (rest : List Nat)
    (h : ((List.range hi).filter q).reverse = k :: rest) :
    k < hi ∧ q k = true ∧ ∀ m, k < m → m < hi → q m = false := by
  have h2 : (List.range hi).filter q = rest.reverse ++ [k] := by
    have := congrArg List.reverse h
    simpa using this
  have hm : k ∈ (List.range hi).filter q := by rw [h2]; simp
  obtain ⟨g1, g2⟩ := List.mem_filter.1 hm
  refine ⟨List.mem_range.1 g1, g2, fun m hkm hmh => ?_⟩
  by_contra hq
  have hq2 : q m = true := by simpa using hq
  have hs : ((List.range hi).filter q).Pairwise (· < ·) :=
    List.Pairwise.filter _ (List.pairwise_lt_range hi)
  rw [h2] at hs
  have hmem : m ∈ rest.reverse ++ [k] := by
    rw [← h2]
    exact List.mem_filter.2 ⟨List.mem_range.2 hmh, hq2⟩
  rcases List.mem_append.1 hmem with e | e
  · have := (List.pairwise_append.1 hs).2.2 m e k (by simp)
    omega
  · simp at e
    omega

theorem tokens.scan_head (ts : Tanuki.tokens) (flags : tokenFlags) (lo hi j : Nat)
    (rest : List Nat) (h : ts.scan flags lo hi = j :: rest) :
    j < hi ∧ lo ≤ j ∧ checkTokenFlags (ts.getD j token.zero) flags = true
      ∧ ∀ m, lo ≤ m → m < j → checkTokenFlags (ts.getD m token.zero) flags = false := by
  obtain ⟨h1, h2, h3⟩ := range_filter_head _ hi j rest h
  simp only [Bool.and_eq_true, decide_eq_true_eq] at h2
  refine ⟨h1, h2.1, h2.2, fun m hlo hm => ?_⟩
  have := h3 m hm
  simpa [hlo] using this

theorem tokens.scan_last (ts : Tanuki.tokens) (flags : tokenFlags) (hi k : Nat)
    (rest : List Nat) (h : (ts.scan flags 0 hi).reverse = k :: rest) :
    k < hi ∧ checkTokenFlags (ts.getD k token.zero) flags = true
      ∧ ∀ m, k < m → m < hi → checkTokenFlags (ts.getD m token.zero) flags = false := by
  obtain ⟨h1, h2, h3⟩ := range_filter_last _ hi k rest h
  simp only [Bool.and_eq_true, decide_eq_true_eq] at h2
  refine ⟨h1, h2.2, fun m hkm hm => ?_⟩
  have := h3 m hkm hm
  simpa using this

theorem checkTokenFlags_enclosedUnknown (t : token)
    (h : checkTokenFlags t (tokenFlagsEnclosed ++ tokenFlagsUnknown) = true) :
    t.Category = tokenCategory.Unknown := by
  rcases t with ⟨c, s, e⟩
  cases c <;> cases e <;> first | rfl | exact absurd h (by simp [checkTokenFlags,
    tokenFlagsEnclosed, tokenFlagsUnknown, tokenFlag.isEnclosure, tokenFlag.categoryOk])

theorem checkTokenFlags_bracket (t : token) (h : t.Category = tokenCategory.Bracket) :
    checkTokenFlags t (tokenFlagsBracket ++ tokenFlagsIdentifier) = true := by
  rcases t with ⟨c, s, e⟩
  cases h
  cases e <;> rfl

theorem checkTokenFlags_valid (t : token) (h : t.Category ≠ tokenCategory.Invalid) :
    checkTokenFlags t tokenFlagsValid = true := by
  rcases t with ⟨c, s, e⟩
  cases c <;> cases e <;> first | rfl | exact absurd rfl h

/-- The token a search for an enclosed Unknown token returns is Unknown (the detached
token too). -/
theorem tokens.find_enclosedUnknown (ts : Tanuki.tokens) :
    (ts.deref (ts.find (tokenFlagsEnclosed ++ tokenFlagsUnknown)).1).Category
      = tokenCategory.Unknown := by
  unfold tokens.find
  split
  · rename_i i rest h
    exact checkTokenFlags_enclosedUnknown _ (tokens.scan_head ts _ _ _ _ _ h).2.2.1
  · rfl

theorem tokens.findNext_enclosedUnknown (ts : Tanuki.tokens) (p : tokenPtr) :
    (ts.deref (ts.findNext p (tokenFlagsEnclosed ++ tokenFlagsUnknown)).1).Category
      = tokenCategory.Unknown := by
  unfold tokens.findNext
  split
  · rfl
  · split
    · rename_i i j rest h
      exact checkTokenFlags_enclosedUnknown _ (tokens.scan_head ts _ _ _ _ _ h).2.2.1
    · rfl

/-- From an Unknown token `b`, the last valid token before the first Bracket or Identifier
token after `b` is not a Bracket. -/
theorem tokens.lastBeforeBracket (ts : Tanuki.tokens) (b : tokenPtr)
    (hb : (ts.deref b).Category = tokenCategory.Unknown) :
    (ts.deref (ts.findPrevious
        (ts.findNext b (tokenFlagsBracket ++ tokenFlagsIdentifier)).1 tokenFlagsValid).1).Category
      ≠ tokenCategory.Bracket := by
  cases b with
  | none => simp [tokens.findNext, tokens.findPrevious, tokens.deref, token.zero]
  | some i =>
    unfold tokens.findNext
    simp only
    split
    · rename_i j rest h
      obtain ⟨h1, h2, _, h4⟩ := tokens.scan_head ts _ _ _ _ _ h
      unfold tokens.findPrevious
      simp only
      split
      · rename_i k rest2 hk
        obtain ⟨g1, _, g3⟩ := tokens.scan_last ts _ _ _ _ hk
        have hkj : k < j := lt_of_lt_of_le g1 (min_le_left _ _)
        have hik : i ≤ k := by
          by_contra hc
          have hv := g3 i (by omega) (lt_min (by omega) (by omega))
          have hv2 := checkTokenFlags_valid (ts.getD i token.zero)
            (by simp only [tokens.deref] at hb; rw [hb]; decide)
          rw [hv2] at hv
          exact absurd hv (by decide)
        intro hc
        simp only [tokens.deref] at hc hb
        rcases Nat.eq_or_lt_of_le hik with e | e
        · subst e
          rw [hb] at hc
          exact absurd hc (by decide)
        · have := h4 k (by omega) hkj
          rw [checkTokenFlags_bracket _ hc] at this
          exact absurd this (by decide)
      · simp [tokens.deref, token.zero]
    · simp [tokens.findPrevious, tokens.deref, token.zero]

/-- The release-group pass either leaves the state as it is, or it settles on a span from a
token `b` that is Unknown to a token `e` that is not a Bracket, and its result is what the
scan of that span returns, or the ReleaseGroup built from the span when the scan finds no
keyword. -/
theorem parser.releaseGroupLoop_span (D : Deps) (p : parser) (fuel : Nat) (tokenEnd : tokenPtr) :
    parser.releaseGroupLoop D p fuel tokenEnd = p
      ∨ ∃ b e : tokenPtr, (p.tokens.deref b).Category = tokenCategory.Unknown
        ∧ (p.tokens.deref e).Category ≠ tokenCategory.Bracket
        ∧ parser.releaseGroupLoop D p fuel tokenEnd
            = (parser.releaseGroupScan D p b e (p.tokens.getList tokenFlagsValid b e)).getD
                (p.buildElement elementCategory.ReleaseGroup b e true) := by
  induction fuel generalizing tokenEnd with
  | zero => exact Or.inl rfl
  | succ n ih =>
    unfold parser.releaseGroupLoop
    simp only
    have htb : (p.tokens.deref (if (p.tokens.deref tokenEnd).empty = false then
          (p.tokens.findNext tokenEnd (tokenFlagsEnclosed ++ tokenFlagsUnknown)).1
        else (p.tokens.find (tokenFlagsEnclosed ++ tokenFlagsUnknown)).1)).Category
          = tokenCategory.Unknown := by
      split_ifs
      · exact tokens.findNext_enclosedUnknown _ _
      · exact tokens.find_enclosedUnknown _
    generalize (if (p.tokens.deref tokenEnd).empty = false then
          (p.tokens.findNext tokenEnd (tokenFlagsEnclosed ++ tokenFlagsUnknown)).1
        else (p.tokens.find (tokenFlagsEnclosed ++ tokenFlagsUnknown)).1) = tb at htb ⊢
    by_cases h2 : (p.tokens.deref tb).empty = true
    · rw [if_pos h2]
      exact Or.inl rfl
    rw [if_neg h2]
    by_cases h3 : (p.tokens.deref
        (p.tokens.findNext tb (tokenFlagsBracket ++ tokenFlagsIdentifier)).1).empty = true
    · rw [if_pos h3]
      exact Or.inl rfl
    rw [if_neg h3]
    by_cases h4 : (p.tokens.deref
        (p.tokens.findNext tb (tokenFlagsBracket ++ tokenFlagsIdentifier)).1).Category
          ≠ tokenCategory.Bracket
    · rw [if_pos h4]
      exact ih _
    rw [if_neg h4]
    split_ifs with h5
    · exact ih _
    · refine Or.inr ⟨tb, _, htb, tokens.lastBeforeBracket p.tokens tb htb, ?_⟩
      split <;> rename_i hq <;> rw [hq] <;> rfl

/-- C23, the code at the failing input: on `[` `Season` ` ` `2` `]` the release-group pass
leaves the two brackets Bracket, stores `2` as AnimeSeason and no ReleaseGroup; the tokens
it marks Invalid before the handler runs are the first and the last token inside the
brackets, which the season handler then marks Identifier.  On `[` `Foo` ` ` `OVA` ` ` `Bar`
`]` the tokens `Foo` and `Bar` end Invalid, the brackets stay Bracket, and `OVA` is stored
as AnimeType.  For every state, the pass either leaves the state as it is or works on a
span from a token `b` that is Unknown to a token `e` that is not a Bracket: these are the
two tokens `releaseGroupScan` marks Invalid when the span holds a keyword. -/
theorem release_group_keyword_marks_inner_tokens :
    ((parserSeasonInBrackets.searchForReleaseGroup Deps.sample).tokens.categories
        = [tokenCategory.Bracket, tokenCategory.Identifier, tokenCategory.Delimiter,
            tokenCategory.Identifier, tokenCategory.Bracket]
      ∧ (parserSeasonInBrackets.searchForReleaseGroup Deps.sample).elements.get
          elementCategory.AnimeSeason = ["2"]
      ∧ (parserSeasonInBrackets.searchForReleaseGroup Deps.sample).elements.get
          elementCategory.ReleaseGroup = [])
    ∧ ((parserTypeInBrackets.searchForReleaseGroup Deps.sample).tokens.categories
        = [tokenCategory.Bracket, tokenCategory.Invalid, tokenCategory.Delimiter,
            tokenCategory.Identifier, tokenCategory.Delimiter, tokenCategory.Invalid,
            tokenCategory.Bracket]
      ∧ (parserTypeInBrackets.searchForReleaseGroup Deps.sample).elements.get
          elementCategory.AnimeType = ["OVA"]
      ∧ (parserTypeInBrackets.searchForReleaseGroup Deps.sample).elements.get
          elementCategory.ReleaseGroup = [])
    ∧ ∀ (D : Deps) (p : parser), p.searchForReleaseGroup D = p
        ∨ ∃ b e : tokenPtr, (p.tokens.deref b).Category = tokenCategory.Unknown
          ∧ (p.tokens.deref e).Category ≠ tokenCategory.Bracket
          ∧ p.searchForReleaseGroup D
              = (parser.releaseGroupScan D p b e (p.tokens.getList tokenFlagsValid b e)).getD
                  (p.buildElement elementCategory.ReleaseGroup b e true) :=
  ⟨by decide, by decide, fun D p => parser.releaseGroupLoop_span D p _ _⟩

/-! ## Theorems: token categories only leave Unknown -/

theorem tokens.settles_self (ts : tokens) : tokens.settles ts ts :=
  ⟨rfl, fun _ => ⟨rfl, fun h => h⟩⟩

theorem tokens.settles_chain {a b c : tokens} (h1 : tokens.settles a b)
    (h2 : tokens.settles b c) : tokens.settles a c :=
  ⟨h2.1.trans h1.1, fun i =>
    ⟨(h2.2 i).1.trans (h1.2 i).1, fun h => (h2.2 i).2 ((h1.2 i).2 h)⟩⟩

theorem tokens.settles_setCategory (ts : tokens) (p : tokenPtr) (c : tokenCategory)
    (hc : c ≠ tokenCategory.Unknown) : tokens.settles ts (ts.setCategory p c) := by
  cases p with
  | none => exact tokens.settles_self ts
  | some i =>
    unfold tokens.setCategory
    refine ⟨List.length_modify _ _ _, fun j => ?_⟩
    simp only [List.getD_eq_getElem?_getD, List.getElem?_modify]
    by_cases hij : i = j
    · subst hij
      cases ts[i]? with
      | none => exact ⟨rfl, fun h => h⟩
      | some t =>
        simp only [if_true, Option.map_eq_map, Option.map_some', Option.getD_some, true_and]
        exact fun _ => hc
    · cases ts[j]? with
      | none => exact ⟨rfl, fun h => h⟩
      | some t =>
        simp only [hij, if_false, Option.map_eq_map, Option.map_some', Option.getD_some,
          true_and]
        exact fun h => h

theorem parser.settles_refl (p : parser) : parser.settles p p := tokens.settles_self _

theorem parser.settles_trans {p q r : parser} (h1 : parser.settles p q)
    (h2 : parser.settles q r) : parser.settles p r := tokens.settles_chain h1 h2

theorem parser.settles_elements (p : parser) (e : Elements) :
    parser.settles p ⟨p.tokens, e, p.options, p.keywordManager⟩ := tokens.settles_self _

theorem parser.settles_identifier (p : parser) (e : Elements) (a : tokenPtr) :
    parser.settles p ⟨p.tokens.setCategory a tokenCategory.Identifier, e, p.options,
      p.keywordManager⟩ :=
  tokens.settles_setCategory _ _ _ (by decide)

theorem parser.settles_identifier2 (p : parser) (e : Elements) (a b : tokenPtr) :
    parser.settles p ⟨(p.tokens.setCategory a tokenCategory.Identifier).setCategory b
      tokenCategory.Identifier, e, p.options, p.keywordManager⟩ :=
  tokens.settles_chain (tokens.settles_setCategory _ _ _ (by decide))
    (tokens.settles_setCategory _ _ _ (by decide))

theorem parser.setAnimeSeason_settles (p : parser) (a b : tokenPtr) (v : String) :
    parser.settles p (p.setAnimeSeason a b v) :=
  parser.settles_identifier2 p _ _ _

theorem parser.setAnimeSeason_twice_settles (p : parser) (a b a2 b2 : tokenPtr)
    (v v2 : String) :
    parser.settles p ((p.setAnimeSeason a b v).setAnimeSeason a2 b2 v2) :=
  parser.settles_trans (parser.setAnimeSeason_settles _ _ _ _)
    (parser.setAnimeSeason_settles _ _ _ _)

theorem parser.setAnimePart_settles (p : parser) (a b : tokenPtr) (v : String) :
    parser.settles p (p.setAnimePart a b v) :=
  parser.settles_identifier2 p _ _ _

theorem parser.setAnimePart_twice_settles (p : parser) (a b a2 b2 : tokenPtr)
    (v v2 : String) :
    parser.settles p ((p.setAnimePart a b v).setAnimePart a2 b2 v2) :=
  parser.settles_trans (parser.setAnimePart_settles _ _ _ _)
    (parser.setAnimePart_settles _ _ _ _)

theorem parser.checkAnimeSeasonKeyword_settles (D : Deps) (p : parser) (tkn : tokenPtr) :
    parser.settles p (p.checkAnimeSeasonKeyword D tkn).2 := by
  have h1 : ∀ (q : parser) (a b : tokenPtr), parser.settles q (q.seasonShortenedRange a b) := by
    intro q a b
    unfold parser.seasonShortenedRange
    simp only []
    repeat' (first | split_ifs | split)
    all_goals first
      | with_reducible exact parser.settles_refl _
      | with_reducible exact parser.setAnimeSeason_twice_settles _ _ _ _ _ _ _
  have h2 : ∀ (q : parser) (a b : tokenPtr) (f : Bool), parser.settles q (q.seasonRange a b f) := by
    intro q a b f
    unfold parser.seasonRange
    simp only []
    repeat' (first | split_ifs | split)
    all_goals first
      | with_reducible exact parser.settles_refl _
      | with_reducible exact parser.setAnimeSeason_twice_settles _ _ _ _ _ _ _
  have h3 : ∀ (q : parser) (a b : tokenPtr), parser.settles q (q.seasonNumber a b) := by
    intro q a b
    unfold parser.seasonNumber
    simp only []
    split_ifs
    · exact parser.setAnimeSeason_twice_settles _ _ _ _ _ _ _
    · exact parser.setAnimeSeason_settles _ _ _ _
  unfold parser.checkAnimeSeasonKeyword
  simp only []
  split_ifs
  · exact parser.setAnimeSeason_settles _ _ _ _
  · exact parser.settles_trans (parser.settles_trans (h1 _ _ _) (h2 _ _ _ _)) (h3 _ _ _)
  · exact parser.settles_trans (h1 _ _ _) (h2 _ _ _ _)

theorem parser.checkAnimePartKeyword_settles (D : Deps) (p : parser) (tkn : tokenPtr) :
    parser.settles p (p.checkAnimePartKeyword D tkn).2 := by
  have h2 : ∀ (q : parser) (a b : tokenPtr), parser.settles q (q.partRange a b) := by
    intro q a b
    unfold parser.partRange
    simp only []
    repeat' (first | split_ifs | split)
    all_goals first
      | with_reducible exact parser.settles_refl _
      | with_reducible exact parser.setAnimePart_twice_settles _ _ _ _ _ _ _
  have h3 : ∀ (q : parser) (a b : tokenPtr), parser.settles q (q.partNumber a b) := by
    intro q a b
    unfold parser.partNumber
    simp only []
    split_ifs
    · exact parser.setAnimePart_twice_settles _ _ _ _ _ _ _
    · exact parser.setAnimePart_settles _ _ _ _
  unfold parser.checkAnimePartKeyword
  simp only []
  split_ifs
  · exact parser.setAnimePart_settles _ _ _ _
  · exact parser.settles_trans (h2 _ _ _) (h3 _ _ _)
  · exact h2 _ _ _
theorem buildElementFold_settles (b e : tokenPtr) (keep : Bool) (l : List Nat) :
    ∀ acc : String × tokens,
      tokens.settles acc.2 (l.foldl (buildElementStep b e keep) acc).2 := by
  induction l with
  | nil => intro acc; exact tokens.settles_self _
  | cons i l ih =>
    intro acc
    rw [List.foldl_cons]
    refine tokens.settles_chain ?_ (ih _)
    unfold buildElementStep
    simp only []
    have hid : ∀ (ts : tokens) (a : tokenPtr),
        tokens.settles ts (ts.setCategory a tokenCategory.Identifier) :=
      fun ts a => tokens.settles_setCategory ts a _ (by decide)
    repeat' split_ifs
    all_goals first
      | exact tokens.settles_self _
      | exact hid acc.2 (some i)

theorem parser.buildElement_settles (p : parser) (cat : elementCategory) (b e : tokenPtr)
    (keep : Bool) : parser.settles p (p.buildElement cat b e keep) := by
  have h := buildElementFold_settles b e keep
    (p.tokens.getList tokenFlagsMinusOne b e) ("", p.tokens)
  unfold parser.buildElement
  simp only []
  split_ifs <;> exact h

/-- A loop keeps settling the token store when each iteration does. -/
theorem parser.foldl_settles {α : Type} (f : parser → α → parser)
    (hf : ∀ q i, parser.settles q (f q i)) (l : List α) (p : parser) :
    parser.settles p (l.foldl f p) := by
  induction l generalizing p with
  | nil => exact parser.settles_refl _
  | cons i rest ih => exact parser.settles_trans (hf p i) (ih (f p i))

theorem parser.searchForShortenedRange_settles (D : Deps) (p : parser) :
    parser.settles p (p.searchForShortenedRange D) := by
  unfold parser.searchForShortenedRange
  apply parser.foldl_settles
  intro q i
  simp only []
  split_ifs
  · exact parser.checkAnimeSeasonKeyword_settles D q _
  · exact parser.settles_refl _

theorem parser.storeKeyword_settles (p : parser) (tkn : tokenPtr) (kd : keyword)
    (cat : elementCategory) (w : String) : parser.settles p (p.storeKeyword tkn kd cat w) := by
  unfold parser.storeKeyword
  simp only []
  split_ifs
  · exact parser.settles_identifier p _ _
  · exact parser.settles_elements p _
  · exact parser.settles_refl _

theorem parser.searchForKeywords_settles (D : Deps) (hD : D.settles) (p : parser) :
    parser.settles p (p.searchForKeywords D) := by
  unfold parser.searchForKeywords
  apply parser.foldl_settles
  intro q i
  unfold parser.searchForKeywordsStep
  simp only []
  split_ifs
  · exact parser.settles_refl _
  · exact parser.settles_refl _
  · rcases parser.keywordFound_cases D q (some i) (goTrim (q.tokens.deref (some i)).Content [' ', '-'])
      (q.keywordManager.findWithoutCategory (keywordManager.normalize D
        (goTrim (q.tokens.deref (some i)).Content [' ', '-']))).1 with h | h | h | ⟨_, cat, h⟩ | ⟨_, v, h⟩
    · rw [h]; exact parser.settles_refl _
    · rw [h]; exact parser.checkAnimeSeasonKeyword_settles D q _
    · rw [h]; exact parser.checkAnimePartKeyword_settles D q _
    · rw [h]; exact hD.1 _ _ _
    · rw [h]; exact parser.storeKeyword_settles _ _ _ _ _
  · unfold parser.keywordNotFound
    split_ifs <;> exact parser.storeKeyword_settles _ _ _ _ _

theorem parser.searchForIsolatedNumbers_settles (D : Deps) (p : parser) :
    parser.settles p (p.searchForIsolatedNumbers D) := by
  unfold parser.searchForIsolatedNumbers
  apply parser.foldl_settles
  intro q i
  unfold parser.searchForIsolatedNumbersStep
  simp only []
  split_ifs
  all_goals first
    | with_reducible exact parser.settles_refl _
    | with_reducible exact parser.settles_identifier _ _ _

theorem parser.searchForEpisodeNumberAtTheStart_settles (p : parser) :
    parser.settles p p.searchForEpisodeNumberAtTheStart := by
  unfold parser.searchForEpisodeNumberAtTheStart
  apply parser.foldl_settles
  intro q i
  unfold parser.searchForEpisodeNumberAtTheStartStep
  simp only []
  split_ifs
  all_goals first
    | with_reducible exact parser.settles_refl _
    | with_reducible exact parser.settles_identifier _ _ _

theorem parser.searchForEpisodeNumber_settles (D : Deps) (hD : D.settles) (p : parser) :
    parser.settles p (p.searchForEpisodeNumber D) := by
  obtain ⟨_, k1, k2, k3, k4, k5⟩ := hD
  unfold parser.searchForEpisodeNumber
  simp only []
  have h0 : ∀ b : Bool, parser.settles p
      ⟨p.tokens, p.elements.setCheckAltNumber b, p.options, p.keywordManager⟩ :=
    fun _ => parser.settles_refl _
  have h1 := parser.settles_trans (h0 (p.elements.contains elementCategory.EpisodeNumber))
    (k1 (p.tokens.getListFlag tokenFlagsUnknown) _)
  split_ifs
  · exact parser.settles_refl _
  · exact h1
  · exact h1
  · exact h1
  · exact parser.settles_trans h1 (k2 _ _)
  · exact parser.settles_trans (parser.settles_trans h1 (k2 _ _)) (k3 _ _)
  · exact parser.settles_trans (parser.settles_trans (parser.settles_trans h1 (k2 _ _)) (k3 _ _))
      (k4 _ _)
  · exact parser.settles_trans (parser.settles_trans (parser.settles_trans
      (parser.settles_trans h1 (k2 _ _)) (k3 _ _)) (k4 _ _)) (k5 _ _)

theorem parser.searchForAnimeTitle_settles (D : Deps) (p : parser) :
    parser.settles p (p.searchForAnimeTitle D) := by
  have h1 : ∀ (q : parser) (b : tokenPtr) (f : Bool),
      parser.settles q (q.titleToLastToken b f) := by
    intro q b f
    unfold parser.titleToLastToken
    simp only []
    split_ifs
    · exact parser.buildElement_settles _ _ _ _ _
    · exact parser.settles_refl _
    · exact parser.settles_refl _
  have h2 : ∀ (q : parser) (b e : tokenPtr) (f : Bool),
      parser.settles q (q.titleBuild b e f) := by
    intro q b e f
    unfold parser.titleBuild
    simp only []
    split_ifs
    · exact parser.settles_refl _
    · exact parser.buildElement_settles _ _ _ _ _
    · exact parser.buildElement_settles _ _ _ _ _
  unfold parser.searchForAnimeTitle
  simp only []
  by_cases g : (p.tokens.deref
      (if (p.tokens.find (tokenFlagsNotEnclosed ++ tokenFlagsUnknown)).2 = false then
        titleBeginLoop D p.tokens (p.tokens.length + 1) (p.tokens.get 0).1 (p.tokens.get 0).2 false
      else (p.tokens.find (tokenFlagsNotEnclosed ++ tokenFlagsUnknown)).1)).empty = true
  · rw [if_pos g]
    exact parser.settles_refl _
  · rw [if_neg g]
    exact parser.settles_trans (h1 _ _ _) (h2 _ _ _ _)

theorem parser.episodeTitleLoop_settles (p : parser) (fuel : Nat) (tokenEnd : tokenPtr) :
    parser.settles p (p.episodeTitleLoop fuel tokenEnd) := by
  induction fuel generalizing tokenEnd with
  | zero => exact parser.settles_refl _
  | succ n ih =>
    unfold parser.episodeTitleLoop
    simp only []
    repeat' (first | split_ifs | split)
    all_goals first
      | with_reducible exact parser.settles_refl _
      | with_reducible exact ih _
      | with_reducible exact parser.buildElement_settles _ _ _ _ _

theorem parser.searchForEpisodeTitle_settles (p : parser) :
    parser.settles p p.searchForEpisodeTitle :=
  parser.episodeTitleLoop_settles p _ _
theorem parser.releaseGroupScan_settles (D : Deps) (hD : D.settles) (p : parser)
    (b e : tokenPtr) (l : List Nat) (q : parser)
    (h : parser.releaseGroupScan D p b e l = some q) : parser.settles p q := by
  induction l with
  | nil => simp [parser.releaseGroupScan] at h
  | cons i rest ih =>
    have h0 : parser.settles p
        ⟨(p.tokens.setCategory b tokenCategory.Invalid).setCategory e tokenCategory.Invalid,
          p.elements, p.options, p.keywordManager⟩ :=
      tokens.settles_chain (tokens.settles_setCategory _ _ _ (by decide))
        (tokens.settles_setCategory _ _ _ (by decide))
    unfold parser.releaseGroupScan at h
    simp only [] at h
    split_ifs at h
    · rw [← Option.some.inj h]
      exact parser.settles_trans h0 (parser.checkAnimeSeasonKeyword_settles D _ _)
    · rw [← Option.some.inj h]
      exact parser.settles_trans h0 (parser.checkAnimePartKeyword_settles D _ _)
    · rw [← Option.some.inj h]
      exact parser.settles_trans h0 (parser.searchForEpisodeNumber_settles D hD _)
    · rw [← Option.some.inj h]
      exact parser.settles_trans h0 (parser.settles_identifier _ _ _)
    · exact ih h

theorem parser.releaseGroupLoop_settles (D : Deps) (hD : D.settles) (p : parser) (fuel : Nat)
    (tokenEnd : tokenPtr) : parser.settles p (parser.releaseGroupLoop D p fuel tokenEnd) := by
  induction fuel generalizing tokenEnd with
  | zero => exact parser.settles_refl _
  | succ n ih =>
    unfold parser.releaseGroupLoop
    simp only []
    repeat' (first | split_ifs | split)
    all_goals first
      | with_reducible exact parser.settles_refl _
      | with_reducible exact ih _
      | with_reducible exact parser.buildElement_settles _ _ _ _ _
      | (rename_i q hq; exact parser.releaseGroupScan_settles D hD _ _ _ _ q hq)

theorem parser.searchForReleaseGroup_settles (D : Deps) (hD : D.settles) (p : parser) :
    parser.settles p (p.searchForReleaseGroup D) :=
  parser.releaseGroupLoop_settles D hD p _ _

theorem parser.postProcessing_tokens (D : Deps) (p q : parser)
    (h : p.postProcessing D = Except.ok q) : q.tokens = p.tokens := by
  have b1 : ∀ p q : parser, p.postProcessing1 = Except.ok q → q.tokens = p.tokens := by
    intro p q h
    unfold parser.postProcessing1 at h
    split_ifs at h
    · obtain ⟨t, _, h⟩ := Except.bind_eq_ok h
      split at h <;> (have hq := Except.pure_eq_ok h; subst hq; rfl)
    · have := Except.pure_eq_ok h; subst this; rfl
  have b2 : ∀ p q : parser, p.postProcessing2 = Except.ok q → q.tokens = p.tokens := by
    intro p q h
    unfold parser.postProcessing2 at h
    split_ifs at h
    · obtain ⟨t, _, h⟩ := Except.bind_eq_ok h
      split at h <;> (have hq := Except.pure_eq_ok h; subst hq; rfl)
    · have := Except.pure_eq_ok h; subst this; rfl
  have b3 : ∀ p q : parser, p.postProcessing3 D = Except.ok q → q.tokens = p.tokens := by
    intro p q h
    unfold parser.postProcessing3 at h
    split_ifs at h
    · obtain ⟨t, _, h⟩ := Except.bind_eq_ok h
      have := Except.pure_eq_ok h
      subst this
      exact (postProcessingTypes_fold D t _ p).2.2.2
    · have := Except.pure_eq_ok h; subst this; rfl
  have b4 : ∀ p q : parser, p.postProcessing4 = Except.ok q → q.tokens = p.tokens := by
    intro p q h
    unfold parser.postProcessing4 at h
    split_ifs at h
    · obtain ⟨t, _, h⟩ := Except.bind_eq_ok h
      split at h
      · have := Except.pure_eq_ok h; subst this; rfl
      · split at h
        · simp only [] at h
          split_ifs at h <;> (have hq := Except.pure_eq_ok h; subst hq; rfl)
        · have := Except.pure_eq_ok h; subst this; rfl
    · have := Except.pure_eq_ok h; subst this; rfl
  have b5 : ∀ p q : parser, p.postProcessing5 = Except.ok q → q.tokens = p.tokens := by
    intro p q h
    unfold parser.postProcessing5 at h
    split_ifs at h
    · obtain ⟨t, _, h⟩ := Except.bind_eq_ok h
      split at h <;> (have hq := Except.pure_eq_ok h; subst hq; rfl)
    · have := Except.pure_eq_ok h; subst this; rfl
  unfold parser.postProcessing at h
  obtain ⟨p1, h1, h⟩ := Except.bind_eq_ok h
  obtain ⟨p2, h2, h⟩ := Except.bind_eq_ok h
  obtain ⟨p3, h3, h⟩ := Except.bind_eq_ok h
  obtain ⟨p4, h4, h⟩ := Except.bind_eq_ok h
  rw [b5 _ _ h, b4 _ _ h4, b3 _ _ h3, b2 _ _ h2, b1 _ _ h1]

theorem countP_le_of_getD (P : token → Bool) :
    ∀ (ts ts2 : tokens), ts2.length = ts.length →
      (∀ i, P (ts2.getD i token.zero) = true → P (ts.getD i token.zero) = true) →
      ts2.countP P ≤ ts.countP P := by
  intro ts
  induction ts with
  | nil =>
    intro ts2 hl _
    have : ts2 = [] := List.length_eq_zero.1 hl
    subst this
    exact le_refl _
  | cons t ts ih =>
    intro ts2 hl h
    cases ts2 with
    | nil => simp at hl
    | cons t2 ts2 =>
      have h0 := h 0
      simp only [List.getD_cons_zero] at h0
      have hrest := ih ts2 (by simpa using hl) (fun i => by simpa using h (i + 1))
      simp only [List.countP_cons]
      by_cases hp : P t2 = true
      · rw [if_pos hp, if_pos (h0 hp)]; omega
      · rw [if_neg hp]
        split_ifs <;> omega

theorem tokens.unknownCount_le_of_settles {ts ts2 : tokens} (h : tokens.settles ts ts2) :
    ts2.unknownCount ≤ ts.unknownCount := by
  unfold tokens.unknownCount
  apply countP_le_of_getD _ _ _ h.1
  intro i hi
  simp only [decide_eq_true_eq] at hi ⊢
  by_contra hne
  exact (h.2 i).2 hne hi

theorem tokens.keepsSettled_of_settles {ts ts2 : tokens} (h : tokens.settles ts ts2) :
    tokens.keepsSettled ts ts2 :=
  ⟨le_of_eq h.1.symm, fun i _ hc => ⟨(h.2 i).2 hc, (h.2 i).1⟩⟩
theorem tokens.keepsSettled_trans {a b c : tokens} (h1 : tokens.keepsSettled a b)
    (h2 : tokens.keepsSettled b c) : tokens.keepsSettled a c :=
  ⟨le_trans h1.1 h2.1, fun i hi hc =>
    have hb := h1.2 i hi hc
    have hcc := h2.2 i (lt_of_lt_of_le hi h1.1) hb.1
    ⟨hcc.1, hcc.2.trans hb.2⟩⟩

theorem tokens.getListFlag_unknown (ts : tokens) (i : Nat)
    (h : i ∈ ts.getListFlag tokenFlagsUnknown) :
    (ts.getD i token.zero).Category = tokenCategory.Unknown := by
  unfold tokens.getListFlag tokens.scan at h
  have h2 := (List.mem_filter.1 h).2
  simp only [Bool.and_eq_true] at h2
  have h3 := h2.2
  simp [checkTokenFlags, tokenFlagsUnknown, tokenFlag.isEnclosure, tokenFlag.categoryOk] at h3
  rw [List.getD_eq_getElem?_getD]
  exact h3

theorem parser.preProcessing_eq_foldl (p : parser) :
    p.preProcessing = (p.tokens.getListFlag tokenFlagsUnknown).foldl parser.preProcessingStep p :=
  rfl

/-- The loop of `preProcessing` over Unknown tokens of the store `ts0`: the categories of the
tokens of `ts0` stay as they are, and so do the contents of those that are not Unknown. -/
theorem preProcessing_fold (ts0 : tokens) (l : List Nat)
    (hl : ∀ i ∈ l, (ts0.getD i token.zero).Category = tokenCategory.Unknown) :
    ∀ p : parser,
      (ts0.length ≤ p.tokens.length ∧ ∀ j, j < ts0.length →
        (p.tokens.getD j token.zero).Category = (ts0.getD j token.zero).Category
        ∧ ((ts0.getD j token.zero).Category ≠ tokenCategory.Unknown →
            (p.tokens.getD j token.zero).Content = (ts0.getD j token.zero).Content)) →
      (ts0.length ≤ (l.foldl parser.preProcessingStep p).tokens.length
        ∧ ∀ j, j < ts0.length →
          ((l.foldl parser.preProcessingStep p).tokens.getD j token.zero).Category
            = (ts0.getD j token.zero).Category
          ∧ ((ts0.getD j token.zero).Category ≠ tokenCategory.Unknown →
              ((l.foldl parser.preProcessingStep p).tokens.getD j token.zero).Content
                = (ts0.getD j token.zero).Content)) := by
  induction l with
  | nil => intro p h; exact h
  | cons i l ih =>
    intro p h
    rw [List.foldl_cons]
    apply ih (fun k hk => hl k (List.mem_cons_of_mem _ hk))
    have hi := hl i (List.mem_cons_self _ _)
    unfold parser.preProcessingStep
    split
    · rename_i a b _
      split_ifs
      · obtain ⟨h1, h2⟩ := h
        have hlen : (p.tokens.setContent (some i) a).length = p.tokens.length := by
          unfold tokens.setContent
          exact List.length_modify _ _ _
        refine ⟨?_, fun j hj => ?_⟩
        · show ts0.length ≤ ((p.tokens.setContent (some i) a).addToken tokenFlagsUnknown b true).length
          unfold tokens.addToken
          simp only [List.length_append, hlen, List.length_singleton]
          omega
        · show (((p.tokens.setContent (some i) a).addToken tokenFlagsUnknown b true).getD j
              token.zero).Category = _ ∧ (_ → (((p.tokens.setContent (some i) a).addToken
              tokenFlagsUnknown b true).getD j token.zero).Content = _)
          have hj2 : j < (p.tokens.setContent (some i) a).length := by rw [hlen]; omega
          have e1 : ((p.tokens.setContent (some i) a).addToken tokenFlagsUnknown b true).getD j
              token.zero = (p.tokens.setContent (some i) a).getD j token.zero := by
            unfold tokens.addToken
            simp only [List.getD_eq_getElem?_getD]
            rw [List.getElem?_append_left hj2]
          rw [e1]
          obtain ⟨g1, g2⟩ := h2 j hj
          unfold tokens.setContent
          simp only [List.getD_eq_getElem?_getD, List.getElem?_modify] at g1 g2 ⊢
          by_cases hij : i = j
          · subst hij
            simp only [List.getD_eq_getElem?_getD] at hi
            cases hg : p.tokens[i]? with
            | none =>
              rw [hg] at g1 g2
              exact ⟨g1, g2⟩
            | some t =>
              rw [hg] at g1 g2
              simp only [if_true, Option.map_eq_map, Option.map_some', Option.getD_some] at g1 g2 ⊢
              exact ⟨g1, fun hne => absurd hi hne⟩
          · cases hg : p.tokens[j]? with
            | none =>
              rw [hg] at g1 g2
              exact ⟨g1, g2⟩
            | some t =>
              rw [hg] at g1 g2
              simp only [hij, if_false, Option.map_eq_map, Option.map_some', Option.getD_some]
                at g1 g2 ⊢
              exact ⟨g1, g2⟩
      · exact h
    · exact h

theorem parser.preProcessing_keepsSettled (p : parser) :
    tokens.keepsSettled p.tokens p.preProcessing.tokens := by
  have h := preProcessing_fold p.tokens (p.tokens.getListFlag tokenFlagsUnknown)
    (fun i hi => tokens.getListFlag_unknown _ i hi) p
    ⟨le_refl _, fun j _ => ⟨rfl, fun _ => rfl⟩⟩
  refine ⟨by rw [parser.preProcessing_eq_foldl]; exact h.1, fun i hi hc => ?_⟩
  obtain ⟨g1, g2⟩ := h.2 i hi
  rw [parser.preProcessing_eq_foldl]
  exact ⟨by rw [g1]; exact hc, g2 hc⟩
theorem Deps.sample_settles : Deps.sample.settles :=
  ⟨fun _ _ q => parser.settles_refl q, fun _ q => parser.settles_refl q,
   fun _ q => parser.settles_refl q, fun _ q => parser.settles_refl q,
   fun _ q => parser.settles_refl q, fun _ q => parser.settles_refl q⟩

/-- C24, the claim as stated fails: on the single Unknown token `1+OVA` the pass
`preProcessing` leaves two Unknown tokens, `1` and `OVA`. -/
theorem preProcessing_unknown_count_counterexample :
    (parser.ofTokens [(tokenCategory.Unknown, "1+OVA")]).tokens.unknownCount = 1
    ∧ (parser.ofTokens [(tokenCategory.Unknown, "1+OVA")]).preProcessing.tokens.unknownCount = 2
    ∧ (parser.ofTokens [(tokenCategory.Unknown, "1+OVA")]).preProcessing.tokens
        = [⟨tokenCategory.Unknown, "1", false⟩, ⟨tokenCategory.Unknown, "OVA", true⟩] := by
  decide

/-- C24, amended: when the routines taken as parameters settle the token store, every pass
other than `preProcessing` leaves the number of tokens as it is and does not increase the
number of Unknown tokens; `postProcessing`, when it returns, leaves the token store as it
is. -/
theorem unknown_count_not_increased (D : Deps) (hD : D.settles) (p : parser) :
    ((p.searchForShortenedRange D).tokens.length = p.tokens.length
      ∧ (p.searchForShortenedRange D).tokens.unknownCount ≤ p.tokens.unknownCount)
    ∧ ((p.searchForKeywords D).tokens.length = p.tokens.length
      ∧ (p.searchForKeywords D).tokens.unknownCount ≤ p.tokens.unknownCount)
    ∧ ((p.searchForIsolatedNumbers D).tokens.length = p.tokens.length
      ∧ (p.searchForIsolatedNumbers D).tokens.unknownCount ≤ p.tokens.unknownCount)
    ∧ ((p.searchForEpisodeNumber D).tokens.length = p.tokens.length
      ∧ (p.searchForEpisodeNumber D).tokens.unknownCount ≤ p.tokens.unknownCount)
    ∧ (p.searchForEpisodeNumberAtTheStart.tokens.length = p.tokens.length
      ∧ p.searchForEpisodeNumberAtTheStart.tokens.unknownCount ≤ p.tokens.unknownCount)
    ∧ ((p.searchForAnimeTitle D).tokens.length = p.tokens.length
      ∧ (p.searchForAnimeTitle D).tokens.unknownCount ≤ p.tokens.unknownCount)
    ∧ ((p.searchForReleaseGroup D).tokens.length = p.tokens.length
      ∧ (p.searchForReleaseGroup D).tokens.unknownCount ≤ p.tokens.unknownCount)
    ∧ (p.searchForEpisodeTitle.tokens.length = p.tokens.length
      ∧ p.searchForEpisodeTitle.tokens.unknownCount ≤ p.tokens.unknownCount)
    ∧ ∀ q, p.postProcessing D = Except.ok q → q.tokens = p.tokens := by
  have key : ∀ q : parser, parser.settles p q →
      q.tokens.length = p.tokens.length ∧ q.tokens.unknownCount ≤ p.tokens.unknownCount :=
    fun q h => ⟨h.1, tokens.unknownCount_le_of_settles h⟩
  exact ⟨key _ (parser.searchForShortenedRange_settles D p),
    key _ (parser.searchForKeywords_settles D hD p),
    key _ (parser.searchForIsolatedNumbers_settles D p),
    key _ (parser.searchForEpisodeNumber_settles D hD p),
    key _ (parser.searchForEpisodeNumberAtTheStart_settles p),
    key _ (parser.searchForAnimeTitle_settles D p),
    key _ (parser.searchForReleaseGroup_settles D hD p),
    key _ (parser.searchForEpisodeTitle_settles p),
    fun q h => parser.postProcessing_tokens D p q h⟩

theorem unknown_count_not_increased_witness :
    Deps.sample.settles
    ∧ (parserTypeInBrackets.searchForReleaseGroup Deps.sample).tokens.unknownCount
        ≤ parserTypeInBrackets.tokens.unknownCount
    ∧ parserTypeInBrackets.tokens.unknownCount = 3
    ∧ (parserTypeInBrackets.searchForReleaseGroup Deps.sample).tokens.unknownCount = 0 :=
  ⟨Deps.sample_settles,
    (unknown_count_not_increased Deps.sample Deps.sample_settles
      parserTypeInBrackets).2.2.2.2.2.2.1.2,
    by decide, by decide⟩

/-- The passes of `parse` before `postProcessing` keep every settled token settled. -/
theorem parser.parsePasses_keepsSettled (D : Deps) (hD : D.settles) (p : parser) :
    tokens.keepsSettled p.tokens (p.parsePasses D).tokens := by
  have k : ∀ {a b : parser}, parser.settles a b → tokens.keepsSettled a.tokens b.tokens :=
    fun h => tokens.keepsSettled_of_settles h
  have e5 : ∀ q : parser, parser.settles q (q.episodeNumberPass D) := by
    intro q
    unfold parser.episodeNumberPass
    split_ifs
    · exact parser.searchForEpisodeNumber_settles D hD q
    · exact parser.settles_refl q
  have e8 : ∀ q : parser, parser.settles q (q.releaseGroupPass D) := by
    intro q
    unfold parser.releaseGroupPass
    split_ifs
    · exact parser.searchForReleaseGroup_settles D hD q
    · exact parser.settles_refl q
  have e9 : ∀ q : parser, parser.settles q q.episodeTitlePass := by
    intro q
    unfold parser.episodeTitlePass
    split_ifs
    · exact parser.searchForEpisodeTitle_settles q
    · exact parser.settles_refl q
  unfold parser.parsePasses
  simp only []
  exact tokens.keepsSettled_trans (parser.preProcessing_keepsSettled p)
    (k (parser.settles_trans (parser.searchForShortenedRange_settles D _)
      (parser.settles_trans (parser.searchForKeywords_settles D hD _)
      (parser.settles_trans (parser.searchForIsolatedNumbers_settles D _)
      (parser.settles_trans (e5 _)
      (parser.settles_trans (parser.searchForEpisodeNumberAtTheStart_settles _)
      (parser.settles_trans (parser.searchForAnimeTitle_settles D _)
      (parser.settles_trans (e8 _) (e9 _)))))))))

/-- C25: token categories only move away from Unknown.  When the routines taken as
parameters settle the token store, then for every pass, every handler, `setAnimeSeason`,
`setAnimePart`, `buildElement` and the whole of `parse`, every token of the store that is
not Unknown before is not Unknown after and has the content it had. -/
theorem categories_only_leave_unknown (D : Deps) (hD : D.settles) (p : parser) :
    tokens.keepsSettled p.tokens p.preProcessing.tokens
    ∧ tokens.keepsSettled p.tokens (p.searchForShortenedRange D).tokens
    ∧ tokens.keepsSettled p.tokens (p.searchForKeywords D).tokens
    ∧ tokens.keepsSettled p.tokens (p.searchForIsolatedNumbers D).tokens
    ∧ tokens.keepsSettled p.tokens (p.searchForEpisodeNumber D).tokens
    ∧ tokens.keepsSettled p.tokens p.searchForEpisodeNumberAtTheStart.tokens
    ∧ tokens.keepsSettled p.tokens (p.searchForAnimeTitle D).tokens
    ∧ tokens.keepsSettled p.tokens (p.searchForReleaseGroup D).tokens
    ∧ tokens.keepsSettled p.tokens p.searchForEpisodeTitle.tokens
    ∧ (∀ q, p.postProcessing D = Except.ok q → tokens.keepsSettled p.tokens q.tokens)
    ∧ (∀ tkn, tokens.keepsSettled p.tokens (p.checkAnimeSeasonKeyword D tkn).2.tokens)
    ∧ (∀ tkn, tokens.keepsSettled p.tokens (p.checkAnimePartKeyword D tkn).2.tokens)
    ∧ (∀ a b v, tokens.keepsSettled p.tokens (p.setAnimeSeason a b v).tokens)
    ∧ (∀ a b v, tokens.keepsSettled p.tokens (p.setAnimePart a b v).tokens)
    ∧ (∀ cat b e keep, tokens.keepsSettled p.tokens (p.buildElement cat b e keep).tokens)
    ∧ ∀ q, p.parse D = Except.ok q → tokens.keepsSettled p.tokens q.tokens := by
  have k : ∀ {a b : parser}, parser.settles a b → tokens.keepsSettled a.tokens b.tokens :=
    fun h => tokens.keepsSettled_of_settles h
  refine ⟨parser.preProcessing_keepsSettled p,
    k (parser.searchForShortenedRange_settles D p),
    k (parser.searchForKeywords_settles D hD p),
    k (parser.searchForIsolatedNumbers_settles D p),
    k (parser.searchForEpisodeNumber_settles D hD p),
    k (parser.searchForEpisodeNumberAtTheStart_settles p),
    k (parser.searchForAnimeTitle_settles D p),
    k (parser.searchForReleaseGroup_settles D hD p),
    k (parser.searchForEpisodeTitle_settles p),
    ?_,
    fun tkn => k (parser.checkAnimeSeasonKeyword_settles D p tkn),
    fun tkn => k (parser.checkAnimePartKeyword_settles D p tkn),
    fun a b v => k (parser.setAnimeSeason_settles p a b v),
    fun a b v => k (parser.setAnimePart_settles p a b v),
    fun cat b e keep => k (parser.buildElement_settles p cat b e keep),
    ?_⟩
  · intro q h
    rw [parser.postProcessing_tokens D p q h]
    exact k (parser.settles_refl p)
  · intro q h
    unfold parser.parse at h
    rw [parser.postProcessing_tokens D _ q h]
    exact parser.parsePasses_keepsSettled D hD p

theorem categories_only_leave_unknown_witness :
    Deps.sample.settles
    ∧ tokens.keepsSettled parserTypeInBrackets.tokens
        (parserTypeInBrackets.searchForReleaseGroup Deps.sample).tokens
    ∧ (∀ q, (parser.new releaseGroupTokens Options.default).parse Deps.sample = Except.ok q →
        tokens.keepsSettled releaseGroupTokens q.tokens)
    ∧ ((parser.new releaseGroupTokens Options.default).parse Deps.sample).toOption.map
        (fun q => q.tokens.categories)
        = some [tokenCategory.Identifier, tokenCategory.Delimiter, tokenCategory.Identifier,
            tokenCategory.Delimiter, tokenCategory.Bracket, tokenCategory.Identifier,
            tokenCategory.Bracket] :=
  ⟨Deps.sample_settles,
    (categories_only_leave_unknown Deps.sample Deps.sample_settles
      parserTypeInBrackets).2.2.2.2.2.2.2.1,
    (categories_only_leave_unknown Deps.sample Deps.sample_settles
      (parser.new releaseGroupTokens Options.default)).2.2.2.2.2.2.2.2.2.2.2.2.2.2.2,
    by decide⟩

/-! ## Theorems: peek -/

theorem goIndexFrom_spec (sub : List Char) : ∀ (cs : List Char) (pos : Nat) (r : Int),
    goIndexFrom sub cs pos = r → r ≠ -1 →
    ∃ pre post, cs = pre ++ sub ++ post ∧ r = ((pos + (pre.map charBytes).sum : Nat) : Int) := by
  intro cs
  induction cs with
  | nil =>
    intro pos r h hr
    unfold goIndexFrom at h
    split_ifs at h with hs
    · exact ⟨[], [], by simp [hs], by simpa using h.symm⟩
    · exact absurd h.symm hr
  | cons c cs ih =>
    intro pos r h hr
    unfold goIndexFrom at h
    split_ifs at h with hp
    · obtain ⟨t, ht⟩ := List.isPrefixOf_iff_prefix.1 hp
      exact ⟨[], t, by simpa using ht.symm, by simpa using h.symm⟩
    · obtain ⟨pre, post, e1, e2⟩ := ih _ _ h hr
      refine ⟨c :: pre, post, by rw [e1]; rfl, ?_⟩
      rw [e2]
      simp only [List.map_cons, List.sum_cons]
      push_cast
      ring

theorem bytes_append (a b : List Char) :
    ((a ++ b).map charBytes).sum = (a.map charBytes).sum + (b.map charBytes).sum := by
  simp

theorem bytes_pos (a : List Char) (h : (a.map charBytes).sum = 0) : a = [] := by
  cases a with
  | nil => rfl
  | cons c cs =>
    have : 1 ≤ charBytes c := by unfold charBytes; split_ifs <;> omega
    simp only [List.map_cons, List.sum_cons] at h
    omega

/-- Of two prefixes of one text, the one with no more bytes is a prefix of the other. -/
theorem prefix_of_bytes_le {u v w : List Char} (hu : u <+: w) (hv : v <+: w)
    (h : (u.map charBytes).sum ≤ (v.map charBytes).sum) : u <+: v := by
  rcases List.prefix_or_prefix_of_prefix hu hv with g | g
  · exact g
  · obtain ⟨t, ht⟩ := g
    rw [← ht, bytes_append] at h
    have : t = [] := bytes_pos t (by omega)
    subst this
    rw [List.append_nil] at ht
    rw [ht]

/-- A range that lies inside another range of the same text holds a part of its text. -/
theorem infix_of_nested (word : String) (s1 s2 : indexSet) (k1 k2 : String)
    (h1 : rangeHolds word s1 k1) (h2 : rangeHolds word s2 k2)
    (hb : s1.beginPos ≤ s2.beginPos) (he : s2.endPos ≤ s1.endPos) : k2.data <:+: k1.data := by
  obtain ⟨pre1, post1, w1, b1, e1⟩ := h1
  obtain ⟨pre2, post2, w2, b2, e2⟩ := h2
  have hp1 : pre1 <+: word.data := ⟨k1.data ++ post1, by rw [w1, List.append_assoc]⟩
  have hp2 : pre2 <+: word.data := ⟨k2.data ++ post2, by rw [w2, List.append_assoc]⟩
  have hq1 : pre1 ++ k1.data <+: word.data := ⟨post1, w1.symm⟩
  have hq2 : pre2 ++ k2.data <+: word.data := ⟨post2, w2.symm⟩
  have g1 : (pre1.map charBytes).sum ≤ (pre2.map charBytes).sum := by
    rw [b1, b2] at hb
    exact_mod_cast hb
  have g2 : ((pre2 ++ k2.data).map charBytes).sum ≤ ((pre1 ++ k1.data).map charBytes).sum := by
    rw [bytes_append, bytes_append]
    rw [e1, e2, b1, b2] at he
    unfold goLen at he
    exact_mod_cast he
  obtain ⟨d, hd⟩ := prefix_of_bytes_le hp1 hp2 g1
  obtain ⟨t, ht⟩ := prefix_of_bytes_le hq2 hq1 g2
  rw [← hd, List.append_assoc, List.append_assoc] at ht
  have := List.append_cancel_left ht
  exact ⟨d, t, by rw [← this, List.append_assoc]⟩
theorem peekRange_some (word kw : String) (s : indexSet) (h : peekRange word kw = some s) :
    rangeHolds word s kw ∧ 0 ≤ s.beginPos := by
  unfold peekRange at h
  split_ifs at h with hne
  have hs := Option.some.inj h
  obtain ⟨pre, post, e1, e2⟩ := goIndexFrom_spec kw.data word.data 0 (goIndex word kw) rfl hne
  rw [← hs]
  simp only [Nat.zero_add] at e2
  refine ⟨⟨pre, post, e1, e2, rfl⟩, ?_⟩
  show 0 ≤ goIndex word kw
  rw [e2]
  exact Int.natCast_nonneg _

theorem peek_inner (word : String) (c : elementCategory) (kws : List String) :
    ∀ acc : Elements × indexSets,
      (kws.foldl (fun acc kw =>
        let keywordbeginPos := goIndex word kw
        if keywordbeginPos ≠ -1 then
          let keywordendPos := keywordbeginPos + (goLen kw : Int)
          (acc.1.insert c kw, acc.2 ++ [⟨keywordbeginPos, keywordendPos⟩])
        else acc) acc).2 = acc.2 ++ kws.filterMap (peekRange word) := by
  induction kws with
  | nil => intro acc; simp
  | cons kw kws ih =>
    intro acc
    rw [List.foldl_cons, ih]
    unfold peekRange
    by_cases h : goIndex word kw ≠ -1
    · simp [h]
    · simp [h]

theorem peek_outer (word : String) (entries : List (elementCategory × List String)) :
    ∀ acc : Elements × indexSets,
      (entries.foldl (fun acc ck =>
        ck.2.foldl (fun acc kw =>
          let keywordbeginPos := goIndex word kw
          if keywordbeginPos ≠ -1 then
            let keywordendPos := keywordbeginPos + (goLen kw : Int)
            (acc.1.insert ck.1 kw, acc.2 ++ [⟨keywordbeginPos, keywordendPos⟩])
          else acc) acc) acc).2
        = acc.2 ++ entries.flatMap (fun ck => ck.2.filterMap (peekRange word)) := by
  induction entries with
  | nil => intro acc; simp
  | cons ck entries ih =>
    intro acc
    rw [List.foldl_cons, ih, peek_inner]
    simp

/-- The ranges that `peek` returns are a sorted rearrangement of the ranges of the canonical
forms found in the word. -/
theorem peek_ranges (kwm : keywordManager) (entries : List (elementCategory × List String))
    (hperm : entries.Perm peekEntries) (sortFn : indexSets → indexSets)
    (hsort : sortsByLess sortFn) (word : String) (e : Elements) :
    (kwm.peek entries sortFn word e).2.Perm (peekKeywords.filterMap (peekRange word))
    ∧ (kwm.peek entries sortFn word e).2.Pairwise (fun a b => indexSets.Less b a = false) := by
  have e1 : (kwm.peek entries sortFn word e).2
      = sortFn (entries.flatMap (fun ck => ck.2.filterMap (peekRange word))) := by
    unfold keywordManager.peek
    simp only []
    rw [peek_outer]
    simp
  have e2 : peekEntries.flatMap (fun ck => ck.2.filterMap (peekRange word))
      = peekKeywords.filterMap (peekRange word) := by
    unfold peekKeywords
    induction peekEntries with
    | nil => rfl
    | cons ck l ih => simp only [List.flatMap_cons, List.filterMap_append, ih]
  rw [e1]
  refine ⟨?_, (hsort _).2⟩
  rw [← e2]
  exact (hsort _).1.trans (List.Perm.flatMap_right _ hperm)

theorem peekKeywords_not_nested :
    ∀ k1 ∈ peekKeywords, ∀ k2 ∈ peekKeywords, k2.data <:+: k1.data → k1 = k2 := by
  decide

theorem peekKeywords_nodup : peekKeywords.Nodup := by
  decide

theorem peekKeywords_nonempty : ∀ k ∈ peekKeywords, 0 < goLen k := by
  decide

/-- Two ranges of different canonical forms found in one word: one begins and ends before
the other. -/
theorem peekRanges_ordered (word : String) :
    (peekKeywords.filterMap (peekRange word)).Pairwise (fun a b =>
      (a.beginPos < b.beginPos ∧ a.endPos < b.endPos)
      ∨ (b.beginPos < a.beginPos ∧ b.endPos < a.endPos)) := by
  rw [List.pairwise_filterMap]
  have hmem : ∀ k1 ∈ peekKeywords, ∀ k2 ∈ peekKeywords, k1 ≠ k2 →
      ∀ s1 ∈ peekRange word k1, ∀ s2 ∈ peekRange word k2,
        (s1.beginPos < s2.beginPos ∧ s1.endPos < s2.endPos)
        ∨ (s2.beginPos < s1.beginPos ∧ s2.endPos < s1.endPos) := by
    intro k1 m1 k2 m2 hne s1 h1 s2 h2
    have r1 := (peekRange_some word k1 s1 h1).1
    have r2 := (peekRange_some word k2 s2 h2).1
    by_contra hcon
    rw [not_or, not_and, not_and] at hcon
    have nest : (s1.beginPos ≤ s2.beginPos ∧ s2.endPos ≤ s1.endPos)
        ∨ (s2.beginPos ≤ s1.beginPos ∧ s1.endPos ≤ s2.endPos) := by
      obtain ⟨c1, c2⟩ := hcon
      by_cases g : s1.beginPos < s2.beginPos
      · exact Or.inl ⟨le_of_lt g, not_lt.1 (c1 g)⟩
      · by_cases g2 : s2.beginPos < s1.beginPos
        · exact Or.inr ⟨le_of_lt g2, not_lt.1 (c2 g2)⟩
        · rcases le_total s2.endPos s1.endPos with g3 | g3
          · exact Or.inl ⟨not_lt.1 g2, g3⟩
          · exact Or.inr ⟨not_lt.1 g, g3⟩
    rcases nest with ⟨a, b⟩ | ⟨a, b⟩
    · exact hne (peekKeywords_not_nested k1 m1 k2 m2 (infix_of_nested word s1 s2 k1 k2 r1 r2 a b))
    · exact hne (peekKeywords_not_nested k2 m2 k1 m1
        (infix_of_nested word s2 s1 k2 k1 r2 r1 a b)).symm
  have hnd := peekKeywords_nodup
  generalize peekKeywords = l at hmem hnd
  induction l with
  | nil => exact List.Pairwise.nil
  | cons k l ih =>
    rw [List.nodup_cons] at hnd
    refine List.Pairwise.cons ?_ (ih (fun k1 m1 k2 m2 => hmem k1 (List.mem_cons_of_mem _ m1) k2
      (List.mem_cons_of_mem _ m2)) hnd.2)
    intro k2 m2
    exact hmem k (List.mem_cons_self _ _) k2 (List.mem_cons_of_mem _ m2)
      (fun e => hnd.1 (e ▸ m2))
theorem sortBySum_sortsByLess : sortsByLess sortBySum := by
  intro l
  refine ⟨List.perm_insertionSort _ l, ?_⟩
  have hs := @List.sorted_insertionSort indexSet
    (fun a b => a.beginPos + a.endPos ≤ b.beginPos + b.endPos) _
    ⟨fun a b => le_total _ _⟩ ⟨fun a b c h1 h2 => le_trans h1 h2⟩ l
  refine List.Pairwise.imp ?_ hs
  intro a b h
  unfold indexSets.Less
  rw [decide_eq_false_iff_not]
  exact not_lt.2 h

/-- C26: for every order in which the map of `peek` is visited and every sort that meets the
contract of `sort.Sort`, the ranges that `peek` returns lie inside the word and hold a
canonical form each, begin and end strictly later from one range to the next, and are the
same list as for the order of the source and an insertion sort. -/
theorem peek_sorted_by_position (kwm : keywordManager)
    (entries : List (elementCategory × List String)) (hperm : entries.Perm peekEntries)
    (sortFn : indexSets → indexSets) (hsort : sortsByLess sortFn) (word : String)
    (e : Elements) :
    (∀ s ∈ (kwm.peek entries sortFn word e).2,
      0 ≤ s.beginPos ∧ s.beginPos < s.endPos ∧ s.endPos ≤ (goLen word : Int)
      ∧ ∃ kw ∈ peekKeywords, rangeHolds word s kw)
    ∧ (kwm.peek entries sortFn word e).2.Pairwise
        (fun a b => a.beginPos < b.beginPos ∧ a.endPos < b.endPos)
    ∧ (kwm.peek entries sortFn word e).2 = (kwm.peek peekEntries sortBySum word e).2 := by
  have strict : ∀ (en : List (elementCategory × List String)) (sf : indexSets → indexSets),
      en.Perm peekEntries → sortsByLess sf →
      (kwm.peek en sf word e).2.Pairwise
        (fun a b => a.beginPos < b.beginPos ∧ a.endPos < b.endPos) := by
    intro en sf hp hs
    obtain ⟨p1, p2⟩ := peek_ranges kwm en hp sf hs word e
    have ord := (List.Perm.pairwise_iff (fun {x y} h => Or.symm h) p1).2
      (peekRanges_ordered word)
    refine List.Pairwise.imp ?_ (List.Pairwise.and ord p2)
    rintro a b ⟨h1 | h1, h2⟩
    · exact h1
    · exfalso
      unfold indexSets.Less at h2
      rw [decide_eq_false_iff_not] at h2
      omega
  obtain ⟨p1, _⟩ := peek_ranges kwm entries hperm sortFn hsort word e
  obtain ⟨q1, _⟩ := peek_ranges kwm peekEntries (List.Perm.refl _) sortBySum
    sortBySum_sortsByLess word e
  refine ⟨?_, strict entries sortFn hperm hsort, ?_⟩
  · intro s hs
    obtain ⟨kw, hk, hr⟩ := List.mem_filterMap.1 (p1.mem_iff.1 hs)
    obtain ⟨hh, h0⟩ := peekRange_some word kw s hr
    have hpos := peekKeywords_nonempty kw hk
    obtain ⟨pre, post, w1, b1, e1⟩ := hh
    refine ⟨h0, by rw [e1]; omega, ?_, kw, hk, ⟨pre, post, w1, b1, e1⟩⟩
    have hn : (pre.map charBytes).sum + goLen kw ≤ goLen word := by
      unfold goLen
      rw [w1, bytes_append, bytes_append]
      omega
    rw [e1, b1]
    exact_mod_cast hn
  · exact @List.eq_of_perm_of_sorted indexSet
      (fun a b => a.beginPos < b.beginPos ∧ a.endPos < b.endPos)
      ⟨fun a b h1 h2 => absurd h1.1 (not_lt.2 (le_of_lt h2.1))⟩ _ _ (p1.trans q1.symm)
      (strict entries sortFn hperm hsort)
      (strict peekEntries sortBySum (List.Perm.refl _) sortBySum_sortsByLess)

theorem peek_sorted_by_position_witness :
    peekEntries.reverse.Perm peekEntries
    ∧ sortsByLess sortBySum
    ∧ (newKeywordManager.peek peekEntries.reverse sortBySum "H26480p 1080p Blu-Ray"
        Elements.new).2 = [⟨0, 4⟩, ⟨3, 7⟩, ⟨8, 13⟩, ⟨14, 21⟩]
    ∧ (newKeywordManager.peek peekEntries.reverse sortBySum "H26480p 1080p Blu-Ray"
        Elements.new).2.Pairwise (fun a b => a.beginPos < b.beginPos ∧ a.endPos < b.endPos)
    ∧ (newKeywordManager.peek peekEntries.reverse sortBySum "H26480p 1080p Blu-Ray"
        Elements.new).2
      = (newKeywordManager.peek peekEntries sortBySum "H26480p 1080p Blu-Ray" Elements.new).2 :=
  ⟨List.reverse_perm _, sortBySum_sortsByLess, by decide,
    (peek_sorted_by_position newKeywordManager peekEntries.reverse (List.reverse_perm _)
      sortBySum sortBySum_sortsByLess "H26480p 1080p Blu-Ray" Elements.new).2.1,
    (peek_sorted_by_position newKeywordManager peekEntries.reverse (List.reverse_perm _)
      sortBySum sortBySum_sortsByLess "H26480p 1080p Blu-Ray" Elements.new).2.2⟩

/-! ## Theorems: the season range -/

/-- The season handler on a keyword token that no ordinal precedes and that is not itself a
shortened range, followed by `a-b` or `a~b` with `a`, `b` numeric of equal width: the two
calls of `setAnimeSeason`. -/
theorem parser.checkAnimeSeasonKeyword_range (D : Deps) (p : parser) (tkn nextToken : tokenPtr)
    (a b : String) (c : Char) (hprev : ¬ p.ordinalBefore D tkn)
    (hshort : seasonRe.findStringSubmatch 2 (p.tokens.deref tkn).Content = none)
    (hnext : p.tokens.findNext tkn tokenFlagsNotDelimiter = (nextToken, true))
    (hcontent : (p.tokens.deref nextToken).Content = rangeText a c b)
    (ha : isNumeric a = true) (hb : isNumeric b = true) (hw : goLen a = goLen b)
    (hc : c = '-' ∨ c = '~') :
    p.checkAnimeSeasonKeyword D tkn
      = (false, (p.setAnimeSeason tkn nextToken a).setAnimeSeason tkn nextToken b) := by
  have hc3 : c = '-' ∨ c = '~' ∨ c = '&' := by
    rcases hc with e | e
    · exact Or.inl e
    · exact Or.inr (Or.inl e)
  have hamp : c ≠ '&' := by
    rcases hc with e | e <;> subst e <;> decide
  unfold parser.checkAnimeSeasonKeyword
  unfold parser.ordinalBefore at hprev
  simp only [if_neg hprev, hnext]
  rw [parser.seasonShortenedRange_none p tkn _ hshort,
    parser.seasonRange_rangeText p tkn _ a b c hcontent ha hb hw hc3]
  have hn : ∀ q : parser, parser.sameWords p q →
      isNumeric (q.tokens.deref nextToken).Content = false := by
    intro q hq
    rw [parser.content_of_sameWords hq, hcontent]
    exact isNumeric_rangeText a b c (reDigit_separator c hc3)
  simp only [hamp, if_false]
  simp [hn _ (parser.setAnimeSeason_twice_sameWords p _ _ _ _ _ _)]

/-- Two inserts under AnimeSeason add the two values at the end, in that order. -/
theorem Elements.insert_season_twice (e : Elements) (a b : String) :
    ((e.insert elementCategory.AnimeSeason a).insert elementCategory.AnimeSeason b).get
        elementCategory.AnimeSeason
      = e.get elementCategory.AnimeSeason ++ [a, b] := by
  simp [Elements.insert, Elements.get, Elements.put, elementCategory.isSingular]

theorem tokens.getIndex_lt (ts : Tanuki.tokens) (t : token) (start : Int) (k : Nat)
    (h : ts.getIndex t start = (k : Int)) : k < ts.length := by
  unfold tokens.getIndex at h
  split at h
  · rename_i m rest hm
    have hk : m = k := by exact_mod_cast h
    subst hk
    have hmem : m ∈ (ts.scan tokenFlagsNone start.toNat ts.length).filter
        (fun i => decide (ts.getD i token.zero = t)) := by
      rw [hm]; exact List.mem_cons_self _ _
    have h2 := (List.mem_filter.1 hmem).1
    unfold tokens.scan at h2
    exact List.mem_range.1 (List.mem_filter.1 h2).1
  · omega

/-- A token that is an Identifier stays one when a token is set Identifier. -/
theorem tokens.setCategory_identifier_keeps (ts : Tanuki.tokens) (x : tokenPtr) (n : Nat)
    (h : (ts.getD n token.zero).Category = tokenCategory.Identifier) :
    ((ts.setCategory x tokenCategory.Identifier).getD n token.zero).Category
      = tokenCategory.Identifier := by
  cases x with
  | none => exact h
  | some m =>
    by_cases hmn : m = n
    · subst hmn
      unfold tokens.setCategory
      simp only [List.getD_eq_getElem?_getD, List.getElem?_modify, if_true] at h ⊢
      cases hg : ts[m]? with
      | none => rw [hg] at h; exact h
      | some t => rfl
    · rw [tokens.setCategory_getD_ne ts m n _ hmn]
      exact h

/-- The token set Identifier is an Identifier afterwards. -/
theorem tokens.setCategory_identifier_at (ts : Tanuki.tokens) (n : Nat) (h : n < ts.length) :
    ((ts.setCategory (some n) tokenCategory.Identifier).getD n token.zero).Category
      = tokenCategory.Identifier := by
  unfold tokens.setCategory
  simp only [List.getD_eq_getElem?_getD, List.getElem?_modify, if_true]
  rw [List.getElem?_eq_getElem h]
  rfl

/-- The tokens after `setAnimeSeason`: a token that is an Identifier stays one. -/
theorem parser.setAnimeSeason_identifier_keeps (p : parser) (first second : tokenPtr)
    (content : String) (n : Nat)
    (h : (p.tokens.getD n token.zero).Category = tokenCategory.Identifier) :
    (((p.setAnimeSeason first second content).tokens).getD n token.zero).Category
      = tokenCategory.Identifier := by
  unfold parser.setAnimeSeason
  exact tokens.setCategory_identifier_keeps _ _ _ (tokens.setCategory_identifier_keeps _ _ _ h)

/-- The tokens after `setAnimeSeason` on two tokens that are the first of the store with
their value: both are Identifier. -/
theorem parser.setAnimeSeason_marks (p : parser) (i j : Nat) (content : String)
    (hi : p.tokens.getIndex (p.tokens.deref (some i)) 0 = i)
    (hj : p.tokens.getIndex (p.tokens.deref (some j)) i = j) :
    (((p.setAnimeSeason (some i) (some j) content).tokens).getD i token.zero).Category
        = tokenCategory.Identifier
    ∧ (((p.setAnimeSeason (some i) (some j) content).tokens).getD j token.zero).Category
        = tokenCategory.Identifier := by
  have li := tokens.getIndex_lt _ _ _ _ hi
  have lj := tokens.getIndex_lt _ _ _ _ hj
  unfold parser.setAnimeSeason
  simp only [hi, hj]
  have gi : p.tokens.get (i : Int) = (some i, true) := by
    unfold tokens.get
    simp [li]
  have gj : p.tokens.get (j : Int) = (some j, true) := by
    unfold tokens.get
    simp [lj]
  rw [gi, gj]
  have l1 : i < (p.tokens.setCategory (some i) tokenCategory.Identifier).length := by
    unfold tokens.setCategory
    rw [List.length_modify]
    exact li
  have l2 : j < (p.tokens.setCategory (some i) tokenCategory.Identifier).length := by
    unfold tokens.setCategory
    rw [List.length_modify]
    exact lj
  exact ⟨tokens.setCategory_identifier_keeps _ _ _ (tokens.setCategory_identifier_at _ _ li),
    tokens.setCategory_identifier_at _ _ l2⟩

/-- C4: when the season handler is applied to a keyword token (the token at `i`) that no
ordinal precedes and that is not itself a shortened range, and the next token that is not a
delimiter (the token at `j`) is `a-b` or `a~b` with `a`, `b` numeric of equal width, such
as `Seasons` followed by `1-2`, then the AnimeSeason element afterwards is what it was
before followed by `a` and `b`, in that order, and the keyword token and the range token
are both Identifier.  `setAnimeSeason` receives the two tokens by value and looks their
positions up with `getIndex`: the two tokens are taken to be the first of the store with
their value. -/
theorem season_range_stores_both (D : Deps) (p : parser) (i j : Nat) (a b : String) (c : Char)
    (hprev : ¬ p.ordinalBefore D (some i))
    (hshort : seasonRe.findStringSubmatch 2 (p.tokens.deref (some i)).Content = none)
    (hnext : p.tokens.findNext (some i) tokenFlagsNotDelimiter = (some j, true))
    (hcontent : (p.tokens.deref (some j)).Content = rangeText a c b)
    (ha : isNumeric a = true) (hb : isNumeric b = true) (hw : goLen a = goLen b)
    (hc : c = '-' ∨ c = '~')
    (hi : p.tokens.getIndex (p.tokens.deref (some i)) 0 = i)
    (hj : p.tokens.getIndex (p.tokens.deref (some j)) i = j) :
    (p.checkAnimeSeasonKeyword D (some i)).2.elements.get elementCategory.AnimeSeason
        = p.elements.get elementCategory.AnimeSeason ++ [a, b]
    ∧ ((p.checkAnimeSeasonKeyword D (some i)).2.tokens.deref (some i)).Category
        = tokenCategory.Identifier
    ∧ ((p.checkAnimeSeasonKeyword D (some i)).2.tokens.deref (some j)).Category
        = tokenCategory.Identifier := by
  rw [parser.checkAnimeSeasonKeyword_range D p (some i) (some j) a b c hprev hshort hnext
    hcontent ha hb hw hc]
  have hm := parser.setAnimeSeason_marks p i j a hi hj
  refine ⟨Elements.insert_season_twice p.elements a b, ?_, ?_⟩
  · exact parser.setAnimeSeason_identifier_keeps _ _ _ _ _ hm.1
  · exact parser.setAnimeSeason_identifier_keeps _ _ _ _ _ hm.2

theorem season_range_stores_both_witness :
    ¬ (parser.new seasonsRangeTokens Options.default).ordinalBefore Deps.sample (some 0)
    ∧ seasonRe.findStringSubmatch 2
        ((parser.new seasonsRangeTokens Options.default).tokens.deref (some 0)).Content = none
    ∧ (parser.new seasonsRangeTokens Options.default).tokens.findNext (some 0)
        tokenFlagsNotDelimiter = (some 2, true)
    ∧ ((parser.new seasonsRangeTokens Options.default).tokens.deref (some 2)).Content
        = rangeText "1" '-' "2"
    ∧ (parser.new seasonsRangeTokens Options.default).tokens.getIndex
        ((parser.new seasonsRangeTokens Options.default).tokens.deref (some 0)) 0 = 0
    ∧ (parser.new seasonsRangeTokens Options.default).tokens.getIndex
        ((parser.new seasonsRangeTokens Options.default).tokens.deref (some 2)) 0 = 2
    ∧ (((parser.new seasonsRangeTokens Options.default).checkAnimeSeasonKeyword Deps.sample
          (some 0)).2.elements.get elementCategory.AnimeSeason
        = (parser.new seasonsRangeTokens Options.default).elements.get
            elementCategory.AnimeSeason ++ ["1", "2"]
      ∧ (((parser.new seasonsRangeTokens Options.default).checkAnimeSeasonKeyword Deps.sample
          (some 0)).2.tokens.deref (some 0)).Category = tokenCategory.Identifier
      ∧ (((parser.new seasonsRangeTokens Options.default).checkAnimeSeasonKeyword Deps.sample
          (some 0)).2.tokens.deref (some 2)).Category = tokenCategory.Identifier)
    ∧ ((parser.new seasonsRangeTokens Options.default).checkAnimeSeasonKeyword Deps.sample
        (some 0)).2.elements.get elementCategory.AnimeSeason = ["1", "2"]
    ∧ ((parser.new seasonsRangeTokens Options.default).checkAnimeSeasonKeyword Deps.sample
        (some 0)).2.tokens
        = [⟨tokenCategory.Identifier, "Seasons", false⟩, ⟨tokenCategory.Delimiter, " ", false⟩,
           ⟨tokenCategory.Identifier, "1-2", false⟩] :=
  ⟨by unfold parser.ordinalBefore; decide, by decide, by decide, by decide, by decide, by decide,
    season_range_stores_both Deps.sample (parser.new seasonsRangeTokens Options.default) 0 2
      "1" "2" '-' (by unfold parser.ordinalBefore; decide) (by decide) (by decide) (by decide)
      (by decide) (by decide) (by decide) (by decide) (by decide) (by decide),
    by decide, by decide⟩

end Tanuki
